import Mathlib

/-!
Verification development for the SQF virtual machine prototype.

Four parts of the repository are embedded here.

* `Preprocessor`: the character stream `preprocessorfileinfo` of
  `src/parser/preprocessor/default.h` (`_next`, `peek`, `next`, `get_word`,
  `get_line`, `move_back`).
* `SQFVM`: the stack machine of `SQF-VM/SQF.c` (`find_var`, `set_var`,
  `top_scope`, `store_in_scope`, `find_command`, `find_type`, `resize_stack`,
  `execute`).
* `debugger`: the loop of `debugger::check` and the replies that
  `sqfvm-cpp/debugger.cpp` builds for the requests `get-callstack` and
  `get-variable`.
* `logmessage` and `logging`: the message classes and the class `Logger` of
  `src/logging.h`.

Conventions of the embedding.

* A `std::string` is a `List Char`; one list element stands for one `char`.
* `size_t` fields are natural numbers.  Increments are plain `+ 1` (the
  fields are bounded by the length of the content, which never reaches
  `2^64`); a decrement of `0` wraps to `2^64 - 1` (`size_dec`).
* Recursion and loops of the source are tied by a fuel argument that is
  derived from the distance of the cursor to the end of the content; the
  lemmas `nextBody_congr`, `nextAux_fuel` and `next_eq` show that the fuel of
  `next` never runs out, `lineLoop_eq` and `blockLoop_eq` do so for its loops.
-/

namespace Preprocessor

/-- The character `'\0'`. -/
def NUL : Char := Char.ofNat 0

/-- The backslash character. -/
def BSL : Char := Char.ofNat 92

/-- The double quote character. -/
def DQT : Char := Char.ofNat 34

/-- Largest value of `size_t` (64 bit). -/
def SIZE_MAX : Nat := 18446744073709551615

/-- The effect of `--` on a `size_t`: decrementing `0` wraps around. -/
def size_dec (n : Nat) : Nat := if n = 0 then SIZE_MAX else n - 1

/-- The data members of `preprocessorfileinfo` that the character stream uses. -/
structure preprocessorfileinfo where
  content : List Char
  off : Nat
  line : Nat
  col : Nat
  last_col : Nat
  is_in_string : Bool
  is_in_block_comment : Bool
deriving DecidableEq

/-- A stream as the constructors leave it, with `content` filled in:
`off = 0`, `line = 1`, `col = 0`, `last_col = 0`, both flags `false`. -/
def fresh (content : List Char) : preprocessorfileinfo :=
  { content := content, off := 0, line := 1, col := 0, last_col := 0,
    is_in_string := false, is_in_block_comment := false }

/-- `_next()` with the recursion on `'\r'` bounded by `fuel`. -/
def _nextAux : Nat → preprocessorfileinfo → Char × preprocessorfileinfo
  | 0, s => (NUL, s)
  | fuel + 1, s =>
    if s.off ≥ s.content.length then (NUL, s)
    else
      let c := s.content.getD s.off NUL
      let s1 := { s with off := s.off + 1 }
      if c = '\n' then
        (c, { s1 with line := s1.line + 1, last_col := s1.col, col := 0 })
      else if c = '\r' then _nextAux fuel s1
      else (c, { s1 with col := s1.col + 1 })

/-- `_next()`: consume one raw character, skipping carriage returns and
keeping `line`, `col`, `off` up to date.  The fuel is the number of
characters left, which is exactly the number of recursive calls possible. -/
def _next (s : preprocessorfileinfo) : Char × preprocessorfileinfo :=
  _nextAux (s.content.length - s.off) s

/-- `peek(len)`: look ahead without consuming.  The sum `off + len` is
taken without wrap-around, which is exact for the lookaheads `0` and `1` that
`next()` uses; `peek_call` is the call in the arithmetic of `size_t`. -/
def peek (s : preprocessorfileinfo) (len : Nat) : Char :=
  if s.off + len ≥ s.content.length then NUL else s.content.getD (s.off + len) NUL

/-- Result of the loop that skips the inside of a block comment: the last
character read, the state, and whether the loop stopped at a `*` that is
followed by `/` (the branch of the loop body that closes the comment). -/
structure BlockScan where
  c : Char
  s : preprocessorfileinfo
  closed : Bool
deriving DecidableEq

/-- The loop `while ((c = _next()) != '\0') { if (c == '\n') break;
else if (c == '*' && peek() == '/') { ...; break; } }` of `next()`, up to
the point where it leaves the loop. -/
def blockLoopAux : Nat → preprocessorfileinfo → BlockScan
  | 0, s => ⟨(_next s).1, (_next s).2, false⟩
  | fuel + 1, s =>
    let r := _next s
    if r.1 = NUL then ⟨r.1, r.2, false⟩
    else if r.1 = '\n' then ⟨r.1, r.2, false⟩
    else if r.1 = '*' ∧ peek r.2 0 = '/' then ⟨r.1, r.2, true⟩
    else blockLoopAux fuel r.2

/-- The block comment loop, with fuel for every character left. -/
def blockLoop (s : preprocessorfileinfo) : BlockScan :=
  blockLoopAux (s.content.length - s.off) s

/-- The loop `while ((c = _next()) != '\0' && c != '\n');` of `next()`. -/
def lineLoopAux : Nat → preprocessorfileinfo → Char × preprocessorfileinfo
  | 0, s => _next s
  | fuel + 1, s =>
    let r := _next s
    if r.1 ≠ NUL ∧ r.1 ≠ '\n' then lineLoopAux fuel r.2 else r

/-- The line comment loop, with fuel for every character left. -/
def lineLoop (s : preprocessorfileinfo) : Char × preprocessorfileinfo :=
  lineLoopAux (s.content.length - s.off) s

/-- The end of `next()` (from `if (c == '\\')` on): fold a line
continuation, toggle string mode on a double quote, return `c`.
`rec` stands for the recursive call of `next()`. -/
def nextTail (rec : preprocessorfileinfo → Char × preprocessorfileinfo)
    (c : Char) (s : preprocessorfileinfo) : Char × preprocessorfileinfo :=
  if c = BSL ∧ ((peek s 0 = '\r' ∧ peek s 1 = '\n') ∨ peek s 0 = '\n') then
    rec (_next s).2
  else if c = DQT then (c, { s with is_in_string := !s.is_in_string })
  else (c, s)

/-- The body of `next()`; `rec` stands for the recursive call of `next()`. -/
def nextBody (rec : preprocessorfileinfo → Char × preprocessorfileinfo)
    (s0 : preprocessorfileinfo) : Char × preprocessorfileinfo :=
  let r := _next s0
  let c := r.1
  let s := r.2
  if s.is_in_string = false ∧ (c = '/' ∨ s.is_in_block_comment = true) then
    if c = '\n' then (c, s)
    else
      let pc := peek s 0
      if s.is_in_block_comment = true ∧ c = '*' ∧ pc = '/' then
        rec { (_next s).2 with is_in_block_comment := false }
      else if pc = '*' ∨ s.is_in_block_comment = true then
        let s1 := if s.is_in_block_comment = false then (_next s).2 else s
        let s2 := { s1 with is_in_block_comment := true }
        let l := blockLoop s2
        if l.closed = true then
          let r2 := rec { (_next l.s).2 with is_in_block_comment := false }
          nextTail rec r2.1 r2.2
        else nextTail rec l.c l.s
      else if pc = '/' then
        let l := lineLoop s
        nextTail rec l.1 l.2
      else nextTail rec c s
  else nextTail rec c s

/-- `next()` with the depth of the recursion bounded by `fuel`. -/
def nextAux : Nat → preprocessorfileinfo → Char × preprocessorfileinfo
  | 0 => fun s => (NUL, s)
  | fuel + 1 => nextBody (nextAux fuel)

/-- `next()`: the next logical character.  Every recursive call is made
after at least one character has been consumed, so one unit of fuel per
character left, plus one, is never used up (`nextAux_fuel`). -/
def next (s : preprocessorfileinfo) : Char × preprocessorfileinfo :=
  nextAux (s.content.length - s.off + 1) s

/-- The characters returned by `n` successive calls of `next()`, and the
state after them. -/
def nexts : Nat → preprocessorfileinfo → List Char × preprocessorfileinfo
  | 0, s => ([], s)
  | n + 1, s =>
    let r := next s
    let rs := nexts n r.2
    (r.1 :: rs.1, rs.2)

/-- The test of `get_word()`: `[A-Za-z0-9_]`. -/
def isWordChar (c : Char) : Bool :=
  ('A' ≤ c ∧ c ≤ 'Z') ∨ ('a' ≤ c ∧ c ≤ 'z') ∨ ('0' ≤ c ∧ c ≤ '9') ∨ c = '_'

/-- `move_back()` with the recursion on `'\r'` bounded by `fuel`. -/
def move_backAux : Nat → preprocessorfileinfo → preprocessorfileinfo
  | 0, s => s
  | fuel + 1, s =>
    if s.off = 0 then s
    else
      let s1 := { s with off := s.off - 1 }
      let c := s1.content.getD s1.off NUL
      if c = '\n' then { s1 with line := size_dec s1.line, col := s1.last_col }
      else if c = '\r' then move_backAux fuel s1
      else { s1 with col := size_dec s1.col }

/-- `move_back()`: step one character back.  The fuel `off` is exactly the
number of recursive calls possible before `off == 0` returns. -/
def move_back (s : preprocessorfileinfo) : preprocessorfileinfo :=
  move_backAux s.off s

/-- The loop of `get_word()`; the second component is `off_end`. -/
def get_wordLoop : Nat → preprocessorfileinfo → Nat → preprocessorfileinfo × Nat
  | 0, s, off_end => ((next s).2, off_end)
  | fuel + 1, s, off_end =>
    let r := next s
    if r.1 ≠ NUL ∧ isWordChar r.1 = true then get_wordLoop fuel r.2 r.2.off
    else (r.2, off_end)

/-- `content.substr(pos, len)` for `pos ≤ content.length`. -/
def substr (content : List Char) (pos len : Nat) : List Char :=
  (content.drop pos).take len

/-- `get_word()`: the returned string and the state it leaves. -/
def get_word (s : preprocessorfileinfo) : List Char × preprocessorfileinfo :=
  let off_start := s.off
  let l := get_wordLoop (s.content.length - s.off) s s.off
  (substr s.content off_start (l.2 - off_start), move_back l.1)

/-- Local variables of the `catchEscapedNewLine` loop of `get_line`. -/
structure LineScan where
  s : preprocessorfileinfo
  escaped : Bool
  outputString : List Char
deriving DecidableEq

/-- The loop `while (!exit && (c = next()) != '\0') switch (c) ...` of
`get_line(true)`. -/
def get_lineLoop : Nat → LineScan → LineScan
  | 0, st => { st with s := (next st.s).2 }
  | fuel + 1, st =>
    let r := next st.s
    if r.1 = NUL then { st with s := r.2 }
    else if r.1 = BSL then get_lineLoop fuel { st with s := r.2, escaped := true }
    else if r.1 = '\n' then
      if st.escaped = false then { st with s := r.2, escaped := false }
      else get_lineLoop fuel { st with s := r.2, escaped := false }
    else
      let out := if st.escaped = true then st.outputString ++ [BSL] else st.outputString
      get_lineLoop fuel { s := r.2, escaped := false, outputString := out ++ [r.1] }

/-- The loop `while ((c = next()) != '\0' && c != '\n') {}` of
`get_line(false)`. -/
def get_lineRawLoop : Nat → preprocessorfileinfo → preprocessorfileinfo
  | 0, s => (next s).2
  | fuel + 1, s =>
    let r := next s
    if r.1 ≠ NUL ∧ r.1 ≠ '\n' then get_lineRawLoop fuel r.2 else r.2

/-- `get_line(catchEscapedNewLine)`: the returned string and the state it
leaves. -/
def get_line (s : preprocessorfileinfo) (catchEscapedNewLine : Bool) :
    List Char × preprocessorfileinfo :=
  if catchEscapedNewLine = true then
    let l := get_lineLoop (s.content.length - s.off) ⟨s, false, []⟩
    (l.outputString, l.s)
  else
    let s1 := get_lineRawLoop (s.content.length - s.off) s
    (substr s.content s.off (s1.off - s.off), s1)

end Preprocessor

namespace Preprocessor

/-- One plus the number of `'\n'` among the first `off` characters. -/
def lineAt (content : List Char) (off : Nat) : Nat :=
  1 + (content.take off).count '\n'

/-- The number of characters other than `'\r'` that follow the last `'\n'`
among the first `off` characters (all of them when there is no `'\n'`). -/
def colAt (content : List Char) (off : Nat) : Nat :=
  (((content.take off).reverse.takeWhile (fun c => c ≠ '\n')).filter (fun c => c ≠ '\r')).length

end Preprocessor

namespace Preprocessor

/-- The first logical line of a text, in the words of the specification:
the text up to, and not including, the first line feed that is not
immediately preceded by a backslash, with every backslash-line-feed pair
removed and every other character kept. -/
def firstLogicalLine : List Char → List Char
  | [] => []
  | [c] => if c = '\n' then [] else [c]
  | c :: d :: rest =>
    if c = '\n' then []
    else if c = BSL ∧ d = '\n' then firstLogicalLine rest
    else c :: firstLogicalLine (d :: rest)

end Preprocessor

namespace Preprocessor

/-- Short name of the stream state. -/
abbrev PFI := preprocessorfileinfo

/-- A property of stream states that raw steps and flag updates keep. -/
structure Stable (P : PFI → Prop) : Prop where
  raw : ∀ t, P t → P (_next t).2
  str : ∀ t b, P t → P { t with is_in_string := b }
  blk : ∀ t b, P t → P { t with is_in_block_comment := b }

/-- The position invariant of the stream over `content`. -/
def Pos (content : List Char) (s : PFI) : Prop :=
  s.content = content ∧ s.off ≤ content.length ∧
    s.line = lineAt content s.off ∧ s.col = colAt content s.off

/-- The states over the content of `s` whose cursor is not before that of `s`. -/
def Reach (s t : PFI) : Prop := t.content = s.content ∧ s.off ≤ t.off

/-- The states reached from `u` that, as long as the cursor has not moved,
still report the position of `u`. -/
def SamePos (u x : PFI) : Prop :=
  x.content = u.content ∧ u.off ≤ x.off ∧
    (x.off = u.off → x.line = u.line ∧ x.col = u.col ∧ x.last_col = u.last_col)

end Preprocessor

namespace Preprocessor

/-- Whether a text contains the two characters `*/` in a row. -/
def hasClose : List Char → Bool
  | [] => false
  | c :: rest => (c = '*' ∧ rest.head? = some '/') || hasClose rest

end Preprocessor

namespace Preprocessor

/-- Two stream states that have the same text ahead of the cursor and the
same flags. -/
def Sim (s t : PFI) : Prop :=
  s.content.drop s.off = t.content.drop t.off ∧
    s.is_in_string = t.is_in_string ∧ s.is_in_block_comment = t.is_in_block_comment

/-- Two results of a step that return the same character and leave states
with the same text ahead and the same flags. -/
def Lock (r1 r2 : Char × PFI) : Prop := r1.1 = r2.1 ∧ Sim r1.2 r2.2

end Preprocessor

namespace Preprocessor

/-- Every backslash of the text is followed by a character that is not a
backslash: no two backslashes in a row and no backslash at the end. -/
def backslashesFollowed : List Char → Bool
  | [] => true
  | [c] => c ≠ BSL
  | c :: d :: rest => (c ≠ BSL ∨ d ≠ BSL) && backslashesFollowed (d :: rest)

end Preprocessor

namespace Preprocessor

/-- `peek(len)` as a member call, in the arithmetic of `size_t`: the
character returned and the state after the call.  The sum `off + len` wraps
around at `2^64`; no statement of the body assigns to a data member, so both
branches leave the state as it is.  For `off + len` below `2^64` the character
is `peek s len` (`peek_call_eq`). -/
def peek_call (s : preprocessorfileinfo) (len : Nat) : Char × preprocessorfileinfo :=
  if (s.off + len) % (SIZE_MAX + 1) ≥ s.content.length then (NUL, s)
  else (s.content.getD ((s.off + len) % (SIZE_MAX + 1)) NUL, s)

end Preprocessor

namespace Preprocessor

/-- A stream state over `content` whose cursor is not behind the end. -/
def Within (content : List Char) (s : preprocessorfileinfo) : Prop :=
  s.content = content ∧ s.off ≤ content.length

/-- What a returned character says about the cursor: the state is over
`content` with the cursor inside, a line feed was returned only with the cursor
just behind a line feed, and NUL only with the cursor at the end. -/
def Consumed (content : List Char) (r : Char × preprocessorfileinfo) : Prop :=
  Within content r.2 ∧
    (r.1 = '\n' → 0 < r.2.off ∧ content.getD (r.2.off - 1) NUL = '\n') ∧
    (r.1 = NUL → r.2.off = content.length)

/-- The cursor `off` is at the start of a line or at the end of the input:
it is the length of the content, or the character before it is a line feed. -/
def AtLineStart (content : List Char) (off : Nat) : Prop :=
  off = content.length ∨ (0 < off ∧ content.getD (off - 1) NUL = '\n')

end Preprocessor

namespace Preprocessor

/-!
The recursions and loops of the stream, unfolded at most `fuel` times, with an
arbitrary function `d` in place of what would be computed beyond that depth.
With `d s = (NUL, s)` the first one is `_nextAux`; the others relate to the
definitions above in the same way.  They serve to state that the depth
`length(content) - off + 1` is never exceeded: the results do not depend on
`d`.
-/

/-- `_next()` unfolded at most `fuel` times; `d` stands for the calls
nested deeper. -/
def _nextWith (d : preprocessorfileinfo → Char × preprocessorfileinfo) :
    Nat → preprocessorfileinfo → Char × preprocessorfileinfo
  | 0, s => d s
  | fuel + 1, s =>
    if s.off ≥ s.content.length then (NUL, s)
    else
      let c := s.content.getD s.off NUL
      let s1 := { s with off := s.off + 1 }
      if c = '\n' then
        (c, { s1 with line := s1.line + 1, last_col := s1.col, col := 0 })
      else if c = '\r' then _nextWith d fuel s1
      else (c, { s1 with col := s1.col + 1 })

/-- The line comment loop of `next()` with at most `fuel` turns; `d` stands
for the turns after them. -/
def lineLoopWith (d : preprocessorfileinfo → Char × preprocessorfileinfo) :
    Nat → preprocessorfileinfo → Char × preprocessorfileinfo
  | 0, s => d s
  | fuel + 1, s =>
    let r := _next s
    if r.1 ≠ NUL ∧ r.1 ≠ '\n' then lineLoopWith d fuel r.2 else r

/-- The block comment loop of `next()` with at most `fuel` turns; `d`
stands for the turns after them. -/
def blockLoopWith (d : preprocessorfileinfo → BlockScan) :
    Nat → preprocessorfileinfo → BlockScan
  | 0, s => d s
  | fuel + 1, s =>
    let r := _next s
    if r.1 = NUL then ⟨r.1, r.2, false⟩
    else if r.1 = '\n' then ⟨r.1, r.2, false⟩
    else if r.1 = '*' ∧ peek r.2 0 = '/' then ⟨r.1, r.2, true⟩
    else blockLoopWith d fuel r.2

/-- `next()` unfolded at most `fuel` times; `d` stands for the calls nested
deeper. -/
def nextWith (d : preprocessorfileinfo → Char × preprocessorfileinfo) :
    Nat → preprocessorfileinfo → Char × preprocessorfileinfo
  | 0 => d
  | fuel + 1 => nextBody (nextWith d fuel)

/-- The loop of `get_word()` with at most `fuel` turns; `d` stands for the
turns after them. -/
def get_wordLoopWith (d : preprocessorfileinfo → Nat → preprocessorfileinfo × Nat) :
    Nat → preprocessorfileinfo → Nat → preprocessorfileinfo × Nat
  | 0, s, off_end => d s off_end
  | fuel + 1, s, off_end =>
    let r := next s
    if r.1 ≠ NUL ∧ isWordChar r.1 = true then get_wordLoopWith d fuel r.2 r.2.off
    else (r.2, off_end)

/-- The loop of `get_line(true)` with at most `fuel` turns; `d` stands for
the turns after them. -/
def get_lineLoopWith (d : LineScan → LineScan) : Nat → LineScan → LineScan
  | 0, st => d st
  | fuel + 1, st =>
    let r := next st.s
    if r.1 = NUL then { st with s := r.2 }
    else if r.1 = BSL then get_lineLoopWith d fuel { st with s := r.2, escaped := true }
    else if r.1 = '\n' then
      if st.escaped = false then { st with s := r.2, escaped := false }
      else get_lineLoopWith d fuel { st with s := r.2, escaped := false }
    else
      let out := if st.escaped = true then st.outputString ++ [BSL] else st.outputString
      get_lineLoopWith d fuel { s := r.2, escaped := false, outputString := out ++ [r.1] }

/-- The loop of `get_line(false)` with at most `fuel` turns; `d` stands for
the turns after them. -/
def get_lineRawLoopWith (d : preprocessorfileinfo → preprocessorfileinfo) :
    Nat → preprocessorfileinfo → preprocessorfileinfo
  | 0, s => d s
  | fuel + 1, s =>
    let r := next s
    if r.1 ≠ NUL ∧ r.1 ≠ '\n' then get_lineRawLoopWith d fuel r.2 else r.2

/-- The position invariant together with what `move_back()` needs of
`last_col`: when the last character before the cursor that is not a carriage
return is a line feed, `last_col` is the column at that line feed. -/
def PosUndo (content : List Char) (s : preprocessorfileinfo) : Prop :=
  Pos content s ∧
    ∀ j, j < s.off → content.getD j NUL = '\n' →
      (∀ i, j < i → i < s.off → content.getD i NUL = '\r') →
      s.last_col = colAt content j

/-- The state in which the calls of `next()` over the word characters at the
cursor leave the stream when it does not skip a block comment: the maximal run
of `[A-Za-z0-9_]` that starts at the cursor is consumed, `off` and `col` have
advanced by its length. -/
def behind_word (s : preprocessorfileinfo) : preprocessorfileinfo :=
  { s with off := s.off + ((s.content.drop s.off).takeWhile isWordChar).length,
           col := s.col + ((s.content.drop s.off).takeWhile isWordChar).length }

end Preprocessor

deriving instance DecidableEq for Except

namespace SQFVM

/-!
The stack machine of `SQF-VM/SQF.c`.

`SQF.h` and `SQF_types.h` are not part of the sources at hand, so the types
and the small helpers declared there are modelled here.  A pointer to an
instruction is an `Option INST` (`none` is the null pointer); a slot of a stack
above `top` keeps what was stored there last.  A call of `error` and a read
through a null pointer or outside an array end the run: functions that can do
so return `Except String`.
-/

/-- Modelled from the spec: `VALUE` of `SQF_types.h`, a type tag (the name
of the type command) and a payload. -/
structure VALUE where
  type : String
  val : Int
deriving DecidableEq

/-- Modelled from the spec: `SCOPE` of `SQF_types.h`.  `varstack` holds the
pairs `(varstack_name[j], varstack_value[j])` for `j < varstack_top`, in the
order of `j`; `varstack_size` is the capacity of the two arrays. -/
structure SCOPE where
  varstack_size : Nat
  varstack : List (String × VALUE)
deriving DecidableEq

/-- The field `varstack_top`: the number of bindings in the scope. -/
def SCOPE.varstack_top (scope : SCOPE) : Nat := scope.varstack.length

/-- Modelled from the spec: `INST` of `SQF_types.h`, an instruction with its
type tag (`INST_NOP`, `INST_COMMAND`, ...) and its payload. -/
inductive INST where
  | NOP
  | COMMAND (name : String)
  | SCOPE (scope : SCOPE)
  | LOAD_VAR (name : String)
  | STORE_VAR (name : String)
  | STORE_VAR_LOCAL (name : String)
  | VALUE (value : VALUE)
deriving DecidableEq

/-- Modelled from the spec: `STACK` of `SQF_types.h`.  `data` is the array
of instruction pointers, its length is the field `size`; the entries below
`top` are the content of the stack. -/
structure STACK where
  data : List (Option INST)
  top : Nat
deriving DecidableEq

/-- The field `size` of a stack. -/
def STACK.size (stack : STACK) : Nat := stack.data.length

/-- Modelled from the spec: `VM` of `SQF_types.h` without the command
table: the call stack `stack` and the work stack `work`. -/
structure VM where
  stack : STACK
  work : STACK
deriving DecidableEq

/-- Modelled from the spec: `push_stack` of `SQF.h`, store at `data[top]`
and increment `top`; a full stack is an error. -/
def push_stack (stack : STACK) (inst : INST) : Except String STACK :=
  if stack.top ≥ stack.size then .error "STACK OVERFLOW"
  else .ok { data := stack.data.set stack.top (some inst), top := stack.top + 1 }

/-- Modelled from the spec: `pop_stack` of `SQF.h`, decrement `top` and
return `data[top]`; the slot is left as it is. -/
def pop_stack (stack : STACK) : Except String (INST × STACK) :=
  if stack.top = 0 then .error "STACK UNDERFLOW"
  else
    match stack.data.getD (stack.top - 1) none with
    | none => .error "null instruction"
    | some inst => .ok (inst, { stack with top := stack.top - 1 })

/-- Modelled from the spec: `get_value` of `SQF.h`, the value of an
`INST_VALUE` instruction. -/
def get_value (inst : INST) : Except String VALUE :=
  match inst with
  | .VALUE v => .ok v
  | _ => .error "not a value instruction"

/-- Modelled from the spec: `strcmpi`, the comparison of two names that
ignores the case of ASCII letters; `0` means equal. -/
def strcmpi : List Char → List Char → Int
  | [], [] => 0
  | [], _ :: _ => -1
  | _ :: _, [] => 1
  | a :: as, b :: bs =>
    if a.toLower = b.toLower then strcmpi as bs
    else (a.toLower.toNat : Int) - (b.toLower.toNat : Int)

/-- The inner loop of `find_var`: the first binding of the scope whose name
equals `name` ignoring case. -/
def find_in_scope : List (String × VALUE) → String → Option VALUE
  | [], _ => none
  | (n, v) :: rest, name =>
    if strcmpi n.toList name.toList = 0 then some v else find_in_scope rest name

/-- The body of the outer loop of `find_var` at index `i`; `rest` is the
result of the turns that follow. -/
def find_varAt (data : List (Option INST)) (name : String) (i : Nat)
    (rest : Except String (Option VALUE)) : Except String (Option VALUE) :=
  match data.get? i with
  | none => .error "read outside the stack"
  | some none => .error "null instruction"
  | some (some (.SCOPE scope)) =>
    match find_in_scope scope.varstack name with
    | some v => .ok (some v)
    | none => rest
  | some (some _) => rest

/-- The outer loop of `find_var`, `for (i = ...; i >= 0; i--)`, from index
`i` down to `0`; the null pointer is returned after the last turn. -/
def find_varLoop (data : List (Option INST)) (name : String) :
    Nat → Except String (Option VALUE)
  | 0 => find_varAt data name 0 (.ok none)
  | j + 1 => find_varAt data name (j + 1) (find_varLoop data name j)

/-- `find_var(vm, name)`: the loop starts at `i = vm->stack->top`. -/
def find_var (vm : VM) (name : String) : Except String (Option VALUE) :=
  find_varLoop vm.stack.data name vm.stack.top

/-- The body of the loop of `top_scope` at index `i`; the scope found is
given by its index in the call stack. -/
def top_scopeAt (data : List (Option INST)) (i : Nat)
    (rest : Except String (Option Nat)) : Except String (Option Nat) :=
  match data.get? i with
  | none => .error "read outside the stack"
  | some none => .error "null instruction"
  | some (some (.SCOPE _)) => .ok (some i)
  | some (some _) => rest

/-- The loop of `top_scope`, from index `i` down to `0`. -/
def top_scopeLoop (data : List (Option INST)) : Nat → Except String (Option Nat)
  | 0 => top_scopeAt data 0 (.ok none)
  | j + 1 => top_scopeAt data (j + 1) (top_scopeLoop data j)

/-- `top_scope(vm)`: the loop starts at `i = vm->stack->top`. -/
def top_scope (vm : VM) : Except String (Option Nat) :=
  top_scopeLoop vm.stack.data vm.stack.top

/-- `store_in_scope` on the scope itself. -/
def store_in_scope (scope : SCOPE) (name : String) (val : VALUE) : Except String SCOPE :=
  if scope.varstack_top ≥ scope.varstack_size then .error "VARSTACK OVERFLOW"
  else .ok { scope with varstack := scope.varstack ++ [(name, val)] }

/-- `store_in_scope(vm, scope, name, val)` where `scope` is the result of
`top_scope`: a null pointer, or the scope at index `i` of the call stack. -/
def store_in_scope_at (vm : VM) (scope : Option Nat) (name : String) (val : VALUE) :
    Except String VM :=
  match scope with
  | none => .error "null scope"
  | some i =>
    match vm.stack.data.get? i with
    | some (some (.SCOPE sc)) =>
      match store_in_scope sc name val with
      | .ok sc2 =>
        .ok { vm with stack := { vm.stack with data := vm.stack.data.set i (some (.SCOPE sc2)) } }
      | .error e => .error e
    | _ => .error "not a scope"

/-- The inner loop of `set_var`: every binding of the scope whose name
equals `name` ignoring case gets the value `val`. -/
def set_in_scope : List (String × VALUE) → String → VALUE → List (String × VALUE)
  | [], _, _ => []
  | (n, v) :: rest, name, val =>
    (if strcmpi n.toList name.toList = 0 then (n, val) else (n, v)) ::
      set_in_scope rest name val

/-- The outer loop of `set_var`, from index `i` down to `0`: the call stack
after the updates and the first scope met (`first`). -/
def set_varLoop (name : String) (val : VALUE) :
    Nat → List (Option INST) → Option Nat → Except String (List (Option INST) × Option Nat)
  | i, data, first =>
    match data.get? i with
    | none => .error "read outside the stack"
    | some none => .error "null instruction"
    | some (some inst) =>
      let data2 : List (Option INST) :=
        match inst with
        | .SCOPE scope =>
          data.set i (some (.SCOPE { scope with varstack := set_in_scope scope.varstack name val }))
        | _ => data
      let first2 : Option Nat :=
        match inst with
        | .SCOPE _ => if first = none then some i else first
        | _ => first
      match i with
      | 0 => .ok (data2, first2)
      | j + 1 => set_varLoop name val j data2 first2

/-- `set_var(vm, name, val)`. -/
def set_var (vm : VM) (name : String) (val : VALUE) : Except String VM :=
  match set_varLoop name val vm.stack.top vm.stack.data none with
  | .error e => .error e
  | .ok (data, first) =>
    store_in_scope_at { vm with stack := { vm.stack with data := data } } first name val

/-- One turn of the loop of `execute`, entered with `vm->stack->top > 0`.
`callback` stands for the callbacks of the commands, which are not part of
the sources. -/
def execute_step (callback : String → VM → Except String VM) (vm : VM) : Except String VM :=
  match pop_stack vm.stack with
  | .error e => .error e
  | .ok (inst, stack) =>
    let vm1 : VM := { vm with stack := stack }
    match inst with
    | .NOP => .ok vm1
    | .COMMAND name => callback name vm1
    | .SCOPE _ => .ok vm1
    | .LOAD_VAR name =>
      match find_var vm1 name with
      | .error e => .error e
      | .ok none =>
        match push_stack vm1.work .NOP with
        | .error e => .error e
        | .ok work => .ok { vm1 with work := work }
      | .ok (some v) =>
        match push_stack vm1.work (.VALUE ⟨v.type, v.val⟩) with
        | .error e => .error e
        | .ok work => .ok { vm1 with work := work }
    | .STORE_VAR name =>
      match find_var vm1 name with
      | .error e => .error e
      | .ok found =>
        match pop_stack vm1.work with
        | .error e => .error e
        | .ok (inst2, work) =>
          let vm2 : VM := { vm1 with work := work }
          match found with
          | none =>
            match top_scope vm2 with
            | .error e => .error e
            | .ok scope =>
              match get_value inst2 with
              | .error e => .error e
              | .ok v => store_in_scope_at vm2 scope name ⟨v.type, v.val⟩
          | some _ =>
            match get_value inst2 with
            | .error e => .error e
            | .ok v2 => set_var vm2 name ⟨v2.type, v2.val⟩
    | .STORE_VAR_LOCAL name =>
      match top_scope vm1 with
      | .error e => .error e
      | .ok scope =>
        match pop_stack vm1.work with
        | .error e => .error e
        | .ok (inst2, work) =>
          match get_value inst2 with
          | .error e => .error e
          | .ok v => store_in_scope_at { vm1 with work := work } scope name ⟨v.type, v.val⟩
    | .VALUE v =>
      match push_stack vm1.work (.VALUE v) with
      | .error e => .error e
      | .ok work => .ok { vm1 with work := work }

/-- An instruction that is not a scope. -/
def notScope : INST → Prop
  | .SCOPE _ => False
  | _ => True

/-- The first `n` turns of the loop of `execute`. -/
def execute_steps (callback : String → VM → Except String VM) : Nat → VM → Except String VM
  | 0, vm => .ok vm
  | n + 1, vm =>
    match execute_step callback vm with
    | .error e => .error e
    | .ok vm1 => execute_steps callback n vm1

end SQFVM

namespace SQFVM

/-- Modelled from the spec: `CMD` of `SQF_types.h` as `create_command` fills
it, without the callback: the name, the kind (`'t'`, `'b'`, `'u'`, ...), the
precedence and the code of the kind. -/
structure CMD where
  name : String
  type : Char
  precedence_level : Nat
  type_code : Nat
deriving DecidableEq

/-- The loop of `find_command` for a kind other than `'*'`, over the
registered commands `vm->cmds[0 .. cmds_top)` in the order of the index. -/
def find_command_of_type : List CMD → String → Char → Option CMD
  | [], _, _ => none
  | cmd :: rest, name, type =>
    if cmd.type = type ∧ strcmpi cmd.name.toList name.toList = 0 then some cmd
    else find_command_of_type rest name type

/-- The loop of `find_command` for the kind `'*'`. -/
def find_command_any : List CMD → String → Option CMD
  | [], _ => none
  | cmd :: rest, name =>
    if strcmpi cmd.name.toList name.toList = 0 then some cmd
    else find_command_any rest name

/-- `find_command(vm, name, type)`; `cmds` is the list of the registered
commands `vm->cmds[0 .. cmds_top)`, `none` is the null pointer. -/
def find_command (cmds : List CMD) (name : String) (type : Char) : Option CMD :=
  if type ≠ '*' then find_command_of_type cmds name type
  else find_command_any cmds name

/-- Two names are equal when the case of ASCII letters is ignored. -/
def eqIgnoreCase (a b : String) : Prop :=
  a.toList.map Char.toLower = b.toList.map Char.toLower

instance (a b : String) : Decidable (eqIgnoreCase a b) := by
  unfold eqIgnoreCase; infer_instance

/-- How a run of `execute` ends: it returns, with the state and the number
of turns of its loop, or a turn fails. -/
inductive Outcome where
  | returned (vm : VM) (turns : Nat)
  | failed (msg : String)
deriving DecidableEq

/-- `execute(vm)`: the loop `while (vm->stack->top > 0)`, with at most
`fuel` turns; `none` when the fuel is used up before the loop ends. -/
def execute (callback : String → VM → Except String VM) : Nat → VM → Option Outcome
  | 0, vm => if vm.stack.top > 0 then none else some (.returned vm 0)
  | fuel + 1, vm =>
    if vm.stack.top > 0 then
      match execute_step callback vm with
      | .error e => some (.failed e)
      | .ok vm1 =>
        match execute callback fuel vm1 with
        | none => none
        | some (.failed e) => some (.failed e)
        | some (.returned vm2 turns) => some (.returned vm2 (turns + 1))
    else some (.returned vm 0)

/-- No slot of the content of the stack (the slots below `top`) holds an
`INST_COMMAND` instruction. -/
def noCommands (stack : STACK) : Bool :=
  (stack.data.take stack.top).all fun slot =>
    match slot with
    | some (.COMMAND _) => false
    | _ => true

/-- The instruction in slot `i` of a stack, as a list: empty for a null
pointer and outside the array. -/
def slot (data : List (Option INST)) (i : Nat) : List INST :=
  match data.get? i with
  | some (some inst) => [inst]
  | _ => []

/-- The instructions in the slots `k`, `k - 1`, ..., `0`, in this order. -/
def slotsDown (data : List (Option INST)) : Nat → List INST
  | 0 => slot data 0
  | k + 1 => slot data (k + 1) ++ slotsDown data k

/-- The binding of `name` in the first scope of the list that binds it. -/
def innermostBinding : List INST → String → Option VALUE
  | [], _ => none
  | .SCOPE scope :: rest, name =>
    match find_in_scope scope.varstack name with
    | some v => some v
    | none => innermostBinding rest name
  | _ :: rest, name => innermostBinding rest name

end SQFVM

namespace SQFVM

/-- `find_type(vm, name)` over the registered commands
`vm->cmds[0 .. cmds_top)`: a command whose name equals `name` ignoring case is
returned; at a command with another name the loop goes on only when that
command is a type (`'t'`); `none` is the null pointer. -/
def find_type : List CMD → String → Option CMD
  | [], _ => none
  | cmd :: rest, name =>
    if strcmpi cmd.name.toList name.toList = 0 then some cmd
    else if cmd.type ≠ 't' then none
    else find_type rest name

end SQFVM

namespace SQFVM

/-- `resize_stack(stack, newsize)`.  `realloc_ok` says whether `realloc`
returns a block.  The new block keeps the first `min(size, newsize)` slots of
the old one; `junk` stands for the indeterminate content of the slots that are
added.  The loop before the call of `realloc` destroys the instructions in the
slots `newsize .. top - 1`, which the new block does not hold.  No statement
assigns to `top`. -/
def resize_stack (stack : STACK) (newsize : Nat) (realloc_ok : Bool)
    (junk : Nat → Option INST) : Except String STACK :=
  if stack.size = newsize then .ok stack
  else if realloc_ok = false then .error "RESIZE OF STACK FAILED"
  else
    .ok { stack with
      data := stack.data.take newsize ++
        (List.range (newsize - stack.size)).map fun i => junk (stack.size + i) }

/-- `store_in_scope(vm, scope, name, val)` as a call on a scope that is
not null: the message of `error`, if it is called, and the scope after the
call.  The branch that calls `error` assigns to nothing. -/
def store_in_scope_call (scope : SCOPE) (name : String) (val : VALUE) : Option String × SCOPE :=
  if scope.varstack_top ≥ scope.varstack_size then (some "VARSTACK OVERFLOW", scope)
  else (none, { scope with varstack := scope.varstack ++ [(name, val)] })

end SQFVM

namespace SQFVM

/-!
What a run of `execute` needs of a call stack without commands.  The turns
pop the instructions from the top down; a store appends a binding to the first
scope below it, a push needs a free slot of the work stack, and a store pops
the entry on top of the work stack, which must be a value.  `admits` checks
this on the stacks as they are before the run.
-/

/-- The index of the first scope below slot `k` of the call stack, from
`k - 1` downwards: the scope that `top_scope` finds for an instruction popped
from slot `k`. -/
def scope_below (data : List (Option INST)) : Nat → Option Nat
  | 0 => none
  | k + 1 =>
    match data.get? k with
    | some (some (.SCOPE _)) => some k
    | _ => scope_below data k

/-- Whether a scope below slot `k` of the call stack binds `name`, ignoring
case: whether `find_var` finds the name for an instruction popped from slot
`k`. -/
def bound_below (data : List (Option INST)) : Nat → String → Bool
  | 0, _ => false
  | k + 1, name =>
    match data.get? k with
    | some (some (.SCOPE scope)) =>
      (find_in_scope scope.varstack name).isSome || bound_below data k name
    | _ => bound_below data k name

/-- Whether one of the names `stored` equals `name`, ignoring case. -/
def named (stored : List String) (name : String) : Bool :=
  stored.any fun n => decide (strcmpi n.toList name.toList = 0)

/-- Whether the slots `0 .. k - 1` of the call stack can be executed, from
slot `k - 1` downwards, after store instructions above them that have put
`pending` bindings, with the names `stored`, into the first scope below slot
`k`.  `kinds` describes the work stack from the top down, `true` for an entry
that is a value, and `free` is the number of its free slots.
- A null slot or a slot outside the array and an `INST_COMMAND` are refused.
- A scope needs room for its bindings and the `pending` ones, when there
  are `pending` ones.
- `INST_VALUE` and `INST_LOAD_VAR` need a free slot of the work stack; the
  entry that `INST_LOAD_VAR` pushes is a value when the name is bound by then.
- A store needs a value on top of the work stack and, in the end, a scope
  below it. -/
def admits (data : List (Option INST)) : Nat → Nat → List String → List Bool → Nat → Bool
  | 0, pending, _, _, _ => decide (pending = 0)
  | k + 1, pending, stored, kinds, free =>
    match data.get? k with
    | some (some .NOP) => admits data k pending stored kinds free
    | some (some (.SCOPE scope)) =>
      decide (pending = 0 ∨ scope.varstack_top + pending ≤ scope.varstack_size) &&
        admits data k 0 [] kinds free
    | some (some (.LOAD_VAR name)) =>
      decide (0 < free) &&
        admits data k pending stored ((named stored name || bound_below data k name) :: kinds)
          (free - 1)
    | some (some (.VALUE _)) =>
      decide (0 < free) && admits data k pending stored (true :: kinds) (free - 1)
    | some (some (.STORE_VAR name)) =>
      match kinds with
      | true :: rest => admits data k (pending + 1) (name :: stored) rest (free + 1)
      | _ => false
    | some (some (.STORE_VAR_LOCAL name)) =>
      match kinds with
      | true :: rest => admits data k (pending + 1) (name :: stored) rest (free + 1)
      | _ => false
    | _ => false

/-- Whether a slot of the work stack holds an `INST_VALUE` instruction. -/
def is_value : Option INST → Bool
  | some (.VALUE _) => true
  | _ => false

/-- The entries of a stack from the top down, `true` for a value. -/
def work_kinds (work : STACK) : List Bool :=
  ((work.data.take work.top).reverse).map is_value

/-- The check of `admits` on the two stacks of a machine: the content of the
call stack has no null slot and no command, every store has a scope below it,
every scope has room for the bindings of the stores between it and the next
scope above, every push finds a free slot of the work stack, and every store
finds a value on top of the work stack. -/
def runnable (vm : VM) : Bool :=
  decide (vm.work.top ≤ vm.work.size) &&
    admits vm.stack.data vm.stack.top 0 [] (work_kinds vm.work) (vm.work.size - vm.work.top)

/-- Two slots of a call stack that hold the same, or two scopes with the
same capacity, as many bindings and the same names bound: what the loop of
`set_var` makes of a slot. -/
def same_shape (x y : Option (Option INST)) : Prop :=
  x = y ∨ ∃ sc sc2, x = some (some (.SCOPE sc)) ∧ y = some (some (.SCOPE sc2)) ∧
    sc2.varstack_size = sc.varstack_size ∧ sc2.varstack.length = sc.varstack.length ∧
    ∀ m, (find_in_scope sc2.varstack m).isSome = (find_in_scope sc.varstack m).isSome

end SQFVM

namespace debugger

/-!
The replies of the debugger, `sqfvm-cpp/debugger.cpp`: the JSON values that
`callstackmsg::serialize` and `variablemsg::serialize` build, and the
conversion to `std::string` at their `return`.  The classes `vmstack`,
`callstack` and the namespaces are not part of the sources at hand; a frame is
given by what the two functions read from it, and the lookup of a variable in a
frame or in a namespace is a parameter.
-/

/-- A frame of the call stack (`sqf::callstack`) as `serialize` reads it:
the name of the scope, the name of its namespace, and the variable map with the
text `as_string()` of each value, in the order of the iteration. -/
structure Frame where
  scopename : String
  namespace_name : String
  varmap : List (String × String)
deriving DecidableEq

/-- A name/value pair of a reply; the value `none` is the JSON `null`. -/
structure NameValue where
  name : String
  value : Option String
deriving DecidableEq

/-- The JSON object `jcs` of one frame in the call-stack message, with its
members `lvl`, `scopename`, `namespace` and `variables` (the local `options` is
not stored in it). -/
structure CallstackEntry where
  lvl : Int
  scopename : String
  namespace_name : String
  variables_ : List NameValue
deriving DecidableEq

/-- The two JSON values of the body of the loop of `callstackmsg::serialize`
that the statements after `jcs["variables"] = variables` can change: the object
`jcs` and the local array `variables`. -/
structure FrameLocals where
  jcs : CallstackEntry
  variables_ : List NameValue
deriving DecidableEq

/-- The body of the loop of `callstackmsg::serialize` for the frame `cs`, up
to `data.push_back(jcs)`.  The assignment `jcs["variables"] = variables` stores
a copy of the array, which is empty at that point; the loop over `cs->varmap()`
then appends to the local `variables`. -/
def callstack_frame (lvl : Int) (cs : Frame) : FrameLocals :=
  let variables_ : List NameValue := []
  let jcs : CallstackEntry :=
    { lvl := lvl, scopename := cs.scopename, namespace_name := cs.namespace_name,
      variables_ := variables_ }
  cs.varmap.foldl
    (fun locals pair =>
      { locals with variables_ := locals.variables_ ++ [⟨pair.1, some pair.2⟩] })
    { jcs := jcs, variables_ := variables_ }

/-- The loop of `callstackmsg::serialize`: the counter `lvl` and the array
`data` after the frames `frames` (in the order of the iteration from
`stacks_begin()` to `stacks_end()`).  No statement of the loop changes `lvl`. -/
def callstack_loop (frames : List Frame) (lvl : Int) (data : List CallstackEntry) :
    Int × List CallstackEntry :=
  frames.foldl (fun st cs => (st.1, st.2 ++ [(callstack_frame st.1 cs).jcs])) (lvl, data)

/-- The member `data` of the message of `callstackmsg::serialize` (an empty
list also stands for the `null` that `data` is when there is no frame). -/
def callstackmsg_data (frames : List Frame) : List CallstackEntry :=
  (callstack_loop frames 0 []).2

/-- The member `scope` of a request entry: a JSON number, given by the `int`
it converts to, a JSON string, or a JSON value of another kind. -/
inductive ScopeArg where
  | number (numscope : Int)
  | string (s : String)
  | other
deriving DecidableEq

/-- An entry of the request of `variablemsg`: its members `name` and
`scope`. -/
structure Request where
  name : String
  scope : ScopeArg
deriving DecidableEq

/-- The four namespaces that `variablemsg::serialize` reads. -/
inductive Namespace where
  | missionNamespace
  | uiNamespace
  | profileNamespace
  | parsingNamespace
deriving DecidableEq

/-- What `variablemsg::serialize` reads: the frames of the call stack in the
order of the iteration from `stacks_begin()` to `stacks_end()` (reverse
iterators: the top frame comes first), the text `getvar(name)->as_string()` of a
variable of a frame, and the same of a variable of a namespace. -/
structure Machine where
  frames : List Frame
  getvar : Frame → String → String
  nsvar : Namespace → String → String

/-- The function `std::string::compare`: zero exactly when the two strings
are equal, negative or positive by their order otherwise. -/
def compare (a b : String) : Int :=
  if a = b then 0 else if a < b then -1 else 1

/-- The loop `for (s = stacks_begin(); s != stacks_end() && numscope != 0;
s++, numscope++);`: the frames from `s` on after the loop (none when `s` is
`stacks_end()`). -/
def seek : List Frame → Int → List Frame
  | [], _ => []
  | cs :: rest, numscope => if numscope ≠ 0 then seek rest (numscope + 1) else cs :: rest

/-- The body of the loop of `variablemsg::serialize` for one request entry:
the pairs it appends to `data`, or the exception it throws. -/
def variable_entry (m : Machine) (req : Request) : Except String (List NameValue) :=
  match req.scope with
  | .number numscope =>
    if numscope > 0 then .error "numscope has to be <= 0"
    else
      match seek m.frames numscope with
      | [] => .ok [⟨req.name, none⟩]
      | s :: _ => .ok [⟨req.name, some (m.getvar s req.name)⟩]
  | .string scope =>
    if compare scope "missionNamespace" ≠ 0 then
      .ok [⟨req.name, some (m.nsvar .missionNamespace req.name)⟩]
    else if compare scope "uiNamespace" ≠ 0 then
      .ok [⟨req.name, some (m.nsvar .uiNamespace req.name)⟩]
    else if compare scope "profileNamespace" ≠ 0 then
      .ok [⟨req.name, some (m.nsvar .profileNamespace req.name)⟩]
    else if compare scope "parsingNamespace" ≠ 0 then
      .ok [⟨req.name, some (m.nsvar .parsingNamespace req.name)⟩]
    else .ok []
  | .other => .error "type must be string"

/-- The loop of `variablemsg::serialize` over the request entries `reqs`
(lines 105 to 154): the local array `data` behind the loop, or the exception
that an entry throws.  The function does not end here: see
`variablemsg.serialize`. -/
def variablemsg_loop (m : Machine) : List Request → Except String (List NameValue)
  | [] => .ok []
  | req :: rest =>
    match variable_entry m req with
    | .error e => .error e
    | .ok entry =>
      match variablemsg_loop m rest with
      | .error e => .error e
      | .ok data => .ok (entry ++ data)

/-- A value of the class `nlohmann::json` at a `return` statement of a
`serialize` function: a JSON string, or a JSON object with the members `mode`
and `data`. -/
inductive ReturnedJson (α : Type) where
  | string (text : String)
  | object (mode : String) (data : α)
deriving DecidableEq

/-- The implicit conversion of a `nlohmann::json` value to `std::string`,
which a `return` of such a value from a function of return type `std::string`
performs: a JSON string gives its text, a value of another kind throws the
`type_error` 302, "type must be string, but is object" for an object.  The
library is not part of the sources at hand. -/
def ReturnedJson.to_std_string {α : Type} : ReturnedJson α → Except String String
  | .string text => .ok text
  | .object _ _ => .error "type must be string, but is object"

/-- The function `errormsg::serialize`: the object `json` with the members
`mode` and `data`, and `return json;` from a function of return type
`std::string`. -/
def errormsg.serialize (msg : String) : Except String String :=
  let json : ReturnedJson String := .object "message" msg
  json.to_std_string

/-- The function `callstackmsg::serialize`: the loop over the frames, and the
`return` of the object with the members `mode` and `data` from a function of
return type `std::string`. -/
def callstackmsg.serialize (frames : List Frame) : Except String String :=
  let data := callstackmsg_data frames
  (ReturnedJson.object "callstack" data).to_std_string

/-- The function `variablemsg::serialize`: the loop over the request entries,
and the `return` of the object with the members `mode` and `data` from a
function of return type `std::string` (lines 155 to 158). -/
def variablemsg.serialize (m : Machine) (reqs : List Request) : Except String String :=
  match variablemsg_loop m reqs with
  | .error e => .error e
  | .ok data => (ReturnedJson.object "variables" data).to_std_string

end debugger

namespace debugger

/-!
The loop of `sqf::debugger::check`.  The class of `_server` is not part of the
sources at hand: the inbox is the list of the messages that `next_message()`
hands out, in that order, and `push_message` appends to the list of the texts
pushed.  The message classes are local to `debugger.cpp` (an unnamed
namespace), so `push_message` receives a message through
`srvmessage::operator std::string()`, which is `serialize()`, evaluated in
`check` before the call.
-/

/-- A message of the inbox as `check` reads it after `nlohmann::json::parse`:
`mode` is the member `mode` when it is a string, `status` is the member
`data.status` when it is a string, and `data` is the member `data` of a
`get-variable` message.  `none` stands for a member that is absent or not a
string, on which the conversion to `std::string` throws. -/
structure Message where
  mode : Option String
  status : Option String
  data : List Request
deriving DecidableEq

/-- What a call of `check` leaves: the texts handed to `push_message`, in
order, the messages still in the inbox, and the exception that ended the call,
if any. -/
structure CheckResult where
  pushed : List String
  inbox : List Message
  thrown : Option String
deriving DecidableEq

/-- The body of the loop of `check` for the message `msg`: the texts it
pushes, or the exception it throws.  The argument of each `push_message` is a
message object converted by `operator std::string()`, that is by its
`serialize()`. -/
def check_message (m : Machine) (msg : Message) : Except String (List String) :=
  match msg.mode with
  | none => .error "type must be string"
  | some mode =>
    if compare mode "get-callstack" = 0 then
      match callstackmsg.serialize m.frames with
      | .error e => .error e
      | .ok text => .ok [text]
    else if compare mode "control" = 0 then
      match msg.status with
      | none => .error "type must be string"
      | some _ => .ok []
    else if compare mode "get-variable" = 0 then
      match variablemsg.serialize m msg.data with
      | .error e => .error e
      | .ok text => .ok [text]
    else if compare mode "set-breakpoint" = 0 then .ok []
    else
      match errormsg.serialize
          ("Provided mode '" ++ mode ++ "' is not known to the debugger.") with
      | .error e => .error e
      | .ok text => .ok [text]

/-- `debugger::check`: the loop `while (_server->has_message())`; an
exception of the body ends the call, the function has no handler. -/
def check (m : Machine) : List Message → CheckResult
  | [] => { pushed := [], inbox := [], thrown := none }
  | msg :: rest =>
    match check_message m msg with
    | .error e => { pushed := [], inbox := rest, thrown := some e }
    | .ok texts =>
      { pushed := texts ++ (check m rest).pushed, inbox := (check m rest).inbox,
        thrown := (check m rest).thrown }

end debugger

namespace logmessage

/-!
The diagnostic message classes of `src/logging.h`: every class of the
namespace `logmessage` with the two constants `level` and `errorCode` that it
hands to the constructor of `LogMessageBase`.
-/

/-- The enumeration `loglevel`, in the order of its declaration. -/
inductive loglevel where
  | fatal
  | error
  | warning
  | info
  | verbose
  | trace
deriving DecidableEq

/-- The namespaces inside `logmessage`, one for each component. -/
inductive component where
  | preprocessor
  | assembly
  | sqf
  | config
  | linting
  | runtime
deriving DecidableEq

/-- A message class: the namespace it is declared in, its name, and its
constants `level` and `errorCode`. -/
structure MessageClass where
  component : component
  name : String
  level : loglevel
  errorCode : Nat
deriving DecidableEq

/-- The message classes of `logging.h`, in the order of their declaration. -/
def classes : List MessageClass := [
  MessageClass.mk component.preprocessor "ArgCountMissmatch" loglevel.error 10001,
  MessageClass.mk component.preprocessor "UnexpectedDataAfterInclude" loglevel.warning 10002,
  MessageClass.mk component.preprocessor "RecursiveInclude" loglevel.error 10003,
  MessageClass.mk component.preprocessor "IncludeFailed" loglevel.error 10004,
  MessageClass.mk component.preprocessor "MacroDefinedTwice" loglevel.warning 10005,
  MessageClass.mk component.preprocessor "MacroNotFound" loglevel.warning 10006,
  MessageClass.mk component.preprocessor "UnexpectedIfdef" loglevel.error 10007,
  MessageClass.mk component.preprocessor "UnexpectedIfndef" loglevel.error 10008,
  MessageClass.mk component.preprocessor "UnexpectedElse" loglevel.error 10009,
  MessageClass.mk component.preprocessor "UnexpectedEndif" loglevel.error 10010,
  MessageClass.mk component.preprocessor "MissingEndif" loglevel.error 10011,
  MessageClass.mk component.preprocessor "UnknownInstruction" loglevel.error 10012,
  MessageClass.mk component.assembly "ExpectedSemicolon" loglevel.error 20001,
  MessageClass.mk component.assembly "NoViableAlternativeInstructions" loglevel.error 20002,
  MessageClass.mk component.assembly "NoViableAlternativeArg" loglevel.error 20003,
  MessageClass.mk component.assembly "ExpectedEndStatement" loglevel.error 20004,
  MessageClass.mk component.assembly "ExpectedCallNular" loglevel.error 20005,
  MessageClass.mk component.assembly "ExpectedNularOperator" loglevel.error 20006,
  MessageClass.mk component.assembly "UnknownNularOperator" loglevel.error 20007,
  MessageClass.mk component.assembly "ExpectedCallUnary" loglevel.error 20008,
  MessageClass.mk component.assembly "ExpectedUnaryOperator" loglevel.error 20009,
  MessageClass.mk component.assembly "UnknownUnaryOperator" loglevel.error 20010,
  MessageClass.mk component.assembly "ExpectedCallBinary" loglevel.error 20011,
  MessageClass.mk component.assembly "ExpectedBinaryOperator" loglevel.error 20012,
  MessageClass.mk component.assembly "UnknownBinaryOperator" loglevel.error 20013,
  MessageClass.mk component.assembly "ExpectedAssignTo" loglevel.error 20014,
  MessageClass.mk component.assembly "ExpectedVariableName" loglevel.error 20015,
  MessageClass.mk component.assembly "ExpectedAssignToLocal" loglevel.error 20016,
  MessageClass.mk component.assembly "ExpectedGetVariable" loglevel.error 20017,
  MessageClass.mk component.assembly "ExpectedMakeArray" loglevel.error 20018,
  MessageClass.mk component.assembly "ExpectedInteger" loglevel.error 20019,
  MessageClass.mk component.assembly "ExpectedPush" loglevel.error 20020,
  MessageClass.mk component.assembly "ExpectedTypeName" loglevel.error 20021,
  MessageClass.mk component.assembly "NumberOutOfRange" loglevel.warning 20022,
  MessageClass.mk component.sqf "ExpectedStatementTerminator" loglevel.error 30001,
  MessageClass.mk component.sqf "NoViableAlternativeStatement" loglevel.error 30002,
  MessageClass.mk component.sqf "MissingUnderscoreOnPrivateVariable" loglevel.error 30003,
  MessageClass.mk component.sqf "ExpectedBinaryExpression" loglevel.error 30004,
  MessageClass.mk component.sqf "MissingRightArgument" loglevel.error 30005,
  MessageClass.mk component.sqf "MissingRoundClosingBracket" loglevel.error 30006,
  MessageClass.mk component.sqf "MissingCurlyClosingBracket" loglevel.error 30007,
  MessageClass.mk component.sqf "MissingSquareClosingBracket" loglevel.error 30008,
  MessageClass.mk component.sqf "NoViableAlternativePrimaryExpression" loglevel.error 30009,
  MessageClass.mk component.sqf "EmptyNumber" loglevel.error 30010,
  MessageClass.mk component.sqf "ExpectedSQF" loglevel.error 30011,
  MessageClass.mk component.sqf "EndOfFile" loglevel.error 30012,
  MessageClass.mk component.config "ExpectedStatementTerminator" loglevel.error 40001,
  MessageClass.mk component.config "NoViableAlternativeNode" loglevel.error 40002,
  MessageClass.mk component.config "ExpectedIdentifier" loglevel.error 40003,
  MessageClass.mk component.config "MissingRoundClosingBracket" loglevel.error 40004,
  MessageClass.mk component.config "MissingCurlyOpeningBracket" loglevel.error 40005,
  MessageClass.mk component.config "MissingCurlyClosingBracket" loglevel.error 40006,
  MessageClass.mk component.config "MissingSquareClosingBracket" loglevel.error 40007,
  MessageClass.mk component.config "MissingEqualSign" loglevel.error 40008,
  MessageClass.mk component.config "ExpectedArray" loglevel.error 40009,
  MessageClass.mk component.config "ExpectedValue" loglevel.error 40010,
  MessageClass.mk component.config "NoViableAlternativeValue" loglevel.error 40011,
  MessageClass.mk component.config "EndOfFileNotReached" loglevel.error 40012,
  MessageClass.mk component.linting "UnassignedVariable" loglevel.warning 50001,
  MessageClass.mk component.runtime "Stacktrace" loglevel.fatal 60001,
  MessageClass.mk component.runtime "MaximumInstructionCountReached" loglevel.fatal 60002,
  MessageClass.mk component.runtime "ExpectedArraySizeMissmatch" loglevel.error 60003,
  MessageClass.mk component.runtime "ExpectedArraySizeMissmatchWeak" loglevel.warning 60004,
  MessageClass.mk component.runtime "ExpectedMinimumArraySizeMissmatch" loglevel.error 60005,
  MessageClass.mk component.runtime "ExpectedMinimumArraySizeMissmatchWeak" loglevel.warning 60006,
  MessageClass.mk component.runtime "ExpectedArrayTypeMissmatch" loglevel.error 60007,
  MessageClass.mk component.runtime "ExpectedArrayTypeMissmatchWeak" loglevel.warning 60008,
  MessageClass.mk component.runtime "IndexOutOfRange" loglevel.error 60009,
  MessageClass.mk component.runtime "IndexOutOfRangeWeak" loglevel.error 60010,
  MessageClass.mk component.runtime "NegativeIndex" loglevel.error 60011,
  MessageClass.mk component.runtime "NegativeIndexWeak" loglevel.warning 60012,
  MessageClass.mk component.runtime "IndexEqualsRange" loglevel.warning 60013,
  MessageClass.mk component.runtime "ReturningNil" loglevel.verbose 60014,
  MessageClass.mk component.runtime "ReturningEmptyArray" loglevel.verbose 60015,
  MessageClass.mk component.runtime "NegativeSize" loglevel.error 60016,
  MessageClass.mk component.runtime "NegativeSizeWeak" loglevel.warning 60017,
  MessageClass.mk component.runtime "ArrayRecursion" loglevel.error 60018,
  MessageClass.mk component.runtime "InfoMessage" loglevel.info 60019,
  MessageClass.mk component.runtime "SuspensionDisabled" loglevel.error 60020,
  MessageClass.mk component.runtime "SuspensionInUnscheduledEnvironment" loglevel.error 60021]

/-- The lowest code of the range of a component, as the specification
gives it. -/
def rangeLow : component → Nat
  | .preprocessor => 10001
  | .assembly => 20001
  | .sqf => 30001
  | .config => 40001
  | .linting => 50001
  | .runtime => 60001

/-- The highest code of the range of a component, as the specification
gives it; the range of the runtime has no upper end. -/
def rangeHigh : component → Option Nat
  | .preprocessor => some 19999
  | .assembly => some 29999
  | .sqf => some 39999
  | .config => some 49999
  | .linting => some 59999
  | .runtime => none

/-- The code of a message class lies in the range of its component. -/
def inRange (m : MessageClass) : Bool :=
  decide (rangeLow m.component ≤ m.errorCode) &&
    match rangeHigh m.component with
    | some high => decide (m.errorCode ≤ high)
    | none => true

end logmessage

namespace logmessage

/-- The constant `level` of the message class `name` of the namespace `c`
of `logmessage`. -/
def levelOf (c : component) (name : String) : Option loglevel :=
  (classes.find? (fun m => decide (m.component = c ∧ m.name = name))).map MessageClass.level

end logmessage

namespace logging

/-!
The class `Logger` of `src/logging.h` and its subclass `StdOutLogger`.
-/

/-- The conversion `static_cast<size_t>(level)`: the position of the
enumerator in the declaration of `loglevel`. -/
def loglevel_index : logmessage.loglevel → Nat
  | .fatal => 0
  | .error => 1
  | .warning => 2
  | .info => 3
  | .verbose => 4
  | .trace => 5

/-- The class `Logger`: its data member `enabledWarningLevels`, a
`std::vector<bool>`. -/
structure Logger where
  enabledWarningLevels : List Bool
deriving DecidableEq

/-- `Logger::isEnabled(level)`, the element
`enabledWarningLevels[static_cast<size_t>(level)]`.  The operator `[]` does not
check its index; `none` stands for a read outside the vector. -/
def Logger.isEnabled (logger : Logger) (level : logmessage.loglevel) : Option Bool :=
  logger.enabledWarningLevels.get? (loglevel_index level)

/-- The constructor `StdOutLogger() {}`.  Its body is empty, it has no
initializer list, and `Logger` declares no constructor and no default member
initializer, so `enabledWarningLevels` is a default-constructed vector: it has
no element. -/
def StdOutLogger : Logger := { enabledWarningLevels := [] }

end logging

namespace Preprocessor

/-! ### Raw character steps -/

theorem _next_of_ge (s : PFI) (h : s.content.length ≤ s.off) : _next s = (NUL, s) := by
  unfold _next
  have h0 : s.content.length - s.off = 0 := by omega
  rw [h0]; rfl

theorem _next_of_lt (s : PFI) (h : s.off < s.content.length) :
    _next s =
      if s.content.getD s.off NUL = '\n' then
        ('\n', { s with off := s.off + 1, line := s.line + 1, last_col := s.col, col := 0 })
      else if s.content.getD s.off NUL = '\r' then _next { s with off := s.off + 1 }
      else (s.content.getD s.off NUL, { s with off := s.off + 1, col := s.col + 1 }) := by
  unfold _next
  obtain ⟨k, hk⟩ : ∃ k, s.content.length - s.off = k + 1 := ⟨s.content.length - s.off - 1, by omega⟩
  have hk2 : s.content.length - (s.off + 1) = k := by omega
  rw [hk]
  simp only [_nextAux, ge_iff_le, if_neg (Nat.not_le.mpr h), hk2]
  split_ifs with h1 h2
  · rw [h1]
  · rfl
  · rfl

end Preprocessor

namespace Preprocessor

theorem _nextAux_frame (fuel : Nat) (s : PFI) :
    (_nextAux fuel s).2.content = s.content ∧
    (_nextAux fuel s).2.is_in_string = s.is_in_string ∧
    (_nextAux fuel s).2.is_in_block_comment = s.is_in_block_comment ∧
    s.off ≤ (_nextAux fuel s).2.off ∧
    (s.off ≤ s.content.length → (_nextAux fuel s).2.off ≤ s.content.length) ∧
    ((_nextAux fuel s).2.off = s.off → (_nextAux fuel s).2 = s) ∧
    (_nextAux fuel s).1 ≠ '\r' := by
  induction fuel generalizing s with
  | zero => simp [_nextAux, NUL]
  | succ k ih =>
    simp only [_nextAux]
    split_ifs with h1 h2 h3
    · simp [NUL]
    · refine ⟨rfl, rfl, rfl, by simp, fun _ => by simp; omega, fun h => by simp at h, by rw [h2]; exact (by decide : '\n' ≠ '\r')⟩
    · obtain ⟨a, b, c, d, e, f, g⟩ := ih { s with off := s.off + 1 }
      simp only at a b c d e f g
      refine ⟨a, b, c, by omega, fun _ => e (by omega), fun h => ?_, g⟩
      omega
    · refine ⟨rfl, rfl, rfl, by simp, fun _ => by simp; omega, fun h => by simp at h, h3⟩

theorem _next_content (s : PFI) : (_next s).2.content = s.content :=
  (_nextAux_frame _ s).1

theorem _next_is_in_string (s : PFI) : (_next s).2.is_in_string = s.is_in_string :=
  (_nextAux_frame _ s).2.1

theorem _next_is_in_block_comment (s : PFI) :
    (_next s).2.is_in_block_comment = s.is_in_block_comment :=
  (_nextAux_frame _ s).2.2.1

theorem _next_off_ge (s : PFI) : s.off ≤ (_next s).2.off :=
  (_nextAux_frame _ s).2.2.2.1

theorem _next_off_le (s : PFI) (h : s.off ≤ s.content.length) :
    (_next s).2.off ≤ s.content.length :=
  (_nextAux_frame _ s).2.2.2.2.1 h

theorem _next_eq_of_off (s : PFI) (h : (_next s).2.off = s.off) : (_next s).2 = s :=
  (_nextAux_frame _ s).2.2.2.2.2.1 h

theorem _next_ne_cr (s : PFI) : (_next s).1 ≠ '\r' :=
  (_nextAux_frame _ s).2.2.2.2.2.2

/-- A raw step that does not stand at the end of the content consumes a character. -/
theorem _next_off_lt (s : PFI) (h : s.off < s.content.length) : s.off < (_next s).2.off := by
  rw [_next_of_lt s h]
  split_ifs
  · simp
  · exact Nat.lt_of_lt_of_le (Nat.lt_succ_self _) (_next_off_ge { s with off := s.off + 1 })
  · simp

/-- A raw step that returns a character other than NUL has consumed one. -/
theorem _next_off_lt_of_ne (s : PFI) (h : (_next s).1 ≠ NUL) : s.off < (_next s).2.off := by
  by_cases hl : s.off < s.content.length
  · exact _next_off_lt s hl
  · rw [_next_of_ge s (by omega)] at h
    exact absurd rfl h

theorem peek_ne_NUL (s : PFI) (k : Nat) (h : peek s k ≠ NUL) : s.off + k < s.content.length := by
  unfold peek at h
  split_ifs at h with h1
  · exact absurd rfl h
  · omega

/-! ### Properties kept by every step of the stream -/

theorem blockLoopAux_stable {P : PFI → Prop} (hP : Stable P) (fuel : Nat) (s : PFI)
    (h : P s) : P (blockLoopAux fuel s).s := by
  induction fuel generalizing s with
  | zero => exact hP.raw s h
  | succ k ih =>
    simp only [blockLoopAux]
    split_ifs
    · exact hP.raw s h
    · exact hP.raw s h
    · exact hP.raw s h
    · exact ih _ (hP.raw s h)

theorem lineLoopAux_stable {P : PFI → Prop} (hP : Stable P) (fuel : Nat) (s : PFI)
    (h : P s) : P (lineLoopAux fuel s).2 := by
  induction fuel generalizing s with
  | zero => exact hP.raw s h
  | succ k ih =>
    simp only [lineLoopAux]
    split_ifs
    · exact ih _ (hP.raw s h)
    · exact hP.raw s h

theorem nextTail_stable {P : PFI → Prop} (hP : Stable P)
    (rec : PFI → Char × PFI) (hrec : ∀ t, P t → P (rec t).2) (c : Char) (s : PFI)
    (h : P s) : P (nextTail rec c s).2 := by
  unfold nextTail
  split_ifs
  · exact hrec _ (hP.raw s h)
  · exact hP.str s _ h
  · exact h

theorem nextBody_stable {P : PFI → Prop} (hP : Stable P)
    (rec : PFI → Char × PFI) (hrec : ∀ t, P t → P (rec t).2) (s : PFI)
    (h : P (_next s).2) : P (nextBody rec s).2 := by
  unfold nextBody
  simp only
  split_ifs
  · exact h
  · exact hrec _ (hP.blk _ _ (hP.raw _ h))
  · exact nextTail_stable hP rec hrec _ _
      (hrec _ (hP.blk _ _ (hP.raw _ (blockLoopAux_stable hP _ _ (hP.blk _ _ (hP.raw _ h))))))
  · exact nextTail_stable hP rec hrec _ _ (blockLoopAux_stable hP _ _ (hP.blk _ _ (hP.raw _ h)))
  · exact nextTail_stable hP rec hrec _ _
      (hrec _ (hP.blk _ _ (hP.raw _ (blockLoopAux_stable hP _ _ (hP.blk _ _ h)))))
  · exact nextTail_stable hP rec hrec _ _ (blockLoopAux_stable hP _ _ (hP.blk _ _ h))
  · exact nextTail_stable hP rec hrec _ _ (lineLoopAux_stable hP _ _ h)
  · exact nextTail_stable hP rec hrec _ _ h
  · exact nextTail_stable hP rec hrec _ _ h

theorem nextAux_stable {P : PFI → Prop} (hP : Stable P) (fuel : Nat) (s : PFI)
    (h : P s) : P (nextAux fuel s).2 := by
  induction fuel generalizing s with
  | zero => exact h
  | succ k ih => exact nextBody_stable hP _ (fun t ht => ih t ht) s (hP.raw s h)

/-- Whatever raw steps and flag updates keep, `next()` keeps. -/
theorem next_stable {P : PFI → Prop} (hP : Stable P) (s : PFI) (h : P s) : P (next s).2 :=
  nextAux_stable hP _ s h

theorem nexts_stable {P : PFI → Prop} (hP : Stable P) (n : Nat) (s : PFI) (h : P s) :
    P (nexts n s).2 := by
  induction n generalizing s with
  | zero => exact h
  | succ k ih => exact ih _ (next_stable hP s h)

end Preprocessor

namespace Preprocessor

/-! ### The reported position -/

theorem take_succ_getD (l : List Char) (n : Nat) (h : n < l.length) :
    l.take (n + 1) = l.take n ++ [l.getD n NUL] := by
  rw [List.take_succ, List.getD_eq_getElem?_getD, List.getElem?_eq_getElem h]
  rfl

theorem lineAt_succ (l : List Char) (n : Nat) (h : n < l.length) :
    lineAt l (n + 1) = if l.getD n NUL = '\n' then lineAt l n + 1 else lineAt l n := by
  unfold lineAt
  rw [take_succ_getD l n h, List.count_append]
  generalize l.getD n NUL = c
  split_ifs with hc
  · rw [hc]; simp; omega
  · have : List.count '\n' [c] = 0 := by
      rw [List.count_eq_zero]; simpa using fun h => hc h.symm
    omega

theorem colAt_succ (l : List Char) (n : Nat) (h : n < l.length) :
    colAt l (n + 1) =
      if l.getD n NUL = '\n' then 0
      else if l.getD n NUL = '\r' then colAt l n else colAt l n + 1 := by
  unfold colAt
  rw [take_succ_getD l n h, List.reverse_append, List.reverse_singleton, List.singleton_append]
  generalize l.getD n NUL = c
  by_cases h1 : c = '\n'
  · simp [List.takeWhile_cons, h1]
  · by_cases h2 : c = '\r'
    · simp [List.takeWhile_cons, h1, h2]
    · simp [List.takeWhile_cons, h1, h2]

theorem _nextAux_pos (content : List Char) (fuel : Nat) (s : PFI) (h : Pos content s) :
    Pos content (_nextAux fuel s).2 := by
  induction fuel generalizing s with
  | zero => exact h
  | succ k ih =>
    obtain ⟨hc, ho, hl, hcol⟩ := h
    simp only [_nextAux]
    split_ifs with h1 h2 h3
    · exact ⟨hc, ho, hl, hcol⟩
    · have hlt : s.off < content.length := by rw [← hc]; omega
      rw [hc] at h2
      refine ⟨hc, hlt, ?_, ?_⟩
      · simp only [lineAt_succ content s.off hlt, h2, hl, if_true]
      · simp only [colAt_succ content s.off hlt, h2, if_true]
    · have hlt : s.off < content.length := by rw [← hc]; omega
      rw [hc] at h2 h3
      apply ih
      refine ⟨hc, hlt, ?_, ?_⟩
      · simp only [lineAt_succ content s.off hlt, h2, hl, if_false]
      · simp only [colAt_succ content s.off hlt, h2, h3, hcol, if_false, if_true]
        rfl
    · have hlt : s.off < content.length := by rw [← hc]; omega
      rw [hc] at h2 h3
      refine ⟨hc, hlt, ?_, ?_⟩
      · simp only [lineAt_succ content s.off hlt, h2, hl, if_false]
      · simp only [colAt_succ content s.off hlt, h2, h3, hcol, if_false]

theorem pos_stable (content : List Char) : Stable (Pos content) where
  raw := fun t h => _nextAux_pos content _ t h
  str := fun _ _ h => h
  blk := fun _ _ h => h

theorem pos_fresh (content : List Char) : Pos content (fresh content) :=
  ⟨rfl, Nat.zero_le _, rfl, rfl⟩

/-- C9. After any number of `next()` calls on a fresh stream over `content`,
`line` is one plus the number of `'\n'` in `content[0..off)` and `col` is the
number of characters other than `'\r'` after the last `'\n'` of
`content[0..off)`; the cursor stays inside the content, which is unchanged. -/
theorem position_matches_cursor (content : List Char) (n : Nat) :
    (nexts n (fresh content)).2.content = content ∧
    (nexts n (fresh content)).2.off ≤ content.length ∧
    (nexts n (fresh content)).2.line =
      1 + (content.take (nexts n (fresh content)).2.off).count '\n' ∧
    (nexts n (fresh content)).2.col =
      ((((content.take (nexts n (fresh content)).2.off).reverse.takeWhile
          (fun c => c ≠ '\n')).filter (fun c => c ≠ '\r')).length) :=
  nexts_stable (pos_stable content) n (fresh content) (pos_fresh content)

end Preprocessor

namespace Preprocessor

/-! ### The fuel of `next()` never runs out -/

theorem reach_stable (s : PFI) : Stable (Reach s) where
  raw := fun t h => ⟨(_next_content t).trans h.1, Nat.le_trans h.2 (_next_off_ge t)⟩
  str := fun _ _ h => h
  blk := fun _ _ h => h

theorem blockLoop_reach (s : PFI) : Reach s (blockLoop s).s :=
  blockLoopAux_stable (reach_stable s) _ s ⟨rfl, Nat.le_refl _⟩

theorem lineLoop_reach (s : PFI) : Reach s (lineLoop s).2 :=
  lineLoopAux_stable (reach_stable s) _ s ⟨rfl, Nat.le_refl _⟩

theorem nextAux_reach (fuel : Nat) (s : PFI) : Reach s (nextAux fuel s).2 :=
  nextAux_stable (reach_stable s) fuel s ⟨rfl, Nat.le_refl _⟩

theorem next_reach (s : PFI) : Reach s (next s).2 := nextAux_reach _ s

theorem blockLoopAux_closed_off (fuel : Nat) (s : PFI)
    (h : (blockLoopAux fuel s).closed = true) : s.off < (blockLoopAux fuel s).s.off := by
  induction fuel generalizing s with
  | zero => simp [blockLoopAux] at h
  | succ k ih =>
    simp only [blockLoopAux] at h ⊢
    split_ifs at h ⊢ with h1 h2 h3
    · exact _next_off_lt_of_ne s h1
    · exact Nat.lt_of_le_of_lt (_next_off_ge s) (ih _ h)

theorem blockLoop_closed_off (s : PFI) (h : (blockLoop s).closed = true) :
    s.off < (blockLoop s).s.off :=
  blockLoopAux_closed_off _ s h

theorem nextTail_congr (rec1 rec2 : PFI → Char × PFI) (s0 : PFI) (c : Char) (s : PFI)
    (hs : Reach s0 s)
    (h : ∀ t, t.content = s0.content → s0.off < t.off → rec1 t = rec2 t) :
    nextTail rec1 c s = nextTail rec2 c s := by
  unfold nextTail
  split_ifs with hc
  · apply h
    · rw [_next_content]; exact hs.1
    · have hp : peek s 0 ≠ NUL := by
        rcases hc.2 with h1 | h1
        · rw [h1.1]; decide
        · rw [h1]; decide
      have := _next_off_lt s (by simpa using peek_ne_NUL s 0 hp)
      have := hs.2
      omega
  · rfl
  · rfl

/-- The recursive calls of `next()` are made on states whose cursor is
strictly further than the one `next()` started from: the body gives the same
result for any two functions that agree on those states. -/
theorem nextBody_congr (rec1 rec2 : PFI → Char × PFI) (s : PFI)
    (hmono : ∀ t, Reach t (rec1 t).2)
    (h : ∀ t, t.content = s.content → s.off < t.off → rec1 t = rec2 t) :
    nextBody rec1 s = nextBody rec2 s := by
  have r1 : Reach s (_next s).2 := ⟨_next_content s, _next_off_ge s⟩
  have r2 : Reach s (_next (_next s).2).2 :=
    ⟨(_next_content _).trans r1.1, Nat.le_trans r1.2 (_next_off_ge _)⟩
  -- the comment loop, entered from state `u`, and what follows it
  have keyC : ∀ u : PFI, Reach s u → (blockLoop u).closed = true →
      nextTail rec1
          (rec1 { (_next (blockLoop u).s).2 with is_in_block_comment := false }).1
          (rec1 { (_next (blockLoop u).s).2 with is_in_block_comment := false }).2 =
        nextTail rec2
          (rec2 { (_next (blockLoop u).s).2 with is_in_block_comment := false }).1
          (rec2 { (_next (blockLoop u).s).2 with is_in_block_comment := false }).2 := by
    intro u hu hcl
    have hb := blockLoop_reach u
    have hlt := blockLoop_closed_off u hcl
    have hn : Reach s (_next (blockLoop u).s).2 :=
      ⟨(_next_content _).trans (hb.1.trans hu.1),
        Nat.le_trans hu.2 (Nat.le_trans hb.2 (_next_off_ge _))⟩
    have hlt2 : s.off < (_next (blockLoop u).s).2.off := by
      have := _next_off_ge (blockLoop u).s
      have := hu.2
      omega
    have e : rec1 { (_next (blockLoop u).s).2 with is_in_block_comment := false } =
        rec2 { (_next (blockLoop u).s).2 with is_in_block_comment := false } :=
      h _ hn.1 hlt2
    have hm := hmono { (_next (blockLoop u).s).2 with is_in_block_comment := false }
    rw [← e]
    exact nextTail_congr rec1 rec2 s _ _
      ⟨hm.1.trans hn.1, Nat.le_trans hn.2 hm.2⟩ h
  have keyO : ∀ u : PFI, Reach s u →
      nextTail rec1 (blockLoop u).c (blockLoop u).s =
        nextTail rec2 (blockLoop u).c (blockLoop u).s := by
    intro u hu
    have hb := blockLoop_reach u
    exact nextTail_congr rec1 rec2 s _ _ ⟨hb.1.trans hu.1, Nat.le_trans hu.2 hb.2⟩ h
  unfold nextBody
  simp only
  split_ifs with a b c d e f g
  · rfl
  · apply h
    · exact r2.1
    · have h1 : (_next s).1 ≠ NUL := by rw [c.2.1]; decide
      have := _next_off_lt_of_ne s h1
      have := _next_off_ge (_next s).2
      show s.off < (_next (_next s).2).2.off
      omega
  all_goals first
    | exact nextTail_congr rec1 rec2 s _ _ r1 h
    | exact nextTail_congr rec1 rec2 s _ _
        ⟨(lineLoop_reach _).1.trans r1.1, Nat.le_trans r1.2 (lineLoop_reach _).2⟩ h
    | exact keyC _ r2 ‹_›
    | exact keyC _ r1 ‹_›
    | exact keyO _ r2
    | exact keyO _ r1

end Preprocessor

namespace Preprocessor

theorem blockLoop_of_ge (s : PFI) (h : s.content.length ≤ s.off) :
    blockLoop s = ⟨NUL, s, false⟩ := by
  unfold blockLoop
  have h0 : s.content.length - s.off = 0 := by omega
  simp only [h0, blockLoopAux]
  rw [_next_of_ge s h]

theorem lineLoop_of_ge (s : PFI) (h : s.content.length ≤ s.off) :
    lineLoop s = (NUL, s) := by
  unfold lineLoop
  have h0 : s.content.length - s.off = 0 := by omega
  simp only [h0, lineLoopAux]
  rw [_next_of_ge s h]

theorem peek_of_ge (s : PFI) (k : Nat) (h : s.content.length ≤ s.off) : peek s k = NUL := by
  unfold peek
  rw [if_pos]
  show s.content.length ≤ s.off + k
  omega

theorem nextTail_NUL (rec : PFI → Char × PFI) (s : PFI) : nextTail rec NUL s = (NUL, s) := by
  unfold nextTail
  rw [if_neg (fun h => absurd h.1 (by decide)), if_neg (by decide)]

theorem nextBody_of_ge (rec : PFI → Char × PFI) (s : PFI) (h : s.content.length ≤ s.off) :
    nextBody rec s = (NUL, s) := by
  have e1 : ¬ (NUL = '/') := by decide
  have e2 : ¬ (NUL = '\n') := by decide
  have e3 : ¬ (NUL = '*') := by decide
  unfold nextBody
  rw [_next_of_ge s h]
  simp only
  by_cases hA : s.is_in_string = false ∧ (NUL = '/' ∨ s.is_in_block_comment = true)
  · have hblk : s.is_in_block_comment = true := hA.2.resolve_left e1
    have hs : ({ s with is_in_block_comment := true } : PFI) = s := by
      cases s; simp_all
    have hif : (if s.is_in_block_comment = false then (_next s).2 else s) = s := by
      rw [if_neg]; rw [hblk]; decide
    rw [if_pos hA, if_neg e2, if_neg (fun h => e3 h.2.1), if_pos (Or.inr hblk),
      hif, hs, blockLoop_of_ge s h]
    simp only [Bool.false_eq_true, if_false]
    exact nextTail_NUL rec s
  · rw [if_neg hA]
    exact nextTail_NUL rec s

/-- With more fuel than characters left, `nextAux` does not depend on the fuel. -/
theorem nextAux_fuel (fuel : Nat) (s : PFI) (h : s.content.length - s.off < fuel) :
    nextAux fuel s = next s := by
  suffices H : ∀ n f g (t : PFI), t.content.length - t.off ≤ n → n < f → n < g →
      nextAux f t = nextAux g t from
    H (s.content.length - s.off) _ _ s (Nat.le_refl _) h (Nat.lt_succ_self _)
  intro n
  induction n with
  | zero =>
    intro f g t ht hf hg
    obtain ⟨f, rfl⟩ : ∃ k, f = k + 1 := ⟨f - 1, by omega⟩
    obtain ⟨g, rfl⟩ : ∃ k, g = k + 1 := ⟨g - 1, by omega⟩
    show nextBody _ t = nextBody _ t
    rw [nextBody_of_ge _ t (by omega), nextBody_of_ge _ t (by omega)]
  | succ n ih =>
    intro f g t ht hf hg
    obtain ⟨f, rfl⟩ : ∃ k, f = k + 1 := ⟨f - 1, by omega⟩
    obtain ⟨g, rfl⟩ : ∃ k, g = k + 1 := ⟨g - 1, by omega⟩
    show nextBody _ t = nextBody _ t
    apply nextBody_congr _ _ t (fun u => nextAux_reach f u)
    intro u hu1 hu2
    exact ih f g u (by rw [hu1]; omega) (by omega) (by omega)

/-- The defining equation of `next()`, as in the source. -/
theorem next_eq (s : PFI) : next s = nextBody next s := by
  show nextBody (nextAux (s.content.length - s.off)) s = nextBody next s
  by_cases hl : s.content.length ≤ s.off
  · rw [nextBody_of_ge _ s hl, nextBody_of_ge _ s hl]
  · apply nextBody_congr _ _ s (fun u => nextAux_reach _ u)
    intro u hu1 hu2
    exact nextAux_fuel _ u (by rw [hu1]; omega)

theorem next_of_ge (s : PFI) (h : s.content.length ≤ s.off) : next s = (NUL, s) := by
  rw [next_eq, nextBody_of_ge _ s h]

end Preprocessor

namespace Preprocessor

/-! ### Reading the content at the cursor -/

theorem drop_cons_getD {l : List Char} {n : Nat} {c : Char} {rest : List Char}
    (h : l.drop n = c :: rest) :
    n < l.length ∧ l.getD n NUL = c ∧ l.drop (n + 1) = rest := by
  have hlt : n < l.length := by
    by_contra hge
    rw [List.drop_eq_nil_of_le (by omega)] at h
    exact List.noConfusion h
  refine ⟨hlt, ?_, ?_⟩
  · rw [List.getD_eq_getElem?_getD, List.getElem?_eq_getElem hlt]
    have := List.drop_eq_getElem_cons hlt
    rw [this] at h
    exact (List.cons.inj h).1
  · have := List.drop_eq_getElem_cons hlt
    rw [this] at h
    exact (List.cons.inj h).2

theorem drop_nil_ge {l : List Char} {n : Nat} (h : l.drop n = []) : l.length ≤ n := by
  simpa using h

/-- A raw step over a character that is neither a line feed nor a carriage return. -/
theorem _next_char (s : PFI) (c : Char) (rest : List Char)
    (h : s.content.drop s.off = c :: rest) (h1 : c ≠ '\n') (h2 : c ≠ '\r') :
    _next s = (c, { s with off := s.off + 1, col := s.col + 1 }) := by
  obtain ⟨hlt, hc, _⟩ := drop_cons_getD h
  rw [_next_of_lt s hlt, hc, if_neg h1, if_neg h2]

/-- A raw step over a line feed. -/
theorem _next_lf (s : PFI) (rest : List Char) (h : s.content.drop s.off = '\n' :: rest) :
    _next s = ('\n', { s with off := s.off + 1, line := s.line + 1,
                              last_col := s.col, col := 0 }) := by
  obtain ⟨hlt, hc, _⟩ := drop_cons_getD h
  rw [_next_of_lt s hlt, hc, if_pos rfl]

/-- A raw step over a carriage return skips it. -/
theorem _next_cr (s : PFI) (rest : List Char) (h : s.content.drop s.off = '\r' :: rest) :
    _next s = _next { s with off := s.off + 1 } := by
  obtain ⟨hlt, hc, _⟩ := drop_cons_getD h
  rw [_next_of_lt s hlt, hc, if_neg (by decide), if_pos rfl]

theorem peek_zero_cons (s : PFI) (c : Char) (rest : List Char)
    (h : s.content.drop s.off = c :: rest) : peek s 0 = c := by
  obtain ⟨hlt, hc, _⟩ := drop_cons_getD h
  unfold peek
  rw [if_neg (by simpa using hlt)]
  exact hc

theorem peek_zero_nil (s : PFI) (h : s.content.drop s.off = []) : peek s 0 = NUL :=
  peek_of_ge s 0 (drop_nil_ge h)

theorem peek_one_cons (s : PFI) (c d : Char) (rest : List Char)
    (h : s.content.drop s.off = c :: d :: rest) : peek s 1 = d := by
  obtain ⟨_, _, h1⟩ := drop_cons_getD h
  obtain ⟨hlt, hc, _⟩ := drop_cons_getD h1
  unfold peek
  rw [if_neg (by simpa using hlt)]
  exact hc

/-! ### The loops of `next()` without fuel -/

theorem lineLoopAux_fuel (f g : Nat) (s : PFI) (hf : s.content.length - s.off ≤ f)
    (hg : s.content.length - s.off ≤ g) : lineLoopAux f s = lineLoopAux g s := by
  induction f generalizing g s with
  | zero =>
    have hge : s.content.length ≤ s.off := by omega
    cases g with
    | zero => rfl
    | succ g =>
      simp only [lineLoopAux]
      rw [_next_of_ge s hge, if_neg (fun h => h.1 rfl)]
  | succ k ih =>
    cases g with
    | zero =>
      have hge : s.content.length ≤ s.off := by omega
      simp only [lineLoopAux]
      rw [_next_of_ge s hge, if_neg (fun h => h.1 rfl)]
    | succ g =>
      simp only [lineLoopAux]
      split_ifs with h1
      · have hlt := _next_off_lt_of_ne s h1.1
        have hc := _next_content s
        exact ih g _ (by rw [hc]; omega) (by rw [hc]; omega)
      · rfl

/-- The line comment loop, as in the source. -/
theorem lineLoop_eq (s : PFI) :
    lineLoop s =
      if (_next s).1 ≠ NUL ∧ (_next s).1 ≠ '\n' then lineLoop (_next s).2 else _next s := by
  unfold lineLoop
  cases hn : s.content.length - s.off with
  | zero =>
    have hge : s.content.length ≤ s.off := by omega
    simp only [lineLoopAux]
    rw [_next_of_ge s hge, if_neg (fun h => h.1 rfl)]
  | succ m =>
    simp only [lineLoopAux]
    split_ifs with h1
    · have hlt := _next_off_lt_of_ne s h1.1
      have hc := _next_content s
      exact lineLoopAux_fuel _ _ _ (by rw [hc]; omega) (Nat.le_refl _)
    · rfl

theorem blockLoopAux_fuel (f g : Nat) (s : PFI) (hf : s.content.length - s.off ≤ f)
    (hg : s.content.length - s.off ≤ g) : blockLoopAux f s = blockLoopAux g s := by
  induction f generalizing g s with
  | zero =>
    have hge : s.content.length ≤ s.off := by omega
    cases g with
    | zero => rfl
    | succ g =>
      simp only [blockLoopAux]
      rw [_next_of_ge s hge, if_pos rfl]
  | succ k ih =>
    cases g with
    | zero =>
      have hge : s.content.length ≤ s.off := by omega
      simp only [blockLoopAux]
      rw [_next_of_ge s hge, if_pos rfl]
    | succ g =>
      simp only [blockLoopAux]
      split_ifs with h1 h2 h3
      · rfl
      · rfl
      · rfl
      · have hlt := _next_off_lt_of_ne s h1
        have hc := _next_content s
        exact ih g _ (by rw [hc]; omega) (by rw [hc]; omega)

/-- The block comment loop, as in the source. -/
theorem blockLoop_eq (s : PFI) :
    blockLoop s =
      if (_next s).1 = NUL then ⟨(_next s).1, (_next s).2, false⟩
      else if (_next s).1 = '\n' then ⟨(_next s).1, (_next s).2, false⟩
      else if (_next s).1 = '*' ∧ peek (_next s).2 0 = '/' then ⟨(_next s).1, (_next s).2, true⟩
      else blockLoop (_next s).2 := by
  unfold blockLoop
  cases hn : s.content.length - s.off with
  | zero =>
    have hge : s.content.length ≤ s.off := by omega
    simp only [blockLoopAux]
    rw [_next_of_ge s hge, if_pos rfl]
  | succ m =>
    simp only [blockLoopAux]
    split_ifs with h1 h2 h3
    · rfl
    · rfl
    · rfl
    · have hlt := _next_off_lt_of_ne s h1
      have hc := _next_content s
      exact blockLoopAux_fuel _ _ _ (by rw [hc]; omega) (Nat.le_refl _)

end Preprocessor

namespace Preprocessor

/-! ### Single steps of `next()` -/

theorem nextTail_plain (rec : PFI → Char × PFI) (c : Char) (s : PFI) (h : c ≠ BSL) :
    nextTail rec c s =
      if c = DQT then (c, { s with is_in_string := !s.is_in_string }) else (c, s) := by
  unfold nextTail
  rw [if_neg (fun hc => h hc.1)]

/-- A line feed is returned as it is, in every mode. -/
theorem next_lf (s : PFI) (rest : List Char) (h : s.content.drop s.off = '\n' :: rest) :
    next s = ('\n', { s with off := s.off + 1, line := s.line + 1,
                             last_col := s.col, col := 0 }) := by
  rw [next_eq]
  unfold nextBody
  rw [_next_lf s rest h]
  simp only
  split_ifs with hA
  · rfl
  · rw [nextTail_plain _ _ _ (by decide), if_neg (by decide)]

/-- Outside comment recognition, a character other than a backslash is
returned as it is; a double quote toggles string mode. -/
theorem next_char (s : PFI) (c : Char) (rest : List Char)
    (h : s.content.drop s.off = c :: rest) (h1 : c ≠ '\n') (h2 : c ≠ '\r') (h3 : c ≠ BSL)
    (hA : ¬(s.is_in_string = false ∧ (c = '/' ∨ s.is_in_block_comment = true))) :
    next s =
      if c = DQT then
        (c, { s with off := s.off + 1, col := s.col + 1, is_in_string := !s.is_in_string })
      else (c, { s with off := s.off + 1, col := s.col + 1 }) := by
  rw [next_eq]
  unfold nextBody
  rw [_next_char s c rest h h1 h2]
  simp only
  rw [if_neg hA, nextTail_plain _ _ _ h3]

/-- At the end of the content every call returns NUL. -/
theorem nexts_of_ge (k : Nat) (s : PFI) (h : s.content.length ≤ s.off) :
    nexts k s = (List.replicate k NUL, s) := by
  induction k with
  | zero => rfl
  | succ k ih =>
    simp only [nexts, next_of_ge s h, ih, List.replicate_succ]

theorem nexts_succ (n : Nat) (s : PFI) :
    nexts (n + 1) s = ((next s).1 :: (nexts n (next s).2).1, (nexts n (next s).2).2) := rfl

/-- Text without `/`, backslash and carriage return is returned character
by character when the stream is not inside a block comment. -/
theorem nexts_plain (rest : List Char) (k : Nat) (s : PFI)
    (hd : s.content.drop s.off = rest) (hb : s.is_in_block_comment = false)
    (hp : ∀ c ∈ rest, c ≠ '/' ∧ c ≠ BSL ∧ c ≠ '\r') :
    (nexts (rest.length + k) s).1 = rest ++ List.replicate k NUL := by
  induction rest generalizing s with
  | nil =>
    rw [nexts_of_ge _ s (drop_nil_ge hd)]
    simp
  | cons c rest ih =>
    obtain ⟨h1, h2, h3⟩ := hp c (List.mem_cons_self _ _)
    have hp' : ∀ d ∈ rest, d ≠ '/' ∧ d ≠ BSL ∧ d ≠ '\r' :=
      fun d hd => hp d (List.mem_cons_of_mem _ hd)
    have hlen : (c :: rest).length + k = (rest.length + k) + 1 := by simp; omega
    rw [hlen, nexts_succ]
    obtain ⟨_, _, hdrop⟩ := drop_cons_getD hd
    by_cases hn : c = '\n'
    · subst hn
      rw [next_lf s rest hd]
      simp only [List.cons_append, List.cons.injEq, true_and]
      exact ih _ hdrop hb hp'
    · rw [next_char s c rest hd hn h3 h2 (fun hA => hA.2.elim h1 (by simp [hb]))]
      split_ifs
      · simp only [List.cons_append, List.cons.injEq, true_and]
        exact ih _ hdrop hb hp'
      · simp only [List.cons_append, List.cons.injEq, true_and]
        exact ih _ hdrop hb hp'

/-- C1. For every content without `/`, backslash, carriage return and NUL,
the calls of `next()` on a fresh stream return the characters of the content
in order, one per call, and NUL from then on. -/
theorem next_passes_plain_text (content : List Char)
    (h : ∀ c ∈ content, c ≠ '/' ∧ c ≠ BSL ∧ c ≠ '\r' ∧ c ≠ NUL) (k : Nat) :
    (nexts (content.length + k) (fresh content)).1 = content ++ List.replicate k NUL :=
  nexts_plain content k (fresh content) rfl rfl
    (fun c hc => ⟨(h c hc).1, (h c hc).2.1, (h c hc).2.2.1⟩)

theorem next_passes_plain_text_witness :
    (∀ c ∈ ['a', DQT, '\n', 'b'], c ≠ '/' ∧ c ≠ BSL ∧ c ≠ '\r' ∧ c ≠ NUL) ∧
    (nexts (['a', DQT, '\n', 'b'].length + 1) (fresh ['a', DQT, '\n', 'b'])).1 =
      ['a', DQT, '\n', 'b'] ++ List.replicate 1 NUL :=
  ⟨by decide, next_passes_plain_text ['a', DQT, '\n', 'b'] (by decide) 1⟩

/-! ### Line comments -/

theorem lineLoop_cr (s : PFI) (rest : List Char) (h : s.content.drop s.off = '\r' :: rest) :
    lineLoop s = lineLoop { s with off := s.off + 1 } := by
  rw [lineLoop_eq s, lineLoop_eq { s with off := s.off + 1 }, _next_cr s rest h]

/-- The line comment loop runs to the first line feed or, when there is
none, to the end of the content, provided no NUL comes first. -/
theorem lineLoop_spec (L tail : List Char) (s : PFI)
    (hd : s.content.drop s.off = L ++ tail) (ho : s.off ≤ s.content.length)
    (hL : ∀ c ∈ L, c ≠ '\n' ∧ c ≠ NUL) :
    (tail = [] → (lineLoop s).1 = NUL ∧ (lineLoop s).2.off = s.content.length) ∧
    (∀ R, tail = '\n' :: R →
      (lineLoop s).1 = '\n' ∧ (lineLoop s).2.off = s.off + L.length + 1) := by
  induction L generalizing s with
  | nil =>
    constructor
    · intro ht
      rw [ht] at hd
      have hge := drop_nil_ge hd
      rw [lineLoop_of_ge s hge]
      exact ⟨rfl, by show s.off = _; omega⟩
    · intro R ht
      rw [ht] at hd
      rw [lineLoop_eq, _next_lf s R hd, if_neg (fun h => h.2 rfl)]
      exact ⟨rfl, rfl⟩
  | cons c L ih =>
    obtain ⟨h1, h2⟩ := hL c (List.mem_cons_self _ _)
    have hL' : ∀ d ∈ L, d ≠ '\n' ∧ d ≠ NUL := fun d hd => hL d (List.mem_cons_of_mem _ hd)
    obtain ⟨hlt, _, hdrop⟩ := drop_cons_getD hd
    have key : lineLoop s = lineLoop { s with off := s.off + 1 } ∨
        lineLoop s = lineLoop { s with off := s.off + 1, col := s.col + 1 } := by
      by_cases hr : c = '\r'
      · subst hr; exact Or.inl (lineLoop_cr s _ hd)
      · right
        rw [lineLoop_eq s, _next_char s c _ hd h1 hr, if_pos ⟨h2, h1⟩]
    rcases key with key | key
    · have := ih { s with off := s.off + 1 } hdrop hlt hL'
      rw [key]
      refine ⟨this.1, fun R hR => ?_⟩
      have h3 := this.2 R hR
      exact ⟨h3.1, by rw [h3.2]; simp only [List.length_cons]; omega⟩
    · have := ih { s with off := s.off + 1, col := s.col + 1 } hdrop hlt hL'
      rw [key]
      refine ⟨this.1, fun R hR => ?_⟩
      have h3 := this.2 R hR
      exact ⟨h3.1, by rw [h3.2]; simp only [List.length_cons]; omega⟩

/-- C3 (as amended). In a state that is neither in string mode nor inside a
block comment and whose cursor is at `//`, with no NUL character before the
end of that line (`L` is the rest of the line), `next()` discards the line:
it returns the line feed and stops just past it when there is one, and
returns NUL at the end of the content otherwise. -/
theorem line_comment_skipped (s : PFI) (L tail : List Char)
    (hs : s.is_in_string = false) (hb : s.is_in_block_comment = false)
    (h : s.content.drop s.off = '/' :: '/' :: (L ++ tail))
    (hL : ∀ c ∈ L, c ≠ '\n' ∧ c ≠ NUL) :
    (tail = [] → (next s).1 = NUL ∧ (next s).2.off = s.content.length) ∧
    (∀ R, tail = '\n' :: R →
      (next s).1 = '\n' ∧ (next s).2.off = s.off + 2 + L.length + 1) := by
  obtain ⟨hlt, _, hd1⟩ := drop_cons_getD h
  have hd1' : ({ s with off := s.off + 1, col := s.col + 1 } : PFI).content.drop
      ({ s with off := s.off + 1, col := s.col + 1 } : PFI).off = ('/' :: L) ++ tail := hd1
  have hL' : ∀ c ∈ '/' :: L, c ≠ '\n' ∧ c ≠ NUL := by
    intro c hc
    rcases List.mem_cons.mp hc with rfl | hc
    · exact ⟨by decide, by decide⟩
    · exact hL c hc
  have hloop := lineLoop_spec ('/' :: L) tail { s with off := s.off + 1, col := s.col + 1 }
    hd1' hlt hL'
  have hn : next s =
      ((lineLoop { s with off := s.off + 1, col := s.col + 1 }).1,
       (lineLoop { s with off := s.off + 1, col := s.col + 1 }).2) ∨
      (lineLoop { s with off := s.off + 1, col := s.col + 1 }).1 = DQT ∨
      (lineLoop { s with off := s.off + 1, col := s.col + 1 }).1 = BSL := by
    by_cases hq : (lineLoop { s with off := s.off + 1, col := s.col + 1 }).1 = BSL
    · exact Or.inr (Or.inr hq)
    by_cases hq2 : (lineLoop { s with off := s.off + 1, col := s.col + 1 }).1 = DQT
    · exact Or.inr (Or.inl hq2)
    left
    rw [next_eq]
    unfold nextBody
    rw [_next_char s '/' _ h (by decide) (by decide)]
    simp only
    rw [if_pos ⟨hs, Or.inl trivial⟩, if_neg (by decide), peek_zero_cons _ _ _ hd1,
      if_neg (fun hc => absurd hc.2.1 (by decide)),
      if_neg (fun hc => hc.elim (by decide) (by simp [hb])), if_pos rfl,
      nextTail_plain _ _ _ hq, if_neg hq2]
  constructor
  · intro ht
    have h3 := hloop.1 ht
    rcases hn with hn | hn | hn
    · rw [hn]; exact h3
    · rw [h3.1] at hn; exact absurd hn (by decide)
    · rw [h3.1] at hn; exact absurd hn (by decide)
  · intro R hR
    have h3 := hloop.2 R hR
    rcases hn with hn | hn | hn
    · rw [hn]
      refine ⟨h3.1, ?_⟩
      show (lineLoop _).2.off = _
      rw [h3.2]
      simp only [List.length_cons]
      omega
    · rw [h3.1] at hn; exact absurd hn (by decide)
    · rw [h3.1] at hn; exact absurd hn (by decide)

theorem line_comment_skipped_witness :
    ((next (fresh ['/', '/', 'a', '\r', '\n', 'b'])).1 = '\n' ∧
     (next (fresh ['/', '/', 'a', '\r', '\n', 'b'])).2.off = 0 + 2 + ['a', '\r'].length + 1) :=
  (line_comment_skipped (fresh ['/', '/', 'a', '\r', '\n', 'b']) ['a', '\r'] ['\n', 'b']
    rfl rfl rfl (by decide)).2 ['b'] rfl

/-- C3, counterexample. With a NUL character inside the comment, `next()`
stops at it: it returns NUL although a line feed follows, and the cursor is
neither past that line feed nor at the end of the content. -/
theorem line_comment_nul_counterexample :
    (fresh ['/', '/', NUL, '\n']).is_in_string = false ∧
    (fresh ['/', '/', NUL, '\n']).is_in_block_comment = false ∧
    (fresh ['/', '/', NUL, '\n']).content.drop (fresh ['/', '/', NUL, '\n']).off =
      '/' :: '/' :: NUL :: '\n' :: [] ∧
    (next (fresh ['/', '/', NUL, '\n'])).1 = NUL ∧
    (next (fresh ['/', '/', NUL, '\n'])).2.off = 3 ∧
    ¬ ((next (fresh ['/', '/', NUL, '\n'])).1 = '\n' ∧
       (next (fresh ['/', '/', NUL, '\n'])).2.off = 4) := by
  decide

end Preprocessor

namespace Preprocessor

/-! ### String mode -/

/-- In string mode comments are not recognised: a `/` is returned as it is
and exactly one character is consumed. -/
theorem next_slash_in_string (s : PFI) (rest : List Char)
    (hs : s.is_in_string = true) (h : s.content.drop s.off = '/' :: rest) :
    (next s).1 = '/' ∧ (next s).2.off = s.off + 1 := by
  rw [next_char s '/' rest h (by decide) (by decide) (by decide) (fun hA => by simp [hs] at hA),
    if_neg (by decide)]
  exact ⟨rfl, rfl⟩

/-- C2, the failing input. On the content `/**/"//` the first call of
`next()` returns the double quote (one quote returned so far, an odd number)
but leaves string mode off, because the quote is seen twice: by the call
that the comment loop makes and by the caller.  With the cursor at `//`, the
following call treats it as a comment: it returns NUL and consumes both
characters. -/
theorem string_mode_lost_after_block_comment :
    (nexts 1 (fresh ['/', '*', '*', '/', DQT, '/', '/'])).1 = [DQT] ∧
    (nexts 1 (fresh ['/', '*', '*', '/', DQT, '/', '/'])).2.is_in_string = false ∧
    (nexts 1 (fresh ['/', '*', '*', '/', DQT, '/', '/'])).2.off = 5 ∧
    (nexts 1 (fresh ['/', '*', '*', '/', DQT, '/', '/'])).2.content.drop 5 = ['/', '/'] ∧
    (next (nexts 1 (fresh ['/', '*', '*', '/', DQT, '/', '/'])).2).1 = NUL ∧
    (next (nexts 1 (fresh ['/', '*', '*', '/', DQT, '/', '/'])).2).2.off = 7 := by
  decide

/-! ### `get_line` -/

/-- C7, the failing input. On the content `\\x` (two backslashes and an
`x`), which has no line feed, `get_line(true)` returns `\x`: the first
backslash is lost, while the first logical line is the whole content. -/
theorem get_line_drops_backslash :
    (∀ c ∈ [BSL, BSL, 'x'], c ≠ '/' ∧ c ≠ DQT ∧ c ≠ '\r' ∧ c ≠ NUL) ∧
    (get_line (fresh [BSL, BSL, 'x']) true).1 = [BSL, 'x'] ∧
    firstLogicalLine [BSL, BSL, 'x'] = [BSL, BSL, 'x'] := by
  decide

end Preprocessor

namespace Preprocessor

/-! ### `move_back` -/

theorem size_dec_succ (n : Nat) : size_dec (n + 1) = n := by
  unfold size_dec
  rw [if_neg (Nat.succ_ne_zero n)]
  rfl

theorem samePos_stable (u : PFI) : Stable (SamePos u) where
  raw := by
    intro t h
    refine ⟨(_next_content t).trans h.1, Nat.le_trans h.2.1 (_next_off_ge t), fun he => ?_⟩
    have h1 := _next_off_ge t
    have h2 : (_next t).2.off = t.off := by have := h.2.1; omega
    rw [_next_eq_of_off t h2]
    exact h.2.2 (by omega)
  str := fun _ _ h => h
  blk := fun _ _ h => h

/-- Whatever raw steps and flag updates keep holds after `next()` as soon
as it holds after the first raw step of `next()`. -/
theorem next_stable_of_raw {P : PFI → Prop} (hP : Stable P) (s : PFI)
    (h : P (_next s).2) : P (next s).2 :=
  nextBody_stable hP _ (fun t ht => nextAux_stable hP _ t ht) s h

theorem move_back_of_pos (t : PFI) (h : t.off ≠ 0) :
    move_back t =
      if t.content.getD (t.off - 1) NUL = '\n' then
        { t with off := t.off - 1, line := size_dec t.line, col := t.last_col }
      else if t.content.getD (t.off - 1) NUL = '\r' then
        move_back { t with off := t.off - 1 }
      else { t with off := t.off - 1, col := size_dec t.col } := by
  unfold move_back
  obtain ⟨k, hk⟩ : ∃ k, t.off = k + 1 := ⟨t.off - 1, by omega⟩
  have hk' : t.off - 1 = k := by omega
  rw [show move_backAux t.off t = move_backAux (k + 1) t by rw [hk]]
  simp only [move_backAux]
  rw [if_neg h, ← hk']

/-- C8 (as amended). When `next()` consumes exactly one character and that
character is not a carriage return, one `move_back()` after it restores
`off`, `line` and `col`. -/
theorem move_back_undoes_single_step (s : PFI) (c : Char) (rest : List Char)
    (h : s.content.drop s.off = c :: rest) (hc : c ≠ '\r')
    (hone : (next s).2.off = s.off + 1) :
    (move_back (next s).2).off = s.off ∧
    (move_back (next s).2).line = s.line ∧
    (move_back (next s).2).col = s.col := by
  obtain ⟨hlt, hget, _⟩ := drop_cons_getD h
  have hP : SamePos (_next s).2 (next s).2 :=
    next_stable_of_raw (samePos_stable _) s ⟨rfl, Nat.le_refl _, fun _ => ⟨rfl, rfl, rfl⟩⟩
  have hcont : (next s).2.content = s.content := hP.1.trans (_next_content s)
  have hne : (next s).2.off ≠ 0 := by omega
  have hget' : (next s).2.content.getD ((next s).2.off - 1) NUL = c := by
    rw [hcont, hone, Nat.add_sub_cancel, hget]
  rw [move_back_of_pos _ hne, hget']
  by_cases hn : c = '\n'
  · subst hn
    rw [_next_lf s rest h] at hP
    obtain ⟨_, _, h3⟩ := hP
    obtain ⟨h4, h5, h6⟩ := h3 hone
    simp only at h4 h5 h6
    rw [if_pos rfl]
    refine ⟨by show (next s).2.off - 1 = s.off; omega, ?_, ?_⟩
    · show size_dec (next s).2.line = s.line
      rw [h4, size_dec_succ]
    · show (next s).2.last_col = s.col
      exact h6
  · rw [_next_char s c rest h hn hc] at hP
    obtain ⟨_, _, h3⟩ := hP
    obtain ⟨h4, h5, h6⟩ := h3 hone
    simp only at h4 h5 h6
    rw [if_neg hn, if_neg hc]
    refine ⟨by show (next s).2.off - 1 = s.off; omega, ?_, ?_⟩
    · show (next s).2.line = s.line
      exact h4
    · show size_dec (next s).2.col = s.col
      rw [h5, size_dec_succ]

theorem move_back_undoes_single_step_witness :
    (move_back (next ⟨['a', '\n', 'b'], 1, 1, 1, 0, false, false⟩).2).off = 1 ∧
    (move_back (next ⟨['a', '\n', 'b'], 1, 1, 1, 0, false, false⟩).2).line = 1 ∧
    (move_back (next ⟨['a', '\n', 'b'], 1, 1, 1, 0, false, false⟩).2).col = 1 :=
  move_back_undoes_single_step ⟨['a', '\n', 'b'], 1, 1, 1, 0, false, false⟩ '\n' ['b']
    rfl (by decide) (by decide)

/-- C8, counterexample. `move_back()` steps back over one character (and
over the carriage returns before it), it does not undo `next()`.  On the
content `//x` + line feed + `y` the first `next()` skips the comment and
stops at `off = 4`, `line = 2`, `col = 0`; `move_back()` then gives
`off = 3`, `line = 1`, `col = 3`, not the starting position `off = 0`,
`col = 0`.  On the content `a`, after one `next()`, the following `next()`
consumes nothing and `move_back()` goes from `off = 1` back to `off = 0`.  On
the content `a` + carriage return, after one `next()`, the following `next()`
consumes the carriage return only and `move_back()` steps back over it and
over the `a`, to `off = 0`. -/
theorem move_back_not_undo_counterexample :
    ((next (fresh ['/', '/', 'x', '\n', 'y'])).2.off = 4 ∧
     (move_back (next (fresh ['/', '/', 'x', '\n', 'y'])).2).off = 3 ∧
     (move_back (next (fresh ['/', '/', 'x', '\n', 'y'])).2).col = 3 ∧
     (move_back (next (fresh ['/', '/', 'x', '\n', 'y'])).2).off ≠
       (fresh ['/', '/', 'x', '\n', 'y']).off ∧
     (move_back (next (fresh ['/', '/', 'x', '\n', 'y'])).2).col ≠
       (fresh ['/', '/', 'x', '\n', 'y']).col) ∧
    ((nexts 1 (fresh ['a'])).2.off = 1 ∧
     (next (nexts 1 (fresh ['a'])).2).2.off = 1 ∧
     (move_back (next (nexts 1 (fresh ['a'])).2).2).off = 0 ∧
     (move_back (next (nexts 1 (fresh ['a'])).2).2).off ≠ (nexts 1 (fresh ['a'])).2.off) ∧
    ((nexts 1 (fresh ['a', '\r'])).2.off = 1 ∧
     (next (nexts 1 (fresh ['a', '\r'])).2).2.off = 2 ∧
     (move_back (next (nexts 1 (fresh ['a', '\r'])).2).2).off = 0 ∧
     (move_back (next (nexts 1 (fresh ['a', '\r'])).2).2).off ≠
       (nexts 1 (fresh ['a', '\r'])).2.off) := by
  decide

end Preprocessor

namespace Preprocessor

/-! ### Block comments -/

theorem nexts_congr (s t : PFI) (h : next s = next t) (m : Nat) :
    (nexts m s).1 = (nexts m t).1 := by
  cases m with
  | zero => rfl
  | succ m => rw [nexts_succ, nexts_succ, h]

/-- After a call of `next()` on plain text the end of `next()` has nothing
left to do. -/
theorem nextTail_next_plain (v : PFI) (S : List Char)
    (hd : v.content.drop v.off = S) (hb : v.is_in_block_comment = false)
    (hS : ∀ c ∈ S, c ≠ '/' ∧ c ≠ BSL ∧ c ≠ DQT ∧ c ≠ '\r') :
    nextTail next (next v).1 (next v).2 = next v := by
  cases S with
  | nil => rw [next_of_ge v (drop_nil_ge hd)]; exact nextTail_NUL next v
  | cons c S =>
    obtain ⟨h1, h2, h3, h4⟩ := hS c (List.mem_cons_self _ _)
    by_cases hn : c = '\n'
    · subst hn
      rw [next_lf v S hd, nextTail_plain _ _ _ (show '\n' ≠ BSL by decide),
        if_neg (show ¬ ('\n' = DQT) by decide)]
    · rw [next_char v c S hd hn h4 h2 (fun hA => hA.2.elim h1 (by simp [hb])), if_neg h3,
        nextTail_plain _ _ _ h2, if_neg h3]

/-- Inside a block comment, what `next()` does from the comment loop on is
what a call of `next()` does. -/
theorem blockLoop_then_eq_next (B S : List Char) (w : PFI)
    (hd : w.content.drop w.off = B ++ '*' :: '/' :: S)
    (hs : w.is_in_string = false) (hb : w.is_in_block_comment = true)
    (hB : hasClose B = false) (hB2 : ∀ c ∈ B, c ≠ '\r' ∧ c ≠ NUL)
    (hS : ∀ c ∈ S, c ≠ '/' ∧ c ≠ BSL ∧ c ≠ DQT ∧ c ≠ '\r') :
    (if (blockLoop w).closed = true then
        nextTail next
          (next { (_next (blockLoop w).s).2 with is_in_block_comment := false }).1
          (next { (_next (blockLoop w).s).2 with is_in_block_comment := false }).2
      else nextTail next (blockLoop w).c (blockLoop w).s) = next w := by
  cases B with
  | nil =>
    rw [List.nil_append] at hd
    obtain ⟨_, _, hd1⟩ := drop_cons_getD hd
    have hn := _next_char w '*' _ hd (by decide) (by decide)
    have hp : peek { w with off := w.off + 1, col := w.col + 1 } 0 = '/' :=
      peek_zero_cons _ _ _ hd1
    have hloop : blockLoop w = ⟨'*', { w with off := w.off + 1, col := w.col + 1 }, true⟩ := by
      rw [blockLoop_eq, hn]
      dsimp only
      rw [if_neg (by decide), if_neg (by decide), if_pos ⟨rfl, hp⟩]
    have hn2 := _next_char { w with off := w.off + 1, col := w.col + 1 } '/' S hd1
      (by decide) (by decide)
    obtain ⟨_, _, hd2⟩ := drop_cons_getD hd1
    have hR : next w =
        next { w with off := w.off + 1 + 1, col := w.col + 1 + 1,
                      is_in_block_comment := false } := by
      rw [next_eq w]
      unfold nextBody
      rw [hn]
      dsimp only
      rw [if_pos ⟨hs, Or.inr hb⟩, if_neg (by decide), if_pos ⟨hb, rfl, hp⟩, hn2]
    rw [hR, hloop]
    simp only [if_true]
    rw [hn2]
    dsimp only
    rw [nextTail_next_plain _ S hd2 rfl hS]
  | cons c B =>
    obtain ⟨hlt, _, hd1⟩ := drop_cons_getD hd
    by_cases hnl : c = '\n'
    · subst hnl
      have hn := _next_lf w _ hd
      have hloop : blockLoop w =
          ⟨'\n', { w with off := w.off + 1, line := w.line + 1, last_col := w.col, col := 0 },
            false⟩ := by
        rw [blockLoop_eq, hn]
        dsimp only
        rw [if_neg (by decide), if_pos rfl]
      rw [hloop, next_lf w _ hd]
      simp only [Bool.false_eq_true, if_false]
      rw [nextTail_plain _ _ _ (show '\n' ≠ BSL by decide),
        if_neg (show ¬ ('\n' = DQT) by decide)]
    · obtain ⟨hcr, hnul⟩ := hB2 c (List.mem_cons_self _ _)
      have hn := _next_char w c _ hd hnl hcr
      have hclose : ¬(c = '*' ∧ peek { w with off := w.off + 1, col := w.col + 1 } 0 = '/') := by
        rintro ⟨h1, h2⟩
        cases B with
        | nil =>
          rw [peek_zero_cons _ _ _ hd1] at h2
          exact absurd h2 (by decide)
        | cons d B =>
          rw [peek_zero_cons _ _ _ hd1] at h2
          subst h1; subst h2
          simp [hasClose] at hB
      have hloop : blockLoop w = blockLoop { w with off := w.off + 1, col := w.col + 1 } := by
        rw [blockLoop_eq w, hn]
        dsimp only
        rw [if_neg hnul, if_neg hnl, if_neg hclose]
      have hw1 : ({ w with off := w.off + 1, col := w.col + 1, is_in_block_comment := true } : PFI)
          = { w with off := w.off + 1, col := w.col + 1 } := by
        cases w; simp_all
      have hif : (if w.is_in_block_comment = false then
          (_next { w with off := w.off + 1, col := w.col + 1 }).2
          else { w with off := w.off + 1, col := w.col + 1 }) =
          { w with off := w.off + 1, col := w.col + 1 } := by
        rw [if_neg]; rw [hb]; decide
      have hR : next w =
          (if (blockLoop { w with off := w.off + 1, col := w.col + 1 }).closed = true then
            nextTail next
              (next { (_next (blockLoop { w with off := w.off + 1, col := w.col + 1 }).s).2
                        with is_in_block_comment := false }).1
              (next { (_next (blockLoop { w with off := w.off + 1, col := w.col + 1 }).s).2
                        with is_in_block_comment := false }).2
          else nextTail next (blockLoop { w with off := w.off + 1, col := w.col + 1 }).c
            (blockLoop { w with off := w.off + 1, col := w.col + 1 }).s) := by
        rw [next_eq w]
        unfold nextBody
        rw [hn]
        dsimp only
        rw [if_pos ⟨hs, Or.inr hb⟩, if_neg hnl,
          if_neg (fun h => hclose ⟨h.2.1, h.2.2⟩), if_pos (Or.inr hb), hif]
        dsimp only
        rw [hw1]
      rw [hR, hloop]


theorem hasClose_iff (B : List Char) : hasClose B = true ↔ ['*', '/'] <:+: B := by
  induction B with
  | nil => simp [hasClose]
  | cons c B ih =>
    simp only [hasClose, Bool.or_eq_true, decide_eq_true_eq, ih]
    constructor
    · rintro (⟨rfl, h⟩ | h)
      · cases B with
        | nil => simp at h
        | cons d B =>
          simp only [List.head?_cons, Option.some.injEq] at h
          subst h
          exact ⟨[], B, rfl⟩
      · obtain ⟨a, b, hab⟩ := h
        exact ⟨c :: a, b, by rw [← hab]; rfl⟩
    · rintro ⟨a, b, hab⟩
      cases a with
      | nil =>
        left
        simp only [List.nil_append, List.cons_append, List.cons.injEq] at hab
        obtain ⟨rfl, rfl⟩ := hab
        exact ⟨rfl, rfl⟩
      | cons x a =>
        right
        simp only [List.cons_append, List.cons.injEq] at hab
        exact ⟨a, b, by simpa using hab.2⟩

/-- The call of `next()` that meets the end of a block comment goes on
after it, outside the comment. -/
theorem next_block_close (w : PFI) (S : List Char)
    (hd : w.content.drop w.off = '*' :: '/' :: S)
    (hs : w.is_in_string = false) (hb : w.is_in_block_comment = true) :
    next w = next { w with off := w.off + 1 + 1, col := w.col + 1 + 1,
                           is_in_block_comment := false } := by
  obtain ⟨_, _, hd1⟩ := drop_cons_getD hd
  have hn := _next_char w '*' _ hd (by decide) (by decide)
  have hp : peek { w with off := w.off + 1, col := w.col + 1 } 0 = '/' :=
    peek_zero_cons _ _ _ hd1
  have hn2 := _next_char { w with off := w.off + 1, col := w.col + 1 } '/' S hd1
    (by decide) (by decide)
  rw [next_eq w]
  unfold nextBody
  rw [hn]
  dsimp only
  rw [if_pos ⟨hs, Or.inr hb⟩, if_neg (by decide), if_pos ⟨hb, rfl, hp⟩, hn2]

/-- Inside a block comment a character that is not a line feed is skipped. -/
theorem next_block_skip (B S : List Char) (c : Char) (w : PFI)
    (hd : w.content.drop w.off = (c :: B) ++ '*' :: '/' :: S)
    (hs : w.is_in_string = false) (hb : w.is_in_block_comment = true)
    (hnl : c ≠ '\n')
    (hB : hasClose (c :: B) = false) (hB2 : ∀ d ∈ c :: B, d ≠ '\r' ∧ d ≠ NUL)
    (hS : ∀ d ∈ S, d ≠ '/' ∧ d ≠ BSL ∧ d ≠ DQT ∧ d ≠ '\r') :
    next w = next { w with off := w.off + 1, col := w.col + 1 } := by
  obtain ⟨hlt, _, hd1⟩ := drop_cons_getD hd
  obtain ⟨hcr, hnul⟩ := hB2 c (List.mem_cons_self _ _)
  have hn := _next_char w c _ hd hnl hcr
  have hclose : ¬(c = '*' ∧ peek { w with off := w.off + 1, col := w.col + 1 } 0 = '/') := by
    rintro ⟨h1, h2⟩
    cases B with
    | nil =>
      rw [peek_zero_cons _ _ _ hd1] at h2
      exact absurd h2 (by decide)
    | cons d B =>
      rw [peek_zero_cons _ _ _ hd1] at h2
      subst h1; subst h2
      simp [hasClose] at hB
  have hloop : blockLoop w = blockLoop { w with off := w.off + 1, col := w.col + 1 } := by
    rw [blockLoop_eq w, hn]
    dsimp only
    rw [if_neg hnul, if_neg hnl, if_neg hclose]
  have hB' : hasClose B = false := by
    simp only [hasClose, Bool.or_eq_false_iff] at hB
    exact hB.2
  have e1 := blockLoop_then_eq_next (c :: B) S w hd hs hb hB hB2 hS
  have e2 := blockLoop_then_eq_next B S { w with off := w.off + 1, col := w.col + 1 } hd1 hs hb
    hB' (fun d hd => hB2 d (List.mem_cons_of_mem _ hd)) hS
  rw [← e1, ← e2, hloop]

/-- Inside a block comment that is closed later on, `next()` returns the
line feeds of the comment and then the text after it. -/
theorem nexts_in_block (B S : List Char) (k : Nat) (u : PFI)
    (hd : u.content.drop u.off = B ++ '*' :: '/' :: S)
    (hs : u.is_in_string = false) (hb : u.is_in_block_comment = true)
    (hB : hasClose B = false) (hB2 : ∀ c ∈ B, c ≠ '\r' ∧ c ≠ NUL)
    (hS : ∀ c ∈ S, c ≠ '/' ∧ c ≠ BSL ∧ c ≠ DQT ∧ c ≠ '\r') :
    (nexts (B.count '\n' + S.length + k) u).1 =
      List.replicate (B.count '\n') '\n' ++ S ++ List.replicate k NUL := by
  induction B generalizing u with
  | nil =>
    rw [List.nil_append] at hd
    obtain ⟨_, _, hd1⟩ := drop_cons_getD hd
    obtain ⟨_, _, hd2⟩ := drop_cons_getD hd1
    rw [nexts_congr _ _ (next_block_close u S hd hs hb)]
    simp only [List.count_nil, Nat.zero_add, List.replicate_zero, List.nil_append]
    exact nexts_plain S k _ hd2 rfl (fun c hc => ⟨(hS c hc).1, (hS c hc).2.1, (hS c hc).2.2.2⟩)
  | cons c B ih =>
    obtain ⟨_, _, hd1⟩ := drop_cons_getD hd
    have hB' : hasClose B = false := by
      simp only [hasClose, Bool.or_eq_false_iff] at hB
      exact hB.2
    have hB2' : ∀ d ∈ B, d ≠ '\r' ∧ d ≠ NUL := fun d hd => hB2 d (List.mem_cons_of_mem _ hd)
    by_cases hnl : c = '\n'
    · subst hnl
      have hcount : List.count '\n' ('\n' :: B) + S.length + k =
          (List.count '\n' B + S.length + k) + 1 := by
        rw [List.count_cons_self]; omega
      rw [hcount, nexts_succ, next_lf u _ hd, List.count_cons_self, List.replicate_succ]
      simp only [List.cons_append, List.cons.injEq, true_and]
      exact ih _ hd1 hs hb hB' hB2'
    · rw [nexts_congr _ _ (next_block_skip B S c u hd hs hb hnl hB hB2 hS),
        List.count_cons_of_ne (fun h => hnl h.symm)]
      exact ih _ hd1 hs hb hB' hB2'

/-- Plain text in front: `next()` returns it and goes on with what follows. -/
theorem nexts_plain_then (P rest X : List Char) (m : Nat)
    (hP : ∀ c ∈ P, c ≠ '/' ∧ c ≠ BSL ∧ c ≠ DQT ∧ c ≠ '\r')
    (hX : ∀ t : PFI, t.content.drop t.off = rest → t.is_in_string = false →
      t.is_in_block_comment = false → (nexts m t).1 = X)
    (s : PFI) (hd : s.content.drop s.off = P ++ rest)
    (hs : s.is_in_string = false) (hb : s.is_in_block_comment = false) :
    (nexts (P.length + m) s).1 = P ++ X := by
  induction P generalizing s with
  | nil =>
    simp only [List.length_nil, Nat.zero_add, List.nil_append]
    exact hX s hd hs hb
  | cons c P ih =>
    obtain ⟨h1, h2, h3, h4⟩ := hP c (List.mem_cons_self _ _)
    have hP' : ∀ d ∈ P, d ≠ '/' ∧ d ≠ BSL ∧ d ≠ DQT ∧ d ≠ '\r' :=
      fun d hd => hP d (List.mem_cons_of_mem _ hd)
    obtain ⟨_, _, hd1⟩ := drop_cons_getD hd
    have hlen : (c :: P).length + m = (P.length + m) + 1 := by
      simp only [List.length_cons]; omega
    rw [hlen, nexts_succ]
    by_cases hn : c = '\n'
    · subst hn
      rw [next_lf s _ hd]
      simp only [List.cons_append, List.cons.injEq, true_and]
      exact ih hP' _ hd1 hs hb
    · rw [next_char s c _ hd hn h4 h2 (fun hA => hA.2.elim h1 (by simp [hb])), if_neg h3]
      simp only [List.cons_append, List.cons.injEq, true_and]
      exact ih hP' _ hd1 hs hb

/-- The call of `next()` that meets the start of a block comment. -/
theorem next_block_open (B S : List Char) (t : PFI)
    (hd : t.content.drop t.off = '/' :: '*' :: (B ++ '*' :: '/' :: S))
    (hs : t.is_in_string = false) (hb : t.is_in_block_comment = false)
    (hB : hasClose B = false) (hB2 : ∀ c ∈ B, c ≠ '\r' ∧ c ≠ NUL)
    (hS : ∀ c ∈ S, c ≠ '/' ∧ c ≠ BSL ∧ c ≠ DQT ∧ c ≠ '\r') :
    next t = next { t with off := t.off + 1 + 1, col := t.col + 1 + 1,
                           is_in_block_comment := true } := by
  obtain ⟨_, _, hd1⟩ := drop_cons_getD hd
  obtain ⟨_, _, hd2⟩ := drop_cons_getD hd1
  have hn := _next_char t '/' _ hd (by decide) (by decide)
  have hp : peek { t with off := t.off + 1, col := t.col + 1 } 0 = '*' :=
    peek_zero_cons _ _ _ hd1
  have hn2 := _next_char { t with off := t.off + 1, col := t.col + 1 } '*' _ hd1
    (by decide) (by decide)
  have hif : (if t.is_in_block_comment = false then
      (_next { t with off := t.off + 1, col := t.col + 1 }).2
      else { t with off := t.off + 1, col := t.col + 1 }) =
      { t with off := t.off + 1 + 1, col := t.col + 1 + 1 } := by
    rw [if_pos hb, hn2]
  rw [← blockLoop_then_eq_next B S
    { t with off := t.off + 1 + 1, col := t.col + 1 + 1, is_in_block_comment := true }
    hd2 hs rfl hB hB2 hS]
  rw [next_eq t]
  unfold nextBody
  rw [hn]
  dsimp only
  rw [if_pos ⟨hs, Or.inl rfl⟩, if_neg (by decide), hp,
    if_neg (fun h => absurd h.1 (by rw [hb]; decide)), if_pos (Or.inl rfl), hif]

/-- C4. For a content `P ++ "/*" ++ B ++ "*/" ++ S` where `P` and `S` have
none of `/`, backslash, double quote, carriage return and NUL, and `B`
contains neither `*/` nor a carriage return nor NUL, the calls of `next()` on
a fresh stream return `P`, then one line feed for each line feed of `B`,
then `S`, and NUL from then on. -/
theorem block_comment_skipped (P B S : List Char) (k : Nat)
    (hP : ∀ c ∈ P, c ≠ '/' ∧ c ≠ BSL ∧ c ≠ DQT ∧ c ≠ '\r' ∧ c ≠ NUL)
    (hS : ∀ c ∈ S, c ≠ '/' ∧ c ≠ BSL ∧ c ≠ DQT ∧ c ≠ '\r' ∧ c ≠ NUL)
    (hB : ¬ ['*', '/'] <:+: B) (hB2 : ∀ c ∈ B, c ≠ '\r' ∧ c ≠ NUL) :
    (nexts (P.length + (B.count '\n' + S.length + k))
        (fresh (P ++ '/' :: '*' :: (B ++ '*' :: '/' :: S)))).1 =
      P ++ (List.replicate (B.count '\n') '\n' ++ S ++ List.replicate k NUL) := by
  have hB' : hasClose B = false := by
    cases h : hasClose B with
    | false => rfl
    | true => exact absurd ((hasClose_iff B).mp h) hB
  have hS' : ∀ c ∈ S, c ≠ '/' ∧ c ≠ BSL ∧ c ≠ DQT ∧ c ≠ '\r' :=
    fun c hc => ⟨(hS c hc).1, (hS c hc).2.1, (hS c hc).2.2.1, (hS c hc).2.2.2.1⟩
  apply nexts_plain_then P _ _ _
    (fun c hc => ⟨(hP c hc).1, (hP c hc).2.1, (hP c hc).2.2.1, (hP c hc).2.2.2.1⟩) _
    (fresh _) rfl rfl rfl
  intro t hd hs hb
  obtain ⟨_, _, hd1⟩ := drop_cons_getD hd
  obtain ⟨_, _, hd2⟩ := drop_cons_getD hd1
  rw [nexts_congr _ _ (next_block_open B S t hd hs hb hB' hB2 hS')]
  exact nexts_in_block B S k _ hd2 hs rfl hB' hB2 hS'

theorem block_comment_skipped_witness :
    (nexts (['a'].length + ((['x', '\n', '*', DQT, '\n'] : List Char).count '\n' + ['b'].length + 1))
        (fresh (['a'] ++ '/' :: '*' :: (['x', '\n', '*', DQT, '\n'] ++ '*' :: '/' :: ['b'])))).1 =
      ['a'] ++ (List.replicate ((['x', '\n', '*', DQT, '\n'] : List Char).count '\n') '\n' ++ ['b']
        ++ List.replicate 1 NUL) :=
  block_comment_skipped ['a'] ['x', '\n', '*', DQT, '\n'] ['b'] 1 (by decide) (by decide)
    (by decide) (by decide)

end Preprocessor

namespace Preprocessor

/-! ### The loops of `get_word` and `get_line` never run out of fuel -/

/-- Before the end of the content `next()` consumes at least one character. -/
theorem next_off_lt (s : PFI) (h : s.off < s.content.length) : s.off < (next s).2.off := by
  have h1 := _next_off_lt s h
  have h2 : Reach (_next s).2 (next s).2 :=
    next_stable_of_raw (reach_stable _) s ⟨rfl, Nat.le_refl _⟩
  exact Nat.lt_of_lt_of_le h1 h2.2

/-- A call of `next()` that returns a character other than NUL has consumed one. -/
theorem next_off_lt_of_ne (s : PFI) (h : (next s).1 ≠ NUL) : s.off < (next s).2.off := by
  by_cases hl : s.off < s.content.length
  · exact next_off_lt s hl
  · rw [next_of_ge s (by omega)] at h
    exact absurd rfl h

theorem next_content (s : PFI) : (next s).2.content = s.content := (next_reach s).1

theorem get_wordLoop_fuel (f g : Nat) (s : PFI) (off_end : Nat)
    (hf : s.content.length - s.off ≤ f) (hg : s.content.length - s.off ≤ g) :
    get_wordLoop f s off_end = get_wordLoop g s off_end := by
  induction f generalizing g s off_end with
  | zero =>
    have hge : s.content.length ≤ s.off := by omega
    cases g with
    | zero => rfl
    | succ g =>
      simp only [get_wordLoop]
      rw [next_of_ge s hge, if_neg (fun h => h.1 rfl)]
  | succ k ih =>
    cases g with
    | zero =>
      have hge : s.content.length ≤ s.off := by omega
      simp only [get_wordLoop]
      rw [next_of_ge s hge, if_neg (fun h => h.1 rfl)]
    | succ g =>
      simp only [get_wordLoop]
      split_ifs with h1
      · have hlt := next_off_lt_of_ne s h1.1
        have hc := next_content s
        exact ih g _ _ (by rw [hc]; omega) (by rw [hc]; omega)
      · rfl

/-- The loop of `get_word()`, as in the source. -/
theorem get_wordLoop_eq (s : PFI) (off_end : Nat) :
    get_wordLoop (s.content.length - s.off) s off_end =
      if (next s).1 ≠ NUL ∧ isWordChar (next s).1 = true then
        get_wordLoop ((next s).2.content.length - (next s).2.off) (next s).2 (next s).2.off
      else ((next s).2, off_end) := by
  cases hn : s.content.length - s.off with
  | zero =>
    have hge : s.content.length ≤ s.off := by omega
    simp only [get_wordLoop]
    rw [next_of_ge s hge, if_neg (fun h => h.1 rfl)]
  | succ m =>
    simp only [get_wordLoop]
    split_ifs with h1
    · have hlt := next_off_lt_of_ne s h1.1
      have hc := next_content s
      exact get_wordLoop_fuel _ _ _ _ (by rw [hc]; omega) (Nat.le_refl _)
    · rfl

theorem get_lineLoop_fuel (f g : Nat) (st : LineScan)
    (hf : st.s.content.length - st.s.off ≤ f) (hg : st.s.content.length - st.s.off ≤ g) :
    get_lineLoop f st = get_lineLoop g st := by
  induction f generalizing g st with
  | zero =>
    have hge : st.s.content.length ≤ st.s.off := by omega
    cases g with
    | zero => rfl
    | succ g =>
      simp only [get_lineLoop]
      rw [next_of_ge st.s hge, if_pos rfl]
  | succ k ih =>
    cases g with
    | zero =>
      have hge : st.s.content.length ≤ st.s.off := by omega
      simp only [get_lineLoop]
      rw [next_of_ge st.s hge, if_pos rfl]
    | succ g =>
      simp only [get_lineLoop]
      by_cases h0 : (next st.s).1 = NUL
      · rw [if_pos h0, if_pos h0]
      · have hlt := next_off_lt_of_ne st.s h0
        have hc := next_content st.s
        have hk : (next st.s).2.content.length - (next st.s).2.off ≤ k := by rw [hc]; omega
        have hg' : (next st.s).2.content.length - (next st.s).2.off ≤ g := by rw [hc]; omega
        rw [if_neg h0, if_neg h0]
        split_ifs
        · exact ih g _ hk hg'
        · rfl
        · exact ih g _ hk hg'
        · exact ih g _ hk hg'
        · exact ih g _ hk hg'

theorem get_lineRawLoop_fuel (f g : Nat) (s : PFI)
    (hf : s.content.length - s.off ≤ f) (hg : s.content.length - s.off ≤ g) :
    get_lineRawLoop f s = get_lineRawLoop g s := by
  induction f generalizing g s with
  | zero =>
    have hge : s.content.length ≤ s.off := by omega
    cases g with
    | zero => rfl
    | succ g =>
      simp only [get_lineRawLoop]
      rw [next_of_ge s hge, if_neg (fun h => h.1 rfl)]
  | succ k ih =>
    cases g with
    | zero =>
      have hge : s.content.length ≤ s.off := by omega
      simp only [get_lineRawLoop]
      rw [next_of_ge s hge, if_neg (fun h => h.1 rfl)]
    | succ g =>
      simp only [get_lineRawLoop]
      split_ifs with h1
      · have hlt := next_off_lt_of_ne s h1.1
        have hc := next_content s
        exact ih g _ (by rw [hc]; omega) (by rw [hc]; omega)
      · rfl

end Preprocessor

namespace Preprocessor

/-! ### `next()` only depends on the text ahead of the cursor -/

theorem sim_fuel {s t : PFI} (h : Sim s t) :
    s.content.length - s.off = t.content.length - t.off := by
  have := congrArg List.length h.1
  simpa using this

theorem _next_sim (L : List Char) (s t : PFI) (hL : s.content.drop s.off = L) (h : Sim s t) :
    Lock (_next s) (_next t) := by
  induction L generalizing s t with
  | nil =>
    have ht : t.content.drop t.off = [] := h.1 ▸ hL
    rw [_next_of_ge s (drop_nil_ge hL), _next_of_ge t (drop_nil_ge ht)]
    exact ⟨rfl, h⟩
  | cons c L ih =>
    have ht : t.content.drop t.off = c :: L := h.1 ▸ hL
    obtain ⟨_, _, hs1⟩ := drop_cons_getD hL
    obtain ⟨_, _, ht1⟩ := drop_cons_getD ht
    by_cases hn : c = '\n'
    · subst hn
      rw [_next_lf s L hL, _next_lf t L ht]
      exact ⟨rfl, hs1.trans ht1.symm, h.2.1, h.2.2⟩
    · by_cases hr : c = '\r'
      · subst hr
        rw [_next_cr s L hL, _next_cr t L ht]
        exact ih _ _ hs1 ⟨hs1.trans ht1.symm, h.2.1, h.2.2⟩
      · rw [_next_char s c L hL hn hr, _next_char t c L ht hn hr]
        exact ⟨rfl, hs1.trans ht1.symm, h.2.1, h.2.2⟩

theorem raw_sim {s t : PFI} (h : Sim s t) : Lock (_next s) (_next t) :=
  _next_sim _ s t rfl h

theorem peek_eq_drop (s : PFI) (k : Nat) :
    peek s k = ((s.content.drop s.off)[k]?).getD NUL := by
  unfold peek
  rw [List.getElem?_drop]
  split_ifs with h
  · rw [List.getElem?_eq_none (by omega)]; rfl
  · rw [List.getD_eq_getElem?_getD]

theorem peek_sim {s t : PFI} (h : Sim s t) (k : Nat) : peek s k = peek t k := by
  rw [peek_eq_drop, peek_eq_drop, h.1]

theorem sim_str {s t : PFI} (h : Sim s t) (b : Bool) :
    Sim { s with is_in_string := b } { t with is_in_string := b } :=
  ⟨h.1, rfl, h.2.2⟩

theorem sim_blk {s t : PFI} (h : Sim s t) (b : Bool) :
    Sim { s with is_in_block_comment := b } { t with is_in_block_comment := b } :=
  ⟨h.1, h.2.1, rfl⟩

theorem lineLoopAux_sim (fuel : Nat) {s t : PFI} (h : Sim s t) :
    Lock (lineLoopAux fuel s) (lineLoopAux fuel t) := by
  induction fuel generalizing s t with
  | zero => exact raw_sim h
  | succ k ih =>
    obtain ⟨hc, hS⟩ := raw_sim h
    simp only [lineLoopAux]
    rw [← hc]
    by_cases h1 : (_next s).1 ≠ NUL ∧ (_next s).1 ≠ '\n'
    · rw [if_pos h1, if_pos h1]
      exact ih hS
    · rw [if_neg h1, if_neg h1]
      exact ⟨hc, hS⟩

theorem lineLoop_sim {s t : PFI} (h : Sim s t) : Lock (lineLoop s) (lineLoop t) := by
  unfold lineLoop
  rw [← sim_fuel h]
  exact lineLoopAux_sim _ h

theorem blockLoopAux_sim (fuel : Nat) {s t : PFI} (h : Sim s t) :
    (blockLoopAux fuel s).c = (blockLoopAux fuel t).c ∧
    Sim (blockLoopAux fuel s).s (blockLoopAux fuel t).s ∧
    (blockLoopAux fuel s).closed = (blockLoopAux fuel t).closed := by
  induction fuel generalizing s t with
  | zero =>
    obtain ⟨hc, hS⟩ := raw_sim h
    exact ⟨hc, hS, rfl⟩
  | succ k ih =>
    obtain ⟨hc, hS⟩ := raw_sim h
    have hp := peek_sim hS 0
    simp only [blockLoopAux]
    rw [← hc, ← hp]
    by_cases h1 : (_next s).1 = NUL
    · rw [if_pos h1, if_pos h1]
      exact ⟨rfl, hS, rfl⟩
    · rw [if_neg h1, if_neg h1]
      by_cases h2 : (_next s).1 = '\n'
      · rw [if_pos h2, if_pos h2]
        exact ⟨rfl, hS, rfl⟩
      · rw [if_neg h2, if_neg h2]
        by_cases h3 : (_next s).1 = '*' ∧ peek (_next s).2 0 = '/'
        · rw [if_pos h3, if_pos h3]
          exact ⟨rfl, hS, rfl⟩
        · rw [if_neg h3, if_neg h3]
          exact ih hS

theorem blockLoop_sim {s t : PFI} (h : Sim s t) :
    (blockLoop s).c = (blockLoop t).c ∧ Sim (blockLoop s).s (blockLoop t).s ∧
    (blockLoop s).closed = (blockLoop t).closed := by
  unfold blockLoop
  rw [← sim_fuel h]
  exact blockLoopAux_sim _ h

theorem nextTail_sim (rec1 rec2 : PFI → Char × PFI)
    (hrec : ∀ s t, Sim s t → Lock (rec1 s) (rec2 t))
    (c : Char) {s t : PFI} (h : Sim s t) :
    Lock (nextTail rec1 c s) (nextTail rec2 c t) := by
  have hp0 := peek_sim h 0
  have hp1 := peek_sim h 1
  unfold nextTail
  rw [← hp0, ← hp1]
  by_cases h1 : c = BSL ∧ ((peek s 0 = '\r' ∧ peek s 1 = '\n') ∨ peek s 0 = '\n')
  · rw [if_pos h1, if_pos h1]
    exact hrec _ _ (raw_sim h).2
  · rw [if_neg h1, if_neg h1]
    by_cases h2 : c = DQT
    · rw [if_pos h2, if_pos h2]
      refine ⟨rfl, h.1, ?_, h.2.2⟩
      show (!s.is_in_string) = (!t.is_in_string)
      rw [h.2.1]
    · rw [if_neg h2, if_neg h2]
      exact ⟨rfl, h⟩

end Preprocessor

namespace Preprocessor

theorem nextTail_sim2 (rec1 rec2 : PFI → Char × PFI)
    (hrec : ∀ s t, Sim s t → Lock (rec1 s) (rec2 t))
    {c1 c2 : Char} (hc : c1 = c2) {s t : PFI} (h : Sim s t) :
    Lock (nextTail rec1 c1 s) (nextTail rec2 c2 t) := by
  subst hc
  exact nextTail_sim rec1 rec2 hrec c1 h

/-- The comment loop of `next()` and what follows it, on two states with
the same text ahead. -/
theorem afterLoop_sim (rec1 rec2 : PFI → Char × PFI)
    (hrec : ∀ s t, Sim s t → Lock (rec1 s) (rec2 t)) {u v : PFI} (h : Sim u v) :
    Lock
      (if (blockLoop u).closed = true then
          nextTail rec1
            (rec1 { (_next (blockLoop u).s).2 with is_in_block_comment := false }).1
            (rec1 { (_next (blockLoop u).s).2 with is_in_block_comment := false }).2
        else nextTail rec1 (blockLoop u).c (blockLoop u).s)
      (if (blockLoop v).closed = true then
          nextTail rec2
            (rec2 { (_next (blockLoop v).s).2 with is_in_block_comment := false }).1
            (rec2 { (_next (blockLoop v).s).2 with is_in_block_comment := false }).2
        else nextTail rec2 (blockLoop v).c (blockLoop v).s) := by
  obtain ⟨hc, hS, hcl⟩ := blockLoop_sim h
  rw [← hcl]
  by_cases h1 : (blockLoop u).closed = true
  · rw [if_pos h1, if_pos h1]
    have hr := hrec _ _ (sim_blk (raw_sim hS).2 false)
    exact nextTail_sim2 rec1 rec2 hrec hr.1 hr.2
  · rw [if_neg h1, if_neg h1]
    exact nextTail_sim2 rec1 rec2 hrec hc hS

theorem nextBody_sim (rec1 rec2 : PFI → Char × PFI)
    (hrec : ∀ s t, Sim s t → Lock (rec1 s) (rec2 t)) {s t : PFI} (h : Sim s t) :
    Lock (nextBody rec1 s) (nextBody rec2 t) := by
  obtain ⟨hc, hS⟩ := raw_sim h
  have hp := peek_sim hS 0
  have hstr := hS.2.1
  have hblk := hS.2.2
  unfold nextBody
  dsimp only
  by_cases hA : (_next s).2.is_in_string = false ∧
      ((_next s).1 = '/' ∨ (_next s).2.is_in_block_comment = true)
  · have hA' : (_next t).2.is_in_string = false ∧
        ((_next t).1 = '/' ∨ (_next t).2.is_in_block_comment = true) := by
      rw [← hc, ← hstr, ← hblk]; exact hA
    rw [if_pos hA, if_pos hA']
    by_cases hn : (_next s).1 = '\n'
    · have hn' : (_next t).1 = '\n' := by rw [← hc]; exact hn
      rw [if_pos hn, if_pos hn']
      exact ⟨hc, hS⟩
    · have hn' : ¬ (_next t).1 = '\n' := by rw [← hc]; exact hn
      rw [if_neg hn, if_neg hn']
      by_cases h1 : (_next s).2.is_in_block_comment = true ∧ (_next s).1 = '*' ∧
          peek (_next s).2 0 = '/'
      · have h1' : (_next t).2.is_in_block_comment = true ∧ (_next t).1 = '*' ∧
            peek (_next t).2 0 = '/' := by
          rw [← hc, ← hblk, ← hp]; exact h1
        rw [if_pos h1, if_pos h1']
        exact hrec _ _ (sim_blk (raw_sim hS).2 false)
      · have h1' : ¬ ((_next t).2.is_in_block_comment = true ∧ (_next t).1 = '*' ∧
            peek (_next t).2 0 = '/') := by
          rw [← hc, ← hblk, ← hp]; exact h1
        rw [if_neg h1, if_neg h1']
        by_cases h2 : peek (_next s).2 0 = '*' ∨ (_next s).2.is_in_block_comment = true
        · have h2' : peek (_next t).2 0 = '*' ∨ (_next t).2.is_in_block_comment = true := by
            rw [← hblk, ← hp]; exact h2
          rw [if_pos h2, if_pos h2']
          by_cases hb : (_next s).2.is_in_block_comment = false
          · have hb' : (_next t).2.is_in_block_comment = false := by rw [← hblk]; exact hb
            rw [if_pos hb, if_pos hb']
            exact afterLoop_sim rec1 rec2 hrec (sim_blk (raw_sim hS).2 true)
          · have hb' : ¬ (_next t).2.is_in_block_comment = false := by rw [← hblk]; exact hb
            rw [if_neg hb, if_neg hb']
            exact afterLoop_sim rec1 rec2 hrec (sim_blk hS true)
        · have h2' : ¬ (peek (_next t).2 0 = '*' ∨ (_next t).2.is_in_block_comment = true) := by
            rw [← hblk, ← hp]; exact h2
          rw [if_neg h2, if_neg h2']
          by_cases h3 : peek (_next s).2 0 = '/'
          · have h3' : peek (_next t).2 0 = '/' := by rw [← hp]; exact h3
            rw [if_pos h3, if_pos h3']
            have hl := lineLoop_sim hS
            exact nextTail_sim2 rec1 rec2 hrec hl.1 hl.2
          · have h3' : ¬ peek (_next t).2 0 = '/' := by rw [← hp]; exact h3
            rw [if_neg h3, if_neg h3']
            exact nextTail_sim2 rec1 rec2 hrec hc hS
  · have hA' : ¬ ((_next t).2.is_in_string = false ∧
        ((_next t).1 = '/' ∨ (_next t).2.is_in_block_comment = true)) := by
      rw [← hc, ← hstr, ← hblk]; exact hA
    rw [if_neg hA, if_neg hA']
    exact nextTail_sim2 rec1 rec2 hrec hc hS

theorem nextAux_sim (fuel : Nat) {s t : PFI} (h : Sim s t) :
    Lock (nextAux fuel s) (nextAux fuel t) := by
  induction fuel generalizing s t with
  | zero => exact ⟨rfl, h⟩
  | succ k ih => exact nextBody_sim _ _ (fun _ _ hst => ih hst) h

/-- The character that `next()` returns, and the text and the flags it
leaves, only depend on the text ahead of the cursor and on the flags. -/
theorem next_sim {s t : PFI} (h : Sim s t) : Lock (next s) (next t) := by
  unfold next
  rw [← sim_fuel h]
  exact nextAux_sim _ h

end Preprocessor

namespace Preprocessor

/-! ### Line continuations -/

/-- A backslash before a line break: `next()` goes on after the line break. -/
theorem next_fold_line_break (s : PFI) (lb rest : List Char)
    (hb : s.is_in_block_comment = false)
    (hlb : lb = ['\n'] ∨ lb = ['\r', '\n'])
    (h : s.content.drop s.off = BSL :: (lb ++ rest)) :
    next s =
      next { s with off := s.off + 1 + lb.length, line := s.line + 1, col := 0,
                    last_col := s.col + 1 } := by
  rw [next_eq s]
  unfold nextBody
  rw [_next_char s BSL _ h (by decide) (by decide)]
  dsimp only
  rw [if_neg (fun hA => hA.2.elim (by decide) (by simp [hb]))]
  obtain ⟨_, _, hd1⟩ := drop_cons_getD h
  unfold nextTail
  rcases hlb with rfl | rfl
  · rw [if_pos ⟨rfl, Or.inr (peek_zero_cons _ _ _ hd1)⟩, _next_lf _ rest hd1]
    rfl
  · obtain ⟨_, _, hd2⟩ := drop_cons_getD hd1
    rw [if_pos ⟨rfl, Or.inl ⟨peek_zero_cons _ _ _ hd1, peek_one_cons _ _ _ _ hd1⟩⟩,
      _next_cr _ _ hd1, _next_lf _ rest hd2]
    rfl

/-- C5. Outside a block comment, a backslash followed by a line break `lb`
(a line feed, or a carriage return and a line feed) is folded.  `next()`
gives the character and the state that it gives on the state just after the
line break, whose `line` is one more and whose `col` is 0; and neither the
backslash nor the line break is returned: the character returned is the one
that `next()` returns on the text `rest` that follows the line break. -/
theorem line_continuation_folded (s : PFI) (lb rest : List Char)
    (hb : s.is_in_block_comment = false)
    (hlb : lb = ['\n'] ∨ lb = ['\r', '\n'])
    (h : s.content.drop s.off = BSL :: (lb ++ rest)) :
    next s =
      next { s with off := s.off + 1 + lb.length, line := s.line + 1, col := 0,
                    last_col := s.col + 1 } ∧
    (next s).1 =
      (next { content := rest, off := 0, line := 1, col := 0, last_col := 0,
              is_in_string := s.is_in_string, is_in_block_comment := false }).1 := by
  have hfold := next_fold_line_break s lb rest hb hlb h
  refine ⟨hfold, ?_⟩
  rw [hfold]
  apply (next_sim _).1
  refine ⟨?_, rfl, hb⟩
  show s.content.drop (s.off + 1 + lb.length) = rest
  have hd : s.content.drop (s.off + (1 + lb.length)) = (BSL :: (lb ++ rest)).drop (1 + lb.length) := by
    rw [← h, List.drop_drop]
  rw [Nat.add_assoc, hd]
  simp [Nat.add_comm 1 lb.length]

theorem line_continuation_folded_witness :
    next ⟨['a', BSL, '\r', '\n', 'b'], 1, 1, 1, 0, false, false⟩ =
      next ⟨['a', BSL, '\r', '\n', 'b'], 1 + 1 + ['\r', '\n'].length, 1 + 1, 0, 1 + 1,
        false, false⟩ ∧
    (next ⟨['a', BSL, '\r', '\n', 'b'], 1, 1, 1, 0, false, false⟩).1 =
      (next ⟨['b'], 0, 1, 0, 0, false, false⟩).1 :=
  line_continuation_folded ⟨['a', BSL, '\r', '\n', 'b'], 1, 1, 1, 0, false, false⟩
    ['\r', '\n'] ['b'] rfl (Or.inr rfl) rfl

end Preprocessor

namespace Preprocessor

/-! ### `get_word` -/

theorem isWordChar_ne {c : Char} (h : isWordChar c = true) :
    c ≠ '\n' ∧ c ≠ '\r' ∧ c ≠ BSL ∧ c ≠ '/' ∧ c ≠ DQT ∧ c ≠ NUL := by
  refine ⟨?_, ?_, ?_, ?_, ?_, ?_⟩ <;>
  · intro hc
    rw [hc] at h
    exact absurd h (by decide)

/-- The line comment loop ends on NUL or on a line feed. -/
theorem lineLoop_char (s : PFI) : (lineLoop s).1 = NUL ∨ (lineLoop s).1 = '\n' := by
  suffices H : ∀ n (u : PFI), u.content.length - u.off ≤ n →
      (lineLoop u).1 = NUL ∨ (lineLoop u).1 = '\n' from H _ s (Nat.le_refl _)
  intro n
  induction n with
  | zero =>
    intro u hu
    rw [lineLoop_of_ge u (by omega)]
    exact Or.inl rfl
  | succ n ih =>
    intro u hu
    rw [lineLoop_eq]
    split_ifs with h1
    · have hlt := _next_off_lt_of_ne u h1.1
      have hc := _next_content u
      exact ih _ (by rw [hc]; omega)
    · by_cases h2 : (_next u).1 = NUL
      · exact Or.inl h2
      · by_cases h3 : (_next u).1 = '\n'
        · exact Or.inr h3
        · exact absurd ⟨h2, h3⟩ h1

/-- What ends the loop of `get_word()`: outside a block comment, `next()`
returns NUL or a character that is not a word character when the text ahead
is empty or starts with a character `d` that is not a word character, unless
`d` is a carriage return, or a backslash before a line break, or the `/` of
a `/*` outside string mode. -/
theorem next_stops (s : PFI) (rest : List Char)
    (hd : s.content.drop s.off = rest) (hb : s.is_in_block_comment = false)
    (h1 : ∀ d, rest.head? = some d → isWordChar d = false ∧ d ≠ '\r')
    (h2 : ¬ [BSL, '\n'] <+: rest) (h3 : ¬ [BSL, '\r', '\n'] <+: rest)
    (h4 : ¬ (s.is_in_string = false ∧ ['/', '*'] <+: rest)) :
    ¬ ((next s).1 ≠ NUL ∧ isWordChar (next s).1 = true) := by
  cases rest with
  | nil =>
    rw [next_of_ge s (drop_nil_ge hd)]
    exact fun h => h.1 rfl
  | cons d rest =>
    obtain ⟨hw, hcr⟩ := h1 d rfl
    obtain ⟨_, _, hd1⟩ := drop_cons_getD hd
    by_cases hn : d = '\n'
    · subst hn
      rw [next_lf s rest hd]
      exact fun h => absurd h.2 (show ¬ (isWordChar '\n' = true) by decide)
    by_cases hbs : d = BSL
    · subst hbs
      have hp0 : peek { s with off := s.off + 1, col := s.col + 1 } 0 ≠ '\n' := by
        intro hp
        cases rest with
        | nil => rw [peek_zero_nil _ hd1] at hp; exact absurd hp (by decide)
        | cons x rest =>
          rw [peek_zero_cons _ _ _ hd1] at hp
          subst hp
          exact h2 ⟨rest, rfl⟩
      have hp1 : ¬ (peek { s with off := s.off + 1, col := s.col + 1 } 0 = '\r' ∧
          peek { s with off := s.off + 1, col := s.col + 1 } 1 = '\n') := by
        rintro ⟨hp, hq⟩
        cases rest with
        | nil => rw [peek_zero_nil _ hd1] at hp; exact absurd hp (by decide)
        | cons x rest =>
          rw [peek_zero_cons _ _ _ hd1] at hp
          subst hp
          cases rest with
          | nil =>
            rw [peek_eq_drop] at hq
            have hd1' : List.drop (s.off + 1) s.content = ['\r'] := hd1
            simp only [hd1'] at hq
            exact absurd hq (by decide)
          | cons y rest =>
            rw [peek_one_cons _ _ _ _ hd1] at hq
            subst hq
            exact h3 ⟨rest, rfl⟩
      have hres : next s = (BSL, { s with off := s.off + 1, col := s.col + 1 }) := by
        rw [next_eq s]
        unfold nextBody
        rw [_next_char s BSL _ hd (by decide) (by decide)]
        dsimp only
        rw [if_neg (fun hA => hA.2.elim (by decide) (by simp [hb]))]
        unfold nextTail
        rw [if_neg (fun hc => hc.2.elim hp1 hp0), if_neg (by decide)]
      rw [hres]
      exact fun h => absurd h.2 (show ¬ (isWordChar BSL = true) by decide)
    by_cases hsl : d = '/'
    · subst hsl
      by_cases hstr : s.is_in_string = true
      · rw [(next_slash_in_string s rest hstr hd).1]
        exact fun h => absurd h.2 (by decide)
      · have hstr' : s.is_in_string = false := by simpa using hstr
        have hpc : peek { s with off := s.off + 1, col := s.col + 1 } 0 ≠ '*' := by
          intro hp
          cases rest with
          | nil => rw [peek_zero_nil _ hd1] at hp; exact absurd hp (by decide)
          | cons x rest =>
            rw [peek_zero_cons _ _ _ hd1] at hp
            subst hp
            exact h4 ⟨hstr', rest, rfl⟩
        have hres : (next s).1 = '/' ∨ (next s).1 = NUL ∨ (next s).1 = '\n' := by
          rw [next_eq s]
          unfold nextBody
          rw [_next_char s '/' _ hd (by decide) (by decide)]
          dsimp only
          rw [if_pos ⟨hstr', Or.inl rfl⟩, if_neg (by decide),
            if_neg (fun hc => absurd hc.2.1 (by decide)),
            if_neg (fun hc => hc.elim hpc (by simp [hb]))]
          split_ifs with hq
          · rcases lineLoop_char { s with off := s.off + 1, col := s.col + 1 } with hl | hl
            · rw [hl, nextTail_NUL]; exact Or.inr (Or.inl rfl)
            · rw [hl, nextTail_plain _ _ _ (show '\n' ≠ BSL by decide),
                if_neg (show ¬ ('\n' = DQT) by decide)]
              exact Or.inr (Or.inr rfl)
          · rw [nextTail_plain _ _ _ (show '/' ≠ BSL by decide),
              if_neg (show ¬ ('/' = DQT) by decide)]
            exact Or.inl rfl
        rcases hres with hr | hr | hr <;> rw [hr] <;>
          exact fun h => absurd h.2 (by decide)
    · have hres : (next s).1 = d := by
        rw [next_char s d rest hd hn hcr hbs (fun hA => hA.2.elim hsl (by simp [hb]))]
        split_ifs <;> rfl
      rw [hres]
      exact fun h => absurd h.2 (by simp [hw])

/-- The loop of `get_word()` over a run `w` of word characters after which
`next()` returns NUL or a character that is not a word character. -/
theorem get_wordLoop_spec (w rest : List Char) (s : PFI) (fuel off_end : Nat)
    (hd : s.content.drop s.off = w ++ rest)
    (hw : ∀ c ∈ w, isWordChar c = true)
    (hb : s.is_in_block_comment = false)
    (hstop : ∀ u : PFI, u.content.drop u.off = rest → u.is_in_string = s.is_in_string →
      u.is_in_block_comment = false → ¬ ((next u).1 ≠ NUL ∧ isWordChar (next u).1 = true))
    (hf : s.content.length - s.off ≤ fuel) :
    (get_wordLoop fuel s off_end).2 = if w = [] then off_end else s.off + w.length := by
  induction w generalizing s fuel off_end with
  | nil =>
    rw [if_pos rfl]
    rw [List.nil_append] at hd
    cases fuel with
    | zero => rfl
    | succ f =>
      simp only [get_wordLoop]
      rw [if_neg (hstop s hd rfl hb)]
  | cons c w ih =>
    rw [if_neg (List.cons_ne_nil _ _)]
    have hc := hw c (List.mem_cons_self _ _)
    obtain ⟨n1, n2, n3, n4, n5, n6⟩ := isWordChar_ne hc
    obtain ⟨hlt, _, hdrop⟩ := drop_cons_getD hd
    obtain ⟨f, rfl⟩ : ∃ f, fuel = f + 1 := ⟨fuel - 1, by omega⟩
    simp only [get_wordLoop]
    rw [next_char s c _ hd n1 n2 n3 (fun hA => hA.2.elim n4 (by simp [hb])), if_neg n5]
    dsimp only
    rw [if_pos ⟨n6, hc⟩]
    rw [ih { s with off := s.off + 1, col := s.col + 1 } f (s.off + 1) hdrop
      (fun d hd => hw d (List.mem_cons_of_mem _ hd)) hb hstop
      (by show s.content.length - (s.off + 1) ≤ f; omega)]
    split_ifs with hw0
    · simp [hw0]
    · simp only [List.length_cons]; omega

/-- C6, counterexample. `get_word()` reads through `next()` and returns the
raw text between the first and the last offset.  After the run `a` a line
continuation is folded, a block comment is skipped and a carriage return is
dropped, so the loop reads on to `b`; and inside a block comment the loop
starts after the comment.  In each case the result is not the maximal run of
word characters at the cursor. -/
theorem get_word_not_maximal_counterexample :
    ((get_word (fresh ['a', BSL, '\n', 'b'])).1 = ['a', BSL, '\n', 'b'] ∧
     ((['a', BSL, '\n', 'b'] : List Char).drop 0).takeWhile isWordChar = ['a']) ∧
    ((get_word (fresh ['a', '/', '*', '*', '/', 'b'])).1 = ['a', '/', '*', '*', '/', 'b'] ∧
     ((['a', '/', '*', '*', '/', 'b'] : List Char).drop 0).takeWhile isWordChar = ['a']) ∧
    ((get_word (fresh ['a', '\r', 'b'])).1 = ['a', '\r', 'b'] ∧
     ((['a', '\r', 'b'] : List Char).drop 0).takeWhile isWordChar = ['a']) ∧
    ((nexts 1 (fresh ['/', '*', '\n', 'a', '*', '/', 'b'])).2.off = 3 ∧
     (nexts 1 (fresh ['/', '*', '\n', 'a', '*', '/', 'b'])).2.is_in_block_comment = true ∧
     (get_word (nexts 1 (fresh ['/', '*', '\n', 'a', '*', '/', 'b'])).2).1 = ['a', '*', '/', 'b'] ∧
     ((['/', '*', '\n', 'a', '*', '/', 'b'] : List Char).drop 3).takeWhile isWordChar = ['a']) := by
  decide

end Preprocessor

namespace Preprocessor

/-! ### `get_line(true)` on texts whose backslashes are all followed -/

theorem firstLogicalLine_cons (c : Char) (rest : List Char) (h1 : c ≠ '\n') (h2 : c ≠ BSL) :
    firstLogicalLine (c :: rest) = c :: firstLogicalLine rest := by
  cases rest with
  | nil => simp [firstLogicalLine, h1]
  | cons d rest => simp [firstLogicalLine, h1, h2]

theorem firstLogicalLine_bsl (d : Char) (rest : List Char) (h1 : d ≠ '\n') :
    firstLogicalLine (BSL :: d :: rest) = BSL :: firstLogicalLine (d :: rest) := by
  have hb : ¬ (BSL = '\n') := by decide
  simp [firstLogicalLine, h1, hb]

theorem get_lineLoop_congr (f : Nat) (s t : PFI) (e : Bool) (out : List Char)
    (h : next s = next t) :
    get_lineLoop f ⟨s, e, out⟩ = get_lineLoop f ⟨t, e, out⟩ := by
  cases f with
  | zero => simp only [get_lineLoop, h]
  | succ f => simp only [get_lineLoop, h]

/-- The loop of `get_line(true)` collects the first logical line of the text
ahead when every backslash is followed by a character other than a
backslash. -/
theorem get_lineLoop_spec (n : Nat) (L : List Char) (s : PFI) (out : List Char) (f : Nat)
    (hn : L.length ≤ n)
    (hd : s.content.drop s.off = L) (hb : s.is_in_block_comment = false)
    (hL : ∀ c ∈ L, c ≠ '/' ∧ c ≠ DQT ∧ c ≠ '\r' ∧ c ≠ NUL)
    (hbs : backslashesFollowed L = true)
    (hf : s.content.length - s.off ≤ f) :
    (get_lineLoop f ⟨s, false, out⟩).outputString = out ++ firstLogicalLine L := by
  induction n generalizing L s out f with
  | zero =>
    have hnil : L = [] := List.length_eq_zero.mp (Nat.le_zero.mp hn)
    subst hnil
    have hge := drop_nil_ge hd
    cases f with
    | zero => simp [get_lineLoop, firstLogicalLine]
    | succ f =>
      simp only [get_lineLoop]
      rw [next_of_ge s hge, if_pos rfl]
      simp [firstLogicalLine]
  | succ n ih =>
    cases L with
    | nil =>
      have hge := drop_nil_ge hd
      cases f with
      | zero => simp [get_lineLoop, firstLogicalLine]
      | succ f =>
        simp only [get_lineLoop]
        rw [next_of_ge s hge, if_pos rfl]
        simp [firstLogicalLine]
    | cons c L =>
      obtain ⟨h1, h2, h3, h4⟩ := hL c (List.mem_cons_self _ _)
      have hL' : ∀ d ∈ L, d ≠ '/' ∧ d ≠ DQT ∧ d ≠ '\r' ∧ d ≠ NUL :=
        fun d hd => hL d (List.mem_cons_of_mem _ hd)
      obtain ⟨hlt, _, hd1⟩ := drop_cons_getD hd
      have hlen : s.content.length - s.off = (c :: L).length := by rw [← hd]; simp
      obtain ⟨f, rfl⟩ : ∃ k, f = k + 1 := ⟨f - 1, by omega⟩
      by_cases hnl : c = '\n'
      · -- the line ends here
        subst hnl
        simp only [get_lineLoop]
        rw [next_lf s L hd, if_neg (show ¬ ('\n' = NUL) by decide),
          if_neg (show ¬ ('\n' = BSL) by decide), if_pos rfl, if_pos trivial]
        cases L <;> simp [firstLogicalLine]
      by_cases hbsl : c = BSL
      · subst hbsl
        cases L with
        | nil => simp [backslashesFollowed] at hbs
        | cons d L =>
          obtain ⟨g1, g2, g3, g4⟩ := hL' d (List.mem_cons_self _ _)
          have hL'' : ∀ x ∈ L, x ≠ '/' ∧ x ≠ DQT ∧ x ≠ '\r' ∧ x ≠ NUL :=
            fun x hx => hL' x (List.mem_cons_of_mem _ hx)
          obtain ⟨hlt1, _, hd2⟩ := drop_cons_getD hd1
          by_cases hdn : d = '\n'
          · -- a line continuation
            subst hdn
            have hfold := (next_fold_line_break s ['\n'] L hb (Or.inl rfl) hd)
            rw [get_lineLoop_congr _ _ _ _ _ hfold]
            have hbs' : backslashesFollowed L = true := by
              cases L with
              | nil => rfl
              | cons x L =>
                simp only [backslashesFollowed, Bool.and_eq_true] at hbs
                exact hbs.2.2
            have := ih L { s with off := s.off + 1 + ['\n'].length, line := s.line + 1, col := 0,
                                  last_col := s.col + 1 } out (f + 1)
              (by simp at hn; omega) hd2 hb hL'' hbs'
              (by show s.content.length - (s.off + 1 + 1) ≤ f + 1; omega)
            rw [this]
            simp [firstLogicalLine, hnl]
          · -- a backslash that is kept
            have hdb : d ≠ BSL := by
              intro hdb
              subst hdb
              simp [backslashesFollowed] at hbs
            have hp0 : peek { s with off := s.off + 1, col := s.col + 1 } 0 = d :=
              peek_zero_cons _ _ _ hd1
            have hres : next s = (BSL, { s with off := s.off + 1, col := s.col + 1 }) := by
              rw [next_eq s]
              unfold nextBody
              rw [_next_char s BSL _ hd (by decide) (by decide)]
              dsimp only
              rw [if_neg (fun hA => hA.2.elim (by decide) (by simp [hb]))]
              unfold nextTail
              rw [hp0, if_neg (fun hc => hc.2.elim (fun h => g3 h.1) hdn), if_neg (by decide)]
            obtain ⟨f, rfl⟩ : ∃ k, f = k + 1 := ⟨f - 1, by simp at hlen; omega⟩
            have hbsd : backslashesFollowed (d :: L) = true := by
              simp only [backslashesFollowed, Bool.and_eq_true] at hbs
              exact hbs.2
            have hbsL : backslashesFollowed L = true := by
              cases L with
              | nil => rfl
              | cons x L =>
                simp only [backslashesFollowed, Bool.and_eq_true] at hbsd
                exact hbsd.2
            simp only [get_lineLoop]
            rw [hres]
            dsimp only
            rw [if_neg (show ¬ (BSL = NUL) by decide), if_pos rfl]
            rw [next_char _ d L hd1 hdn g3 hdb (fun hA => hA.2.elim g1 (by simp [hb])),
              if_neg g2]
            dsimp only
            rw [if_neg g4, if_neg hdb, if_neg hdn]
            simp only [if_true]
            have := ih L { s with off := s.off + 1 + 1, col := s.col + 1 + 1 }
              (out ++ [BSL] ++ [d]) f (by simp at hn; omega) hd2 hb hL'' hbsL
              (by show s.content.length - (s.off + 1 + 1) ≤ f; simp at hlen; omega)
            rw [this, firstLogicalLine_bsl d L hdn, firstLogicalLine_cons d L hdn hdb]
            simp
      · -- an ordinary character
        have hbs' : backslashesFollowed L = true := by
          cases L with
          | nil => rfl
          | cons x L =>
            simp only [backslashesFollowed, Bool.and_eq_true] at hbs
            exact hbs.2
        simp only [get_lineLoop]
        rw [next_char s c L hd hnl h3 hbsl (fun hA => hA.2.elim h1 (by simp [hb])), if_neg h2]
        dsimp only
        rw [if_neg h4, if_neg hbsl, if_neg hnl]
        simp only [Bool.false_eq_true, if_false]
        have := ih L { s with off := s.off + 1, col := s.col + 1 } (out ++ [c]) f
          (by simp at hn; omega) hd1 hb hL' hbs'
          (by show s.content.length - (s.off + 1) ≤ f; omega)
        rw [this, firstLogicalLine_cons c L hnl hbsl]
        simp

/-- On a content without `/`, double quote, carriage return and NUL in which
every backslash is followed by a character other than a backslash,
`get_line(true)` on a fresh stream returns the first logical line. -/
theorem get_line_first_logical_line (content : List Char)
    (h : ∀ c ∈ content, c ≠ '/' ∧ c ≠ DQT ∧ c ≠ '\r' ∧ c ≠ NUL)
    (hbs : backslashesFollowed content = true) :
    (get_line (fresh content) true).1 = firstLogicalLine content := by
  have := get_lineLoop_spec content.length content (fresh content) [] content.length
    (Nat.le_refl _) rfl rfl h hbs (Nat.le_refl _)
  simpa [get_line] using this

end Preprocessor

namespace Preprocessor

/-! ### `peek` -/

/-- For a sum `off + len` that does not wrap, the call `peek(len)` returns
the character `peek s len` and leaves the state as it is. -/
theorem peek_call_eq (s : PFI) (len : Nat) (h : s.off + len ≤ SIZE_MAX) :
    peek_call s len = (peek s len, s) := by
  have hmod : (s.off + len) % (SIZE_MAX + 1) = s.off + len :=
    Nat.mod_eq_of_lt (Nat.lt_succ_of_le h)
  unfold peek_call peek
  rw [hmod]
  split_ifs <;> rfl

/-- C22, counterexample. After one character of the content `a` has been
read (`off = 1`), `peek(2^64 - 1)` returns `a`, the character before the
cursor: the sum `off + len` wraps around to `0`.  The claim asks for NUL, as
`off + k` is not below the length of the content. -/
theorem peek_wraps_counterexample :
    (peek_call ⟨['a'], 1, 1, 1, 0, false, false⟩ SIZE_MAX).1 = 'a' ∧
      ¬ (1 + SIZE_MAX < ['a'].length) ∧ 'a' ≠ NUL := by
  decide

/-- C22, amended: for every state and every `k` with `off + k` below
`2^64`, `peek(k)` returns `content[off + k]` when `off + k` is below the length
of the content and NUL otherwise; and for every `k` the call leaves the state
(`off`, `line`, `col`, the two flags and all other members) as it is. -/
theorem peek_is_pure_lookahead (s : PFI) (k : Nat) :
    (s.off + k ≤ SIZE_MAX →
      (peek_call s k).1 =
        if h : s.off + k < s.content.length then s.content.get ⟨s.off + k, h⟩ else NUL) ∧
      (peek_call s k).2 = s := by
  constructor
  · intro hk
    rw [peek_call_eq s k hk]
    unfold peek
    by_cases h : s.off + k < s.content.length
    · rw [dif_pos h, if_neg (by omega)]
      simp [List.getD_eq_getElem?_getD, List.getElem?_eq_getElem h]
    · rw [dif_neg h, if_pos (by omega)]
  · unfold peek_call
    split_ifs <;> rfl

/-- C22 on the content `ab` after one character: `peek(0)` is `b`,
`peek(1)` is NUL, and the state is unchanged. -/
theorem peek_is_pure_lookahead_witness :
    (peek_call ⟨['a', 'b'], 1, 1, 1, 0, false, false⟩ 0).1 = 'b' ∧
      (peek_call ⟨['a', 'b'], 1, 1, 1, 0, false, false⟩ 1).1 = NUL ∧
      (peek_call ⟨['a', 'b'], 1, 1, 1, 0, false, false⟩ 0).2 =
        ⟨['a', 'b'], 1, 1, 1, 0, false, false⟩ :=
  ⟨((peek_is_pure_lookahead ⟨['a', 'b'], 1, 1, 1, 0, false, false⟩ 0).1 (by decide)).trans
      (by decide),
    ((peek_is_pure_lookahead ⟨['a', 'b'], 1, 1, 1, 0, false, false⟩ 1).1 (by decide)).trans
      (by decide),
    (peek_is_pure_lookahead ⟨['a', 'b'], 1, 1, 1, 0, false, false⟩ 0).2⟩

end Preprocessor

namespace Preprocessor

/-! ### Where `get_word()` leaves the cursor -/

/-- The loop of `get_word()` over a run `w` of word characters: the state
and `off_end` with which the loop goes on after the run. -/
theorem get_wordLoop_run (w rest : List Char) (s : PFI) (fuel off_end : Nat)
    (hd : s.content.drop s.off = w ++ rest)
    (hw : ∀ c ∈ w, isWordChar c = true)
    (hb : s.is_in_block_comment = false)
    (hf : s.content.length - s.off ≤ fuel) :
    get_wordLoop fuel s off_end =
      get_wordLoop (s.content.length - (s.off + w.length))
        { s with off := s.off + w.length, col := s.col + w.length }
        (if w = [] then off_end else s.off + w.length) := by
  induction w generalizing s fuel off_end with
  | nil =>
    rw [if_pos rfl]
    exact get_wordLoop_fuel _ _ s off_end hf (Nat.le_refl _)
  | cons c w ih =>
    rw [if_neg (List.cons_ne_nil _ _)]
    have hc := hw c (List.mem_cons_self _ _)
    obtain ⟨n1, n2, n3, n4, n5, n6⟩ := isWordChar_ne hc
    obtain ⟨hlt, _, hdrop⟩ := drop_cons_getD hd
    obtain ⟨f, rfl⟩ : ∃ f, fuel = f + 1 := ⟨fuel - 1, by omega⟩
    simp only [get_wordLoop]
    rw [next_char s c _ hd n1 n2 n3 (fun hA => hA.2.elim n4 (by simp [hb])), if_neg n5]
    dsimp only
    rw [if_pos ⟨n6, hc⟩]
    rw [ih { s with off := s.off + 1, col := s.col + 1 } f (s.off + 1) hdrop
      (fun d hd => hw d (List.mem_cons_of_mem _ hd)) hb
      (by show s.content.length - (s.off + 1) ≤ f; omega)]
    have e1 : s.off + 1 + w.length = s.off + (c :: w).length := by
      simp only [List.length_cons]; omega
    have e2 : s.col + 1 + w.length = s.col + (c :: w).length := by
      simp only [List.length_cons]; omega
    have e3 : (if w = [] then s.off + 1 else s.off + 1 + w.length) =
        s.off + (c :: w).length := by
      split_ifs with hw0
      · simp [hw0]
      · exact e1
    show get_wordLoop (s.content.length - (s.off + 1 + w.length))
        { s with off := s.off + 1 + w.length, col := s.col + 1 + w.length } _ = _
    rw [e3, e1, e2]

/-- C23: when the word runs to the end of the content, the last call of
`next()` in `get_word()` returns NUL without consuming a character, and the
`move_back()` that follows steps back over the last character of the word.
`get_word()` returns the word `w ++ [c]`, but the offset is the starting
offset plus the length of the word minus one, and the following `next()`
returns `c`, the last character of the word, instead of NUL. -/
theorem get_word_steps_back_at_end (s : PFI) (w : List Char) (c : Char)
    (hd : s.content.drop s.off = w ++ [c])
    (hw : ∀ x ∈ w ++ [c], isWordChar x = true)
    (hb : s.is_in_block_comment = false) :
    (get_word s).1 = w ++ [c] ∧
      (get_word s).2.off + 1 = s.off + (w ++ [c]).length ∧
      (next (get_word s).2).1 = c := by
  have hlen : s.off + (w ++ [c]).length = s.content.length := by
    have := congrArg List.length hd
    simp only [List.length_drop] at this
    have hlt : s.off < s.content.length := by
      by_contra hge
      rw [List.drop_eq_nil_of_le (by omega)] at hd
      exact absurd hd.symm (by simp)
    omega
  have hloop : get_wordLoop (s.content.length - s.off) s s.off =
      ({ s with off := s.off + (w ++ [c]).length, col := s.col + (w ++ [c]).length },
        s.off + (w ++ [c]).length) := by
    have h1 := get_wordLoop_run (w ++ [c]) [] s (s.content.length - s.off) s.off
      (by rw [List.append_nil]; exact hd) hw hb (Nat.le_refl _)
    rw [h1, if_neg (by simp), hlen, Nat.sub_self]
    simp only [get_wordLoop]
    rw [next_of_ge _ (by show s.content.length ≤ s.content.length; exact Nat.le_refl _)]
  have hcw := hw c (by simp)
  obtain ⟨n1, n2, n3, n4, n5, n6⟩ := isWordChar_ne hcw
  have hwl : (w ++ [c]).length = w.length + 1 := by simp
  -- the character before the end of the content is `c`
  have hdc : s.content.drop (s.off + w.length) = [c] := by
    rw [← List.drop_drop, hd]
    simp
  obtain ⟨hlt2, hget, _⟩ := drop_cons_getD hdc
  have hback : move_back { s with off := s.off + (w ++ [c]).length, col := s.col + (w ++ [c]).length } =
      { s with off := s.off + w.length, col := s.col + w.length } := by
    rw [move_back_of_pos _ (by show s.off + (w ++ [c]).length ≠ 0; omega)]
    have hidx : s.off + (w ++ [c]).length - 1 = s.off + w.length := by omega
    simp only [hidx, hget, if_neg n1, if_neg n2]
    rw [show s.col + (w ++ [c]).length = (s.col + w.length) + 1 by omega, size_dec_succ]
  have hword : (get_word s) = (w ++ [c], { s with off := s.off + w.length, col := s.col + w.length }) := by
    unfold get_word
    simp only [hloop, hback]
    congr 1
    unfold substr
    rw [hd, show s.off + (w ++ [c]).length - s.off = (w ++ [c]).length by omega]
    exact List.take_length _
  rw [hword]
  refine ⟨rfl, by show s.off + w.length + 1 = _; omega, ?_⟩
  rw [next_char { s with off := s.off + w.length, col := s.col + w.length } c [] hdc n1 n2 n3
    (fun hA => hA.2.elim n4 (by simp [hb])), if_neg n5]

/-- C23 on the content `ab`: `get_word()` returns `ab` and leaves the
offset 1, and the following `next()` returns `b`. -/
theorem get_word_steps_back_at_end_witness :
    (get_word (fresh ['a', 'b'])).1 = ['a', 'b'] ∧
      (get_word (fresh ['a', 'b'])).2.off + 1 = (fresh ['a', 'b']).off + (['a'] ++ ['b']).length ∧
      (next (get_word (fresh ['a', 'b'])).2).1 = 'b' :=
  get_word_steps_back_at_end (fresh ['a', 'b']) ['a'] 'b' rfl (by decide) rfl

/-- When a character other than a word character follows the word, and it
is none of `/`, backslash, double quote and carriage return, `get_word()`
consumes exactly the word: the offset is the starting offset plus the length
of the word, and the following `next()` returns the character after the
word. -/
theorem get_word_before_other_char (s : PFI) (w rest : List Char) (d : Char)
    (hd : s.content.drop s.off = w ++ d :: rest)
    (hw : ∀ x ∈ w, isWordChar x = true)
    (hdw : isWordChar d = false)
    (hplain : d ≠ '/' ∧ d ≠ BSL ∧ d ≠ DQT ∧ d ≠ '\r')
    (hb : s.is_in_block_comment = false) :
    (get_word s).1 = w ∧ (get_word s).2.off = s.off + w.length ∧
      (next (get_word s).2).1 = d := by
  obtain ⟨p1, p2, p3, p4⟩ := hplain
  have hrun := get_wordLoop_run w (d :: rest) s (s.content.length - s.off) s.off hd hw hb
    (Nat.le_refl _)
  have hdd : s.content.drop (s.off + w.length) = d :: rest := by
    rw [← List.drop_drop, hd]
    simp
  obtain ⟨hlt, hget, _⟩ := drop_cons_getD hdd
  obtain ⟨m, hm⟩ : ∃ m, s.content.length - (s.off + w.length) = m + 1 :=
    ⟨s.content.length - (s.off + w.length) - 1, by omega⟩
  have hA : ¬ (s.is_in_string = false ∧ (d = '/' ∨ s.is_in_block_comment = true)) :=
    fun hA => hA.2.elim p1 (by simp [hb])
  have hsub : substr s.content s.off ((if w = [] then s.off else s.off + w.length) - s.off) = w := by
    unfold substr
    rw [hd]
    split_ifs with h0
    · simp [h0]
    · rw [show s.off + w.length - s.off = w.length by omega]
      simp
  by_cases hn : d = '\n'
  · subst hn
    have hnext := next_lf { s with off := s.off + w.length, col := s.col + w.length } rest hdd
    have hloop : get_wordLoop (s.content.length - s.off) s s.off =
        ({ s with off := s.off + w.length + 1, line := s.line + 1, last_col := s.col + w.length, col := 0 },
          if w = [] then s.off else s.off + w.length) := by
      rw [hrun, hm]
      simp only [get_wordLoop]
      rw [hnext, if_neg (fun h => absurd h.2 (by simp [hdw]))]
    have hback : move_back { s with off := s.off + w.length + 1, line := s.line + 1, last_col := s.col + w.length, col := 0 } =
        { s with off := s.off + w.length, line := s.line, last_col := s.col + w.length, col := s.col + w.length } := by
      rw [move_back_of_pos _ (by show s.off + w.length + 1 ≠ 0; omega)]
      simp only [Nat.add_sub_cancel, hget, if_true, size_dec_succ]
    have hword : get_word s = (w, { s with off := s.off + w.length, line := s.line, last_col := s.col + w.length, col := s.col + w.length }) := by
      unfold get_word
      simp only [hloop, hback, hsub]
    rw [hword]
    refine ⟨rfl, rfl, ?_⟩
    rw [next_lf _ rest (by exact hdd)]
  · have hnext := next_char { s with off := s.off + w.length, col := s.col + w.length } d rest
      hdd hn p4 p2 hA
    rw [if_neg p3] at hnext
    have hloop : get_wordLoop (s.content.length - s.off) s s.off =
        ({ s with off := s.off + w.length + 1, col := s.col + w.length + 1 },
          if w = [] then s.off else s.off + w.length) := by
      rw [hrun, hm]
      simp only [get_wordLoop]
      rw [hnext, if_neg (fun h => absurd h.2 (by simp [hdw]))]
    have hback : move_back { s with off := s.off + w.length + 1, col := s.col + w.length + 1 } =
        { s with off := s.off + w.length, col := s.col + w.length } := by
      rw [move_back_of_pos _ (by show s.off + w.length + 1 ≠ 0; omega)]
      simp only [Nat.add_sub_cancel, hget, if_neg hn, if_neg p4, size_dec_succ]
    have hword : get_word s = (w, { s with off := s.off + w.length, col := s.col + w.length }) := by
      unfold get_word
      simp only [hloop, hback, hsub]
    rw [hword]
    refine ⟨rfl, rfl, ?_⟩
    rw [hnext]

end Preprocessor

namespace Preprocessor

/-! ### The two modes of `get_line` on plain text -/

/-- The loop of `get_line(false)` on text without `/`, backslash, carriage
return and NUL: the cursor stops behind the first line feed, or at the end. -/
theorem get_lineRawLoop_plain (rest : List Char) (s : PFI) (fuel : Nat)
    (hd : s.content.drop s.off = rest) (hb : s.is_in_block_comment = false)
    (hp : ∀ c ∈ rest, c ≠ '/' ∧ c ≠ BSL ∧ c ≠ '\r' ∧ c ≠ NUL)
    (hf : s.content.length - s.off ≤ fuel) :
    (get_lineRawLoop fuel s).off =
      s.off + min ((rest.takeWhile (fun c => decide (c ≠ '\n'))).length + 1) rest.length := by
  induction rest generalizing s fuel with
  | nil =>
    have hge := drop_nil_ge hd
    cases fuel with
    | zero => simp only [get_lineRawLoop]; rw [next_of_ge s hge]; simp
    | succ f =>
      simp only [get_lineRawLoop]
      rw [next_of_ge s hge, if_neg (fun h => h.1 rfl)]
      simp
  | cons c rest ih =>
    obtain ⟨h1, h2, h3, h4⟩ := hp c (List.mem_cons_self _ _)
    obtain ⟨hlt, _, hdrop⟩ := drop_cons_getD hd
    obtain ⟨f, rfl⟩ : ∃ f, fuel = f + 1 := ⟨fuel - 1, by omega⟩
    simp only [get_lineRawLoop]
    by_cases hn : c = '\n'
    · subst hn
      rw [next_lf s rest hd, if_neg (fun h => h.2 rfl)]
      simp
    · rw [next_char s c rest hd hn h3 h2 (fun hA => hA.2.elim h1 (by simp [hb]))]
      have hstep : ∀ t : PFI, t.content = s.content → t.off = s.off + 1 →
          t.is_in_block_comment = false →
          (if (c, t).1 ≠ NUL ∧ (c, t).1 ≠ '\n' then get_lineRawLoop f (c, t).2 else (c, t).2).off =
            s.off + min (((c :: rest).takeWhile (fun c => decide (c ≠ '\n'))).length + 1)
              (c :: rest).length := by
        intro t htc hto htb
        rw [if_pos ⟨h4, hn⟩]
        have := ih t f (by rw [htc, hto]; exact hdrop) htb
          (fun d hd => hp d (List.mem_cons_of_mem _ hd)) (by rw [htc, hto]; omega)
        rw [this, hto]
        simp only [List.takeWhile_cons, hn, ne_eq, not_false_eq_true, decide_True, if_true,
          List.length_cons]
        omega
      by_cases hq : c = DQT
      · rw [if_pos hq]
        exact hstep _ rfl rfl hb
      · rw [if_neg hq]
        exact hstep _ rfl rfl hb

/-- The loop of `get_line(true)` on text without `/`, backslash, carriage
return and NUL: the text before the first line feed is appended to the output,
and the cursor stops behind that line feed, or at the end. -/
theorem get_lineLoop_plain (rest : List Char) (s : PFI) (out : List Char) (fuel : Nat)
    (hd : s.content.drop s.off = rest) (hb : s.is_in_block_comment = false)
    (hp : ∀ c ∈ rest, c ≠ '/' ∧ c ≠ BSL ∧ c ≠ '\r' ∧ c ≠ NUL)
    (hf : s.content.length - s.off ≤ fuel) :
    (get_lineLoop fuel ⟨s, false, out⟩).outputString =
        out ++ rest.takeWhile (fun c => decide (c ≠ '\n')) ∧
      (get_lineLoop fuel ⟨s, false, out⟩).s.off =
        s.off + min ((rest.takeWhile (fun c => decide (c ≠ '\n'))).length + 1) rest.length := by
  induction rest generalizing s fuel out with
  | nil =>
    have hge := drop_nil_ge hd
    cases fuel with
    | zero => simp only [get_lineLoop]; rw [next_of_ge s hge]; simp
    | succ f =>
      simp only [get_lineLoop]
      rw [next_of_ge s hge, if_pos rfl]
      simp
  | cons c rest ih =>
    obtain ⟨h1, h2, h3, h4⟩ := hp c (List.mem_cons_self _ _)
    obtain ⟨hlt, _, hdrop⟩ := drop_cons_getD hd
    obtain ⟨f, rfl⟩ : ∃ f, fuel = f + 1 := ⟨fuel - 1, by omega⟩
    simp only [get_lineLoop]
    by_cases hn : c = '\n'
    · subst hn
      rw [next_lf s rest hd]
      dsimp only
      rw [if_neg (show ¬ ('\n' = NUL) by decide), if_neg (show ¬ ('\n' = BSL) by decide),
        if_pos rfl, if_pos trivial]
      simp
    · rw [next_char s c rest hd hn h3 h2 (fun hA => hA.2.elim h1 (by simp [hb]))]
      have hstep : ∀ t : PFI, t.content = s.content → t.off = s.off + 1 →
          t.is_in_block_comment = false →
          (get_lineLoop f ⟨t, false, out ++ [c]⟩).outputString =
              out ++ (c :: rest).takeWhile (fun c => decide (c ≠ '\n')) ∧
            (get_lineLoop f ⟨t, false, out ++ [c]⟩).s.off =
              s.off + min (((c :: rest).takeWhile (fun c => decide (c ≠ '\n'))).length + 1)
                (c :: rest).length := by
        intro t htc hto htb
        obtain ⟨i1, i2⟩ := ih t (out ++ [c]) f (by rw [htc, hto]; exact hdrop) htb
          (fun d hd => hp d (List.mem_cons_of_mem _ hd)) (by rw [htc, hto]; omega)
        rw [i1, i2, hto]
        simp only [List.takeWhile_cons, hn, ne_eq, not_false_eq_true, decide_True, if_true,
          List.length_cons, List.append_assoc, List.singleton_append, true_and]
        omega
      by_cases hq : c = DQT
      · rw [if_pos hq]
        simp only [if_neg h4, if_neg h2, if_neg hn, Bool.false_eq_true, if_false]
        exact hstep _ rfl rfl hb
      · rw [if_neg hq]
        simp only [if_neg h4, if_neg h2, if_neg hn, Bool.false_eq_true, if_false]
        exact hstep _ rfl rfl hb

theorem take_takeWhile_succ (l : List Char) (h : '\n' ∈ l) :
    l.take ((l.takeWhile (fun c => decide (c ≠ '\n'))).length + 1) =
      l.takeWhile (fun c => decide (c ≠ '\n')) ++ ['\n'] := by
  induction l with
  | nil => cases h
  | cons c l ih =>
    by_cases hn : c = '\n'
    · subst hn
      simp
    · have hmem : '\n' ∈ l := by
        rcases List.mem_cons.1 h with h1 | h1
        · exact absurd h1.symm hn
        · exact h1
      simp only [List.takeWhile_cons, hn, ne_eq, not_false_eq_true, decide_True, if_true,
        List.length_cons, List.take_succ_cons, List.cons_append, List.cons.injEq, true_and]
      exact ih hmem

/-- C26: on a fresh stream over a content without backslash, `/`, double
quote, carriage return and NUL, `get_line(true)` returns the text before the
first line feed, while `get_line(false)` returns the raw text that was
consumed, the line feed included.  Both leave the same offset, but for every
such content that contains a line feed the two strings differ: the result of
`get_line(false)` is that of `get_line(true)` followed by a line feed. -/
theorem get_line_modes_differ_by_line_feed (content : List Char)
    (h : ∀ c ∈ content, c ≠ BSL ∧ c ≠ '/' ∧ c ≠ DQT ∧ c ≠ '\r' ∧ c ≠ NUL) :
    (get_line (fresh content) true).1 = content.takeWhile (fun c => decide (c ≠ '\n')) ∧
      (get_line (fresh content) false).1 =
        content.take ((content.takeWhile (fun c => decide (c ≠ '\n'))).length + 1) ∧
      (get_line (fresh content) false).2.off = (get_line (fresh content) true).2.off ∧
      ('\n' ∈ content →
        (get_line (fresh content) false).1 = (get_line (fresh content) true).1 ++ ['\n'] ∧
        (get_line (fresh content) false).1 ≠ (get_line (fresh content) true).1) := by
  have hp : ∀ c ∈ content, c ≠ '/' ∧ c ≠ BSL ∧ c ≠ '\r' ∧ c ≠ NUL :=
    fun c hc => ⟨(h c hc).2.1, (h c hc).1, (h c hc).2.2.2.1, (h c hc).2.2.2.2⟩
  obtain ⟨t1, t2⟩ := get_lineLoop_plain content (fresh content) []
    ((fresh content).content.length - (fresh content).off) rfl rfl hp (Nat.le_refl _)
  have r1 := get_lineRawLoop_plain content (fresh content)
    ((fresh content).content.length - (fresh content).off) rfl rfl hp (Nat.le_refl _)
  have hT : (get_line (fresh content) true).1 =
      content.takeWhile (fun c => decide (c ≠ '\n')) := by
    show (get_lineLoop _ _).outputString = _
    rw [t1]; rfl
  have hTo : (get_line (fresh content) true).2.off =
      min ((content.takeWhile (fun c => decide (c ≠ '\n'))).length + 1) content.length := by
    show (get_lineLoop _ _).s.off = _
    rw [t2]; show 0 + _ = _; omega
  have hFo : (get_line (fresh content) false).2.off =
      min ((content.takeWhile (fun c => decide (c ≠ '\n'))).length + 1) content.length := by
    show (get_lineRawLoop _ _).off = _
    rw [r1]; show 0 + _ = _; omega
  have hF : (get_line (fresh content) false).1 =
      content.take ((content.takeWhile (fun c => decide (c ≠ '\n'))).length + 1) := by
    show substr content 0 ((get_lineRawLoop _ _).off - 0) = _
    rw [r1]
    unfold substr
    show List.take (0 + _ - 0) (List.drop 0 content) = _
    rw [List.drop_zero, Nat.zero_add, Nat.sub_zero, List.take_eq_take]
    simp only [min_self, Nat.min_assoc]
  refine ⟨hT, hF, hFo.trans hTo.symm, ?_⟩
  intro hmem
  have h1 : (get_line (fresh content) false).1 = (get_line (fresh content) true).1 ++ ['\n'] := by
    rw [hF, hT]; exact take_takeWhile_succ content hmem
  refine ⟨h1, ?_⟩
  rw [h1]
  intro he
  have := congrArg List.length he
  simp at this

/-- C26 on the content `ab`, line feed, `cd`: `get_line(true)` returns `ab`
and `get_line(false)` returns `ab` with the line feed; both stop at offset 3. -/
theorem get_line_modes_differ_by_line_feed_witness :
    (get_line (fresh ['a', 'b', '\n', 'c', 'd']) true).1 = ['a', 'b'] ∧
      (get_line (fresh ['a', 'b', '\n', 'c', 'd']) false).1 = ['a', 'b', '\n'] ∧
      (get_line (fresh ['a', 'b', '\n', 'c', 'd']) false).2.off = 3 ∧
      (get_line (fresh ['a', 'b', '\n', 'c', 'd']) true).2.off = 3 ∧
      (get_line (fresh ['a', 'b', '\n', 'c', 'd']) false).1 ≠
        (get_line (fresh ['a', 'b', '\n', 'c', 'd']) true).1 :=
  ⟨by decide, by decide, by decide, by decide,
    ((get_line_modes_differ_by_line_feed ['a', 'b', '\n', 'c', 'd'] (by decide)).2.2.2
      (by decide)).2⟩

end Preprocessor

namespace Preprocessor

/-! ### `get_line` stops at the start of a line or at the end -/

theorem within_stable (content : List Char) : Stable (Within content) where
  raw := fun t h => ⟨(_next_content t).trans h.1, by
    have := _next_off_le t (by rw [h.1]; exact h.2)
    rw [h.1] at this; exact this⟩
  str := fun _ _ h => h
  blk := fun _ _ h => h

theorem consumed_of_char (content : List Char) (c : Char) (s : PFI) (h : Within content s)
    (h1 : c ≠ '\n') (h2 : c ≠ NUL) : Consumed content (c, s) :=
  ⟨h, fun hc => absurd hc h1, fun hc => absurd hc h2⟩

theorem consumed_nul (content : List Char) (s : PFI) (h : Within content s)
    (he : s.off = content.length) : Consumed content (NUL, s) :=
  ⟨h, fun hc => absurd hc (show NUL ≠ '\n' by decide), fun _ => he⟩

theorem getD_mem (content : List Char) (i : Nat) (h : i < content.length) :
    content.getD i NUL ∈ content := by
  rw [List.getD_eq_getElem?_getD, List.getElem?_eq_getElem h]
  exact List.getElem_mem h

/-- A raw step on a content without NUL returns a line feed only just
behind a line feed, and NUL only at the end. -/
theorem _nextAux_consumed (content : List Char) (hnul : ∀ c ∈ content, c ≠ NUL) (fuel : Nat)
    (s : PFI) (h : Within content s) (hf : content.length - s.off ≤ fuel) :
    Consumed content (_nextAux fuel s) := by
  induction fuel generalizing s with
  | zero =>
    have he : s.off = content.length := by have := h.2; omega
    exact consumed_nul content s h he
  | succ k ih =>
    obtain ⟨hc, ho⟩ := h
    simp only [_nextAux]
    by_cases h0 : s.off ≥ s.content.length
    · rw [if_pos h0]
      rw [hc] at h0
      exact consumed_nul content s ⟨hc, ho⟩ (by omega)
    · rw [if_neg h0]
      rw [hc] at h0
      have hlt : s.off < content.length := by omega
      have hw : ∀ t : PFI, t.content = s.content → t.off = s.off + 1 → Within content t :=
        fun t h1 h2 => ⟨h1.trans hc, by rw [h2]; omega⟩
      by_cases h1 : s.content.getD s.off NUL = '\n'
      · rw [if_pos h1]
        refine ⟨hw _ rfl rfl, fun _ => ⟨Nat.succ_pos _, ?_⟩,
          fun hx => absurd (h1.symm.trans hx) (show '\n' ≠ NUL by decide)⟩
        show content.getD (s.off + 1 - 1) NUL = '\n'
        rw [Nat.add_sub_cancel, ← hc]; exact h1
      · rw [if_neg h1]
        by_cases h2 : s.content.getD s.off NUL = '\r'
        · rw [if_pos h2]
          exact ih _ (hw _ rfl rfl) (by show _ - (s.off + 1) ≤ k; omega)
        · rw [if_neg h2]
          exact consumed_of_char content _ _ (hw _ rfl rfl) h1
            (hnul _ (by rw [hc]; exact getD_mem content s.off hlt))

theorem _next_consumed (content : List Char) (hnul : ∀ c ∈ content, c ≠ NUL)
    (s : PFI) (h : Within content s) : Consumed content (_next s) := by
  unfold _next
  exact _nextAux_consumed content hnul _ s h (by rw [h.1])

theorem lineLoopAux_consumed (content : List Char) (hnul : ∀ c ∈ content, c ≠ NUL) (fuel : Nat)
    (s : PFI) (h : Within content s) : Consumed content (lineLoopAux fuel s) := by
  induction fuel generalizing s with
  | zero => exact _next_consumed content hnul s h
  | succ k ih =>
    simp only [lineLoopAux]
    split_ifs
    · exact ih _ (_next_consumed content hnul s h).1
    · exact _next_consumed content hnul s h

theorem blockLoopAux_consumed (content : List Char) (hnul : ∀ c ∈ content, c ≠ NUL) (fuel : Nat)
    (s : PFI) (h : Within content s) :
    Consumed content ((blockLoopAux fuel s).c, (blockLoopAux fuel s).s) := by
  induction fuel generalizing s with
  | zero => exact _next_consumed content hnul s h
  | succ k ih =>
    simp only [blockLoopAux]
    split_ifs
    · exact _next_consumed content hnul s h
    · exact _next_consumed content hnul s h
    · exact _next_consumed content hnul s h
    · exact ih _ (_next_consumed content hnul s h).1

theorem nextTail_consumed (content : List Char) (hnul : ∀ c ∈ content, c ≠ NUL)
    (rec : PFI → Char × PFI) (hrec : ∀ t, Within content t → Consumed content (rec t))
    (c : Char) (s : PFI) (h : Consumed content (c, s)) :
    Consumed content (nextTail rec c s) := by
  unfold nextTail
  split_ifs
  · exact hrec _ (_next_consumed content hnul s h.1).1
  · exact ⟨h.1, h.2.1, h.2.2⟩
  · exact h

theorem nextBody_consumed (content : List Char) (hnul : ∀ c ∈ content, c ≠ NUL)
    (rec : PFI → Char × PFI) (hrec : ∀ t, Within content t → Consumed content (rec t))
    (s : PFI) (h : Within content s) : Consumed content (nextBody rec s) := by
  have hW := within_stable content
  have h1 := _next_consumed content hnul s h
  have w1 : Within content (_next s).2 := h1.1
  unfold nextBody
  simp only
  split_ifs
  · exact h1
  · exact hrec _ (hW.blk _ _ (hW.raw _ w1))
  · exact nextTail_consumed content hnul rec hrec _ _
      (hrec _ (hW.blk _ _ (hW.raw _ (blockLoopAux_stable hW _ _ (hW.blk _ _ (hW.raw _ w1))))))
  · exact nextTail_consumed content hnul rec hrec _ _
      (blockLoopAux_consumed content hnul _ _ (hW.blk _ _ (hW.raw _ w1)))
  · exact nextTail_consumed content hnul rec hrec _ _
      (hrec _ (hW.blk _ _ (hW.raw _ (blockLoopAux_stable hW _ _ (hW.blk _ _ w1)))))
  · exact nextTail_consumed content hnul rec hrec _ _
      (blockLoopAux_consumed content hnul _ _ (hW.blk _ _ w1))
  · exact nextTail_consumed content hnul rec hrec _ _ (lineLoopAux_consumed content hnul _ _ w1)
  · exact nextTail_consumed content hnul rec hrec _ _ h1
  · exact nextTail_consumed content hnul rec hrec _ _ h1

/-- On a content without NUL, `next()` returns a line feed only with the
cursor just behind a line feed, and NUL only with the cursor at the end. -/
theorem next_consumed (content : List Char) (hnul : ∀ c ∈ content, c ≠ NUL)
    (s : PFI) (h : Within content s) : Consumed content (next s) := by
  suffices H : ∀ n (u : PFI), Within content u → content.length - u.off ≤ n →
      Consumed content (next u) from H _ s h (Nat.le_refl _)
  intro n
  induction n with
  | zero =>
    intro u hu hn
    rw [next_of_ge u (by rw [hu.1]; omega)]
    exact consumed_nul content u hu (by have := hu.2; omega)
  | succ n ih =>
    intro u hu hn
    rw [next_eq]
    have hcongr := nextBody_congr next
      (fun t => if u.off < t.off then next t else ('x', t)) u (fun t => next_reach t)
      (fun t _ hlt => by simp only [if_pos hlt])
    rw [hcongr]
    apply nextBody_consumed content hnul _ _ u hu
    intro t ht
    by_cases hlt : u.off < t.off
    · simp only [if_pos hlt]
      exact ih t ht (by have := ht.2; omega)
    · simp only [if_neg hlt]
      exact consumed_of_char content _ _ ht (by decide) (by decide)

theorem get_lineRawLoop_ends (content : List Char) (hnul : ∀ c ∈ content, c ≠ NUL) (fuel : Nat)
    (s : PFI) (h : Within content s) (hf : content.length - s.off ≤ fuel) :
    AtLineStart content (get_lineRawLoop fuel s).off := by
  induction fuel generalizing s with
  | zero =>
    simp only [get_lineRawLoop]
    rw [next_of_ge s (by rw [h.1]; omega)]
    exact Or.inl (by show s.off = _; have := h.2; omega)
  | succ k ih =>
    have hg := next_consumed content hnul s h
    simp only [get_lineRawLoop]
    split_ifs with hc
    · have hlt := next_off_lt_of_ne s hc.1
      exact ih _ hg.1 (by omega)
    · by_cases h0 : (next s).1 = NUL
      · exact Or.inl (hg.2.2 h0)
      · by_cases h1 : (next s).1 = '\n'
        · exact Or.inr (hg.2.1 h1)
        · exact absurd ⟨h0, h1⟩ hc

theorem get_lineLoop_ends (content : List Char) (hnul : ∀ c ∈ content, c ≠ NUL) (fuel : Nat)
    (st : LineScan) (h : Within content st.s) (hf : content.length - st.s.off ≤ fuel) :
    AtLineStart content (get_lineLoop fuel st).s.off := by
  induction fuel generalizing st with
  | zero =>
    simp only [get_lineLoop]
    rw [next_of_ge st.s (by rw [h.1]; omega)]
    exact Or.inl (by show st.s.off = _; have := h.2; omega)
  | succ k ih =>
    have hg := next_consumed content hnul st.s h
    simp only [get_lineLoop]
    by_cases h0 : (next st.s).1 = NUL
    · rw [if_pos h0]
      exact Or.inl (hg.2.2 h0)
    · have hlt := next_off_lt_of_ne st.s h0
      have hk : content.length - (next st.s).2.off ≤ k := by omega
      rw [if_neg h0]
      split_ifs with h1 h2 h3
      · exact ih _ hg.1 hk
      · exact Or.inr (hg.2.1 h2)
      · exact ih _ hg.1 hk
      · exact ih _ hg.1 hk
      · exact ih _ hg.1 hk

/-- C27: on a content without NUL, from every state whose cursor is not
behind the end of the content, and in either mode, `get_line` returns with the
cursor at the end of the content or just behind a line feed:
`off = length(content)` or `content[off - 1]` is a line feed. -/
theorem get_line_consumes_terminator (s : PFI) (catchEscapedNewLine : Bool)
    (hnul : ∀ c ∈ s.content, c ≠ NUL) (hoff : s.off ≤ s.content.length) :
    (get_line s catchEscapedNewLine).2.off = s.content.length ∨
      (0 < (get_line s catchEscapedNewLine).2.off ∧
        s.content.getD ((get_line s catchEscapedNewLine).2.off - 1) NUL = '\n') := by
  unfold get_line
  split_ifs
  · exact get_lineLoop_ends s.content hnul _ ⟨s, false, []⟩ ⟨rfl, hoff⟩ (Nat.le_refl _)
  · exact get_lineRawLoop_ends s.content hnul _ s ⟨rfl, hoff⟩ (Nat.le_refl _)

/-- C27 inside a string literal, after a backslash before a carriage
return: both modes stop behind the line feed of the second line. -/
theorem get_line_consumes_terminator_witness :
    ((get_line ⟨['s', BSL, '\r', '\r', '\n', 'x', '\n', 'y'], 1, 1, 1, 0, true, false⟩ true).2.off
        = 7 ∧
      (get_line ⟨['s', BSL, '\r', '\r', '\n', 'x', '\n', 'y'], 1, 1, 1, 0, true, false⟩ false).2.off
        = 5) ∧
    ((get_line ⟨['s', BSL, '\r', '\r', '\n', 'x', '\n', 'y'], 1, 1, 1, 0, true, false⟩ true).2.off
        = ['s', BSL, '\r', '\r', '\n', 'x', '\n', 'y'].length ∨
      (0 < (get_line ⟨['s', BSL, '\r', '\r', '\n', 'x', '\n', 'y'], 1, 1, 1, 0, true, false⟩
          true).2.off ∧
        (['s', BSL, '\r', '\r', '\n', 'x', '\n', 'y'] : List Char).getD
          ((get_line ⟨['s', BSL, '\r', '\r', '\n', 'x', '\n', 'y'], 1, 1, 1, 0, true, false⟩
            true).2.off - 1) NUL = '\n')) :=
  ⟨by decide,
    get_line_consumes_terminator ⟨['s', BSL, '\r', '\r', '\n', 'x', '\n', 'y'], 1, 1, 1, 0, true,
      false⟩ true (by decide) (by decide)⟩

end Preprocessor

namespace Preprocessor

/-! ### `next()` never returns a carriage return -/

theorem lineLoopAux_ne_cr (fuel : Nat) (s : PFI) : (lineLoopAux fuel s).1 ≠ '\r' := by
  induction fuel generalizing s with
  | zero => exact _next_ne_cr s
  | succ k ih =>
    simp only [lineLoopAux]
    split_ifs
    · exact ih _
    · exact _next_ne_cr s

theorem blockLoopAux_ne_cr (fuel : Nat) (s : PFI) : (blockLoopAux fuel s).c ≠ '\r' := by
  induction fuel generalizing s with
  | zero => exact _next_ne_cr s
  | succ k ih =>
    simp only [blockLoopAux]
    split_ifs
    · exact _next_ne_cr s
    · exact _next_ne_cr s
    · exact _next_ne_cr s
    · exact ih _

theorem nextTail_ne_cr (rec : PFI → Char × PFI) (hrec : ∀ t, (rec t).1 ≠ '\r')
    (c : Char) (s : PFI) (h : c ≠ '\r') : (nextTail rec c s).1 ≠ '\r' := by
  unfold nextTail
  split_ifs
  · exact hrec _
  · exact h
  · exact h

theorem nextBody_ne_cr (rec : PFI → Char × PFI) (hrec : ∀ t, (rec t).1 ≠ '\r') (s : PFI) :
    (nextBody rec s).1 ≠ '\r' := by
  unfold nextBody
  simp only
  split_ifs
  · exact _next_ne_cr s
  · exact hrec _
  · exact nextTail_ne_cr rec hrec _ _ (hrec _)
  · exact nextTail_ne_cr rec hrec _ _ (blockLoopAux_ne_cr _ _)
  · exact nextTail_ne_cr rec hrec _ _ (hrec _)
  · exact nextTail_ne_cr rec hrec _ _ (blockLoopAux_ne_cr _ _)
  · exact nextTail_ne_cr rec hrec _ _ (lineLoopAux_ne_cr _ _)
  · exact nextTail_ne_cr rec hrec _ _ (_next_ne_cr s)
  · exact nextTail_ne_cr rec hrec _ _ (_next_ne_cr s)

theorem nextAux_ne_cr (fuel : Nat) (s : PFI) : (nextAux fuel s).1 ≠ '\r' := by
  induction fuel generalizing s with
  | zero => exact (by decide : NUL ≠ '\r')
  | succ k ih => exact nextBody_ne_cr _ ih s

/-- A carriage return before a line feed is skipped, in every mode: the
line feed is returned and the cursor is behind it. -/
theorem next_cr_lf (s : PFI) (rest : List Char)
    (h : s.content.drop s.off = '\r' :: '\n' :: rest) :
    next s = ('\n', { s with off := s.off + 2, line := s.line + 1, last_col := s.col, col := 0 }) := by
  obtain ⟨_, _, h1⟩ := drop_cons_getD h
  have hraw : _next s =
      ('\n', { s with off := s.off + 2, line := s.line + 1, last_col := s.col, col := 0 }) := by
    rw [_next_cr s _ h, _next_lf { s with off := s.off + 1 } rest h1]
  rw [next_eq]
  unfold nextBody
  rw [hraw]
  simp only
  split_ifs with hA
  · rfl
  · rw [nextTail_plain _ _ _ (by decide), if_neg (by decide)]

/-- C31: for every content and every state, the character that `next()`
returns is not a carriage return; at a carriage return followed by a line feed
`next()` returns the line feed and leaves the cursor behind both. -/
theorem next_never_returns_cr (s : PFI) :
    (next s).1 ≠ '\r' ∧
      ∀ rest, s.content.drop s.off = '\r' :: '\n' :: rest →
        (next s).1 = '\n' ∧ (next s).2.off = s.off + 2 := by
  refine ⟨nextAux_ne_cr _ s, fun rest h => ?_⟩
  rw [next_cr_lf s rest h]
  exact ⟨rfl, rfl⟩

/-- C31 on the content `a`, carriage return, line feed, `b` after the first
character: the line feed is returned, with the cursor at offset 3. -/
theorem next_never_returns_cr_witness :
    (next ⟨['a', '\r', '\n', 'b'], 1, 1, 1, 0, false, false⟩).1 = '\n' ∧
      (next ⟨['a', '\r', '\n', 'b'], 1, 1, 1, 0, false, false⟩).2.off = 1 + 2 :=
  (next_never_returns_cr ⟨['a', '\r', '\n', 'b'], 1, 1, 1, 0, false, false⟩).2 ['b'] rfl

end Preprocessor

namespace Preprocessor

/-! ### The recursions and loops end within `length(content) - off + 1` levels -/

theorem _nextWith_eq (d : PFI → Char × PFI) (fuel : Nat) (s : PFI)
    (hf : s.content.length - s.off < fuel) : _nextWith d fuel s = _next s := by
  induction fuel generalizing s with
  | zero => omega
  | succ k ih =>
    simp only [_nextWith]
    by_cases h0 : s.off ≥ s.content.length
    · rw [if_pos h0, _next_of_ge s h0]
    · have hlt : s.off < s.content.length := by omega
      rw [if_neg h0, _next_of_lt s hlt]
      by_cases h1 : s.content.getD s.off NUL = '\n'
      · rw [if_pos h1, if_pos h1, h1]
      · rw [if_neg h1, if_neg h1]
        by_cases h2 : s.content.getD s.off NUL = '\r'
        · rw [if_pos h2, if_pos h2]
          exact ih _ (by show s.content.length - (s.off + 1) < k; omega)
        · rw [if_neg h2, if_neg h2]

theorem lineLoopWith_eq (d : PFI → Char × PFI) (fuel : Nat) (s : PFI)
    (hf : s.content.length - s.off < fuel) : lineLoopWith d fuel s = lineLoop s := by
  induction fuel generalizing s with
  | zero => omega
  | succ k ih =>
    simp only [lineLoopWith]
    rw [lineLoop_eq]
    split_ifs with h1
    · have hlt := _next_off_lt_of_ne s h1.1
      have hc := _next_content s
      have hin : s.off < s.content.length := by
        by_contra hge
        exact h1.1 (by rw [_next_of_ge s (by omega)])
      exact ih _ (by rw [hc]; omega)
    · rfl

theorem blockLoopWith_eq (d : PFI → BlockScan) (fuel : Nat) (s : PFI)
    (hf : s.content.length - s.off < fuel) : blockLoopWith d fuel s = blockLoop s := by
  induction fuel generalizing s with
  | zero => omega
  | succ k ih =>
    simp only [blockLoopWith]
    rw [blockLoop_eq]
    split_ifs with h1 h2 h3
    · rfl
    · rfl
    · rfl
    · have hlt := _next_off_lt_of_ne s h1
      have hc := _next_content s
      have hin : s.off < s.content.length := by
        by_contra hge
        exact h1 (by rw [_next_of_ge s (by omega)])
      exact ih _ (by rw [hc]; omega)

theorem nextWith_eq (d : PFI → Char × PFI) (fuel : Nat) (s : PFI)
    (hf : s.content.length - s.off < fuel) : nextWith d fuel s = next s := by
  induction fuel generalizing s with
  | zero => omega
  | succ k ih =>
    show nextBody (nextWith d k) s = next s
    by_cases hge : s.content.length ≤ s.off
    · rw [nextBody_of_ge _ s hge, next_of_ge s hge]
    · rw [next_eq]
      refine (nextBody_congr next (nextWith d k) s (fun t => next_reach t) ?_).symm
      intro t htc hto
      exact (ih t (by rw [htc]; omega)).symm

theorem get_wordLoopWith_eq (d : PFI → Nat → PFI × Nat) (fuel : Nat) (s : PFI) (off_end : Nat)
    (hf : s.content.length - s.off < fuel) :
    get_wordLoopWith d fuel s off_end = get_wordLoop (s.content.length - s.off) s off_end := by
  induction fuel generalizing s off_end with
  | zero => omega
  | succ k ih =>
    simp only [get_wordLoopWith]
    rw [get_wordLoop_eq]
    split_ifs with h1
    · have hlt := next_off_lt_of_ne s h1.1
      have hc := next_content s
      have hin : s.off < s.content.length := by
        by_contra hge
        exact h1.1 (by rw [next_of_ge s (by omega)])
      exact ih _ _ (by rw [hc]; omega)
    · rfl

theorem get_lineLoopWith_succ (d : LineScan → LineScan) (fuel : Nat) (st : LineScan)
    (hf : st.s.content.length - st.s.off ≤ fuel) :
    get_lineLoopWith d (fuel + 1) st = get_lineLoop fuel st := by
  induction fuel generalizing st with
  | zero =>
    have hge : st.s.content.length ≤ st.s.off := by omega
    simp only [get_lineLoopWith, get_lineLoop]
    rw [next_of_ge st.s hge, if_pos rfl]
  | succ k ih =>
    rw [show get_lineLoopWith d (k + 1 + 1) st =
      (if (next st.s).1 = NUL then { st with s := (next st.s).2 }
      else if (next st.s).1 = BSL then
        get_lineLoopWith d (k + 1) { st with s := (next st.s).2, escaped := true }
      else if (next st.s).1 = '\n' then
        if st.escaped = false then { st with s := (next st.s).2, escaped := false }
        else get_lineLoopWith d (k + 1) { st with s := (next st.s).2, escaped := false }
      else
        get_lineLoopWith d (k + 1)
          { s := (next st.s).2, escaped := false,
            outputString := (if st.escaped = true then st.outputString ++ [BSL]
              else st.outputString) ++ [(next st.s).1] }) from rfl]
    rw [show get_lineLoop (k + 1) st =
      (if (next st.s).1 = NUL then { st with s := (next st.s).2 }
      else if (next st.s).1 = BSL then
        get_lineLoop k { st with s := (next st.s).2, escaped := true }
      else if (next st.s).1 = '\n' then
        if st.escaped = false then { st with s := (next st.s).2, escaped := false }
        else get_lineLoop k { st with s := (next st.s).2, escaped := false }
      else
        get_lineLoop k
          { s := (next st.s).2, escaped := false,
            outputString := (if st.escaped = true then st.outputString ++ [BSL]
              else st.outputString) ++ [(next st.s).1] }) from rfl]
    by_cases h0 : (next st.s).1 = NUL
    · rw [if_pos h0, if_pos h0]
    · have hlt := next_off_lt_of_ne st.s h0
      have hc := next_content st.s
      have hk : (next st.s).2.content.length - (next st.s).2.off ≤ k := by rw [hc]; omega
      rw [if_neg h0, if_neg h0]
      by_cases h1 : (next st.s).1 = BSL
      · rw [if_pos h1, if_pos h1]
        exact ih _ hk
      · rw [if_neg h1, if_neg h1]
        by_cases h2 : (next st.s).1 = '\n'
        · rw [if_pos h2, if_pos h2]
          by_cases h3 : st.escaped = false
          · rw [if_pos h3, if_pos h3]
          · rw [if_neg h3, if_neg h3]
            exact ih _ hk
        · rw [if_neg h2, if_neg h2]
          exact ih _ hk

theorem get_lineLoopWith_eq (d : LineScan → LineScan) (fuel : Nat) (st : LineScan)
    (hf : st.s.content.length - st.s.off < fuel) :
    get_lineLoopWith d fuel st = get_lineLoop (st.s.content.length - st.s.off) st := by
  obtain ⟨k, rfl⟩ : ∃ k, fuel = k + 1 := ⟨fuel - 1, by omega⟩
  rw [get_lineLoopWith_succ d k st (by omega)]
  exact get_lineLoop_fuel _ _ st (by omega) (Nat.le_refl _)

theorem get_lineRawLoopWith_succ (d : PFI → PFI) (fuel : Nat) (s : PFI)
    (hf : s.content.length - s.off ≤ fuel) :
    get_lineRawLoopWith d (fuel + 1) s = get_lineRawLoop fuel s := by
  induction fuel generalizing s with
  | zero =>
    have hge : s.content.length ≤ s.off := by omega
    simp only [get_lineRawLoopWith, get_lineRawLoop]
    rw [next_of_ge s hge, if_neg (fun h => h.1 rfl)]
  | succ k ih =>
    rw [show get_lineRawLoopWith d (k + 1 + 1) s =
      (if (next s).1 ≠ NUL ∧ (next s).1 ≠ '\n' then get_lineRawLoopWith d (k + 1) (next s).2
      else (next s).2) from rfl]
    rw [show get_lineRawLoop (k + 1) s =
      (if (next s).1 ≠ NUL ∧ (next s).1 ≠ '\n' then get_lineRawLoop k (next s).2
      else (next s).2) from rfl]
    by_cases h1 : (next s).1 ≠ NUL ∧ (next s).1 ≠ '\n'
    · have hlt := next_off_lt_of_ne s h1.1
      have hc := next_content s
      rw [if_pos h1, if_pos h1]
      exact ih _ (by rw [hc]; omega)
    · rw [if_neg h1, if_neg h1]

theorem get_lineRawLoopWith_eq (d : PFI → PFI) (fuel : Nat) (s : PFI)
    (hf : s.content.length - s.off < fuel) :
    get_lineRawLoopWith d fuel s = get_lineRawLoop (s.content.length - s.off) s := by
  obtain ⟨k, rfl⟩ : ∃ k, fuel = k + 1 := ⟨fuel - 1, by omega⟩
  rw [get_lineRawLoopWith_succ d k s (by omega)]
  exact get_lineRawLoop_fuel _ _ s (by omega) (Nat.le_refl _)

/-- The recursive calls in the body of `next()` are made on states whose
cursor is further than the one the body started from: a function that agrees
with `next()` on those states gives the result of `next()`. -/
theorem nextBody_further (rec : PFI → Char × PFI) (s : PFI)
    (h : ∀ t, t.content = s.content → s.off < t.off → rec t = next t) :
    nextBody rec s = next s := by
  rw [next_eq]
  exact (nextBody_congr next rec s (fun t => next_reach t) (fun t h1 h2 => (h t h1 h2).symm)).symm

/-- C32: `next()` terminates for every content and every state.  The body
of `next()` calls `next()` only on states with a larger offset, `_next()` calls
itself only after the carriage return at the cursor is consumed, and with
`fuel > length(content) - off` levels of unfolding neither the two recursions
nor the loops of `next()`, `get_word()` and `get_line()` reach the level where
the stand-in `d` would be used: the results are those of `_next`, `next`,
`get_word` and `get_line`, whatever the stand-ins are. -/
theorem next_terminates (s : PFI) (fuel : Nat)
    (d1 d2 d4 : PFI → Char × PFI) (d3 : PFI → BlockScan) (d5 : PFI → Nat → PFI × Nat)
    (d6 : LineScan → LineScan) (d7 : PFI → PFI)
    (hf : s.content.length - s.off < fuel) :
    (∀ rec : PFI → Char × PFI,
        (∀ t, t.content = s.content → s.off < t.off → rec t = next t) →
        nextBody rec s = next s) ∧
      (s.off < s.content.length → s.content.getD s.off NUL = '\r' →
        _next s = _next { s with off := s.off + 1 }) ∧
      _nextWith d1 fuel s = _next s ∧
      lineLoopWith d2 fuel s = lineLoop s ∧
      blockLoopWith d3 fuel s = blockLoop s ∧
      nextWith d4 fuel s = next s ∧
      (substr s.content s.off ((get_wordLoopWith d5 fuel s s.off).2 - s.off),
        move_back (get_wordLoopWith d5 fuel s s.off).1) = get_word s ∧
      ((get_lineLoopWith d6 fuel ⟨s, false, []⟩).outputString,
        (get_lineLoopWith d6 fuel ⟨s, false, []⟩).s) = get_line s true ∧
      (substr s.content s.off ((get_lineRawLoopWith d7 fuel s).off - s.off),
        get_lineRawLoopWith d7 fuel s) = get_line s false := by
  refine ⟨fun rec h => nextBody_further rec s h, ?_, _nextWith_eq d1 fuel s hf, lineLoopWith_eq d2 fuel s hf,
    blockLoopWith_eq d3 fuel s hf, nextWith_eq d4 fuel s hf, ?_, ?_, ?_⟩
  · intro hlt hcr
    rw [_next_of_lt s hlt, if_neg (by rw [hcr]; decide), if_pos hcr]
  · rw [get_wordLoopWith_eq d5 fuel s s.off hf]; rfl
  · rw [get_lineLoopWith_eq d6 fuel ⟨s, false, []⟩ hf]; rfl
  · rw [get_lineRawLoopWith_eq d7 fuel s hf]; rfl

/-- C32 on a content with a folded line break inside a block comment that
is closed, with four levels of unfolding for the three characters left. -/
theorem next_terminates_witness :
    nextWith (fun t => ('x', t)) 4 ⟨['a', '/', '*', '*', '/', BSL, '\n', 'b'], 5, 1, 5, 0, false, false⟩
        = next ⟨['a', '/', '*', '*', '/', BSL, '\n', 'b'], 5, 1, 5, 0, false, false⟩ ∧
      (next ⟨['a', '/', '*', '*', '/', BSL, '\n', 'b'], 5, 1, 5, 0, false, false⟩).1 = 'b' :=
  ⟨(next_terminates ⟨['a', '/', '*', '*', '/', BSL, '\n', 'b'], 5, 1, 5, 0, false, false⟩ 4
      (fun t => ('x', t)) (fun t => ('x', t)) (fun t => ('x', t)) (fun t => ⟨'x', t, false⟩)
      (fun t n => (t, n)) (fun st => st) (fun t => t) (by decide)).2.2.2.2.2.1,
    by decide⟩

end Preprocessor

namespace Preprocessor

/-! ### The cursor stays inside the content -/

theorem get_wordLoop_stable {P : PFI → Prop} (hP : Stable P) (fuel : Nat) (s : PFI)
    (off_end : Nat) (h : P s) : P (get_wordLoop fuel s off_end).1 := by
  induction fuel generalizing s off_end with
  | zero => exact next_stable hP s h
  | succ k ih =>
    simp only [get_wordLoop]
    split_ifs
    · exact ih _ _ (next_stable hP s h)
    · exact next_stable hP s h

theorem get_lineLoop_stable {P : PFI → Prop} (hP : Stable P) (fuel : Nat) (st : LineScan)
    (h : P st.s) : P (get_lineLoop fuel st).s := by
  induction fuel generalizing st with
  | zero => exact next_stable hP st.s h
  | succ k ih =>
    simp only [get_lineLoop]
    split_ifs
    · exact next_stable hP st.s h
    · exact ih _ (next_stable hP st.s h)
    · exact next_stable hP st.s h
    · exact ih _ (next_stable hP st.s h)
    · exact ih _ (next_stable hP st.s h)
    · exact ih _ (next_stable hP st.s h)

theorem get_lineRawLoop_stable {P : PFI → Prop} (hP : Stable P) (fuel : Nat) (s : PFI)
    (h : P s) : P (get_lineRawLoop fuel s) := by
  induction fuel generalizing s with
  | zero => exact next_stable hP s h
  | succ k ih =>
    simp only [get_lineRawLoop]
    split_ifs
    · exact ih _ (next_stable hP s h)
    · exact next_stable hP s h

theorem move_backAux_within (content : List Char) (fuel : Nat) (s : PFI)
    (h : Within content s) : Within content (move_backAux fuel s) := by
  induction fuel generalizing s with
  | zero => exact h
  | succ k ih =>
    have h1 : Within content { s with off := s.off - 1 } :=
      ⟨h.1, Nat.le_trans (Nat.sub_le _ _) h.2⟩
    simp only [move_backAux]
    split_ifs
    · exact h
    · exact h1
    · exact ih _ h1
    · exact h1

/-- C33: the cursor never leaves the content.  A fresh stream has
`off = 0`, and from a state with `off <= length(content)` each of `next()`,
`peek()`, `get_word()`, `get_line()` and `move_back()` leaves the content as it
is and the offset at most its length; at `off = length(content)` the call
`next()` returns NUL and changes nothing. -/
theorem cursor_stays_inside (s : PFI) (h : s.off ≤ s.content.length) :
    (fresh s.content).off ≤ s.content.length ∧
      Within s.content (next s).2 ∧
      (∀ k, Within s.content (peek_call s k).2) ∧
      Within s.content (get_word s).2 ∧
      (∀ mode, Within s.content (get_line s mode).2) ∧
      Within s.content (move_back s) ∧
      (s.off = s.content.length → next s = (NUL, s)) := by
  have hw : Within s.content s := ⟨rfl, h⟩
  have hS := within_stable s.content
  refine ⟨Nat.zero_le _, next_stable hS s hw, ?_, ?_, ?_, move_backAux_within _ _ s hw, ?_⟩
  · intro k
    unfold peek_call
    split_ifs
    · exact hw
    · exact hw
  · exact move_backAux_within _ _ _ (get_wordLoop_stable hS _ s s.off hw)
  · intro mode
    unfold get_line
    split_ifs
    · exact get_lineLoop_stable hS _ ⟨s, false, []⟩ hw
    · exact get_lineRawLoop_stable hS _ s hw
  · intro he
    exact next_of_ge s (by omega)

/-- C33 at the end of the content `ab`, line feed: `next()` returns NUL
and leaves the state, and `move_back()` steps to offset 2. -/
theorem cursor_stays_inside_witness :
    next ⟨['a', 'b', '\n'], 3, 2, 0, 2, false, false⟩ =
        (NUL, ⟨['a', 'b', '\n'], 3, 2, 0, 2, false, false⟩) ∧
      (move_back ⟨['a', 'b', '\n'], 3, 2, 0, 2, false, false⟩).off = 2 ∧
      Within ['a', 'b', '\n'] (get_word ⟨['a', 'b', '\n'], 3, 2, 0, 2, false, false⟩).2 :=
  ⟨(cursor_stays_inside ⟨['a', 'b', '\n'], 3, 2, 0, 2, false, false⟩ (by decide)).2.2.2.2.2.2 rfl,
    by decide,
    (cursor_stays_inside ⟨['a', 'b', '\n'], 3, 2, 0, 2, false, false⟩ (by decide)).2.2.2.1⟩

end Preprocessor

namespace Preprocessor

/-! ### The position after one `move_back()` -/

theorem _nextAux_posUndo (content : List Char) (fuel : Nat) (s : PFI) (h : PosUndo content s) :
    PosUndo content (_nextAux fuel s).2 := by
  induction fuel generalizing s with
  | zero => exact h
  | succ k ih =>
    obtain ⟨⟨hc, ho, hl, hcol⟩, hlast⟩ := h
    simp only [_nextAux]
    split_ifs with h1 h2 h3
    · exact ⟨⟨hc, ho, hl, hcol⟩, hlast⟩
    · have hlt : s.off < content.length := by rw [← hc]; omega
      rw [hc] at h2
      refine ⟨⟨hc, hlt, ?_, ?_⟩, ?_⟩
      · simp only [lineAt_succ content s.off hlt, h2, hl, if_true]
      · simp only [colAt_succ content s.off hlt, h2, if_true]
      · intro j hj hjn hcr
        have hj' : j < s.off + 1 := hj
        by_cases hjo : j = s.off
        · show s.col = colAt content j
          rw [hjo]; exact hcol
        · have := hcr s.off (by omega) (by show s.off < s.off + 1; omega)
          rw [h2] at this
          exact absurd this (by decide)
    · have hlt : s.off < content.length := by rw [← hc]; omega
      rw [hc] at h2 h3
      apply ih
      refine ⟨⟨hc, hlt, ?_, ?_⟩, ?_⟩
      · simp only [lineAt_succ content s.off hlt, h2, hl, if_false]
      · simp only [colAt_succ content s.off hlt, h2, h3, hcol, if_false, if_true]
        rfl
      · intro j hj hjn hcr
        have hj' : j < s.off + 1 := hj
        have hjo : j ≠ s.off := by
          intro he
          rw [he, h3] at hjn
          exact absurd hjn (by decide)
        exact hlast j (by omega) hjn (fun i hi1 hi2 => hcr i hi1 (by show i < s.off + 1; omega))
    · have hlt : s.off < content.length := by rw [← hc]; omega
      rw [hc] at h2 h3
      refine ⟨⟨hc, hlt, ?_, ?_⟩, ?_⟩
      · simp only [lineAt_succ content s.off hlt, h2, hl, if_false]
      · simp only [colAt_succ content s.off hlt, h2, h3, hcol, if_false]
      · intro j hj hjn hcr
        have hj' : j < s.off + 1 := hj
        by_cases hjo : j = s.off
        · rw [hjo] at hjn
          exact absurd hjn h2
        · exact absurd (hcr s.off (by omega) (by show s.off < s.off + 1; omega)) h3

theorem posUndo_stable (content : List Char) : Stable (PosUndo content) where
  raw := fun t h => _nextAux_posUndo content _ t h
  str := fun _ _ h => h
  blk := fun _ _ h => h

theorem posUndo_fresh (content : List Char) : PosUndo content (fresh content) :=
  ⟨pos_fresh content, fun j hj => absurd hj (Nat.not_lt_zero j)⟩

/-- From a state that reports its position, with `last_col` as `_next()`
leaves it, `move_back()` leads to a state that reports its position. -/
theorem move_backAux_pos (content : List Char) (fuel : Nat) (s : PFI)
    (h : PosUndo content s) : Pos content (move_backAux fuel s) := by
  induction fuel generalizing s with
  | zero => exact h.1
  | succ k ih =>
    obtain ⟨⟨hc, ho, hl, hcol⟩, hlast⟩ := h
    simp only [move_backAux]
    by_cases h0 : s.off = 0
    · rw [if_pos h0]
      exact ⟨hc, ho, hl, hcol⟩
    · rw [if_neg h0, hc]
      obtain ⟨m, hm⟩ : ∃ m, s.off = m + 1 := ⟨s.off - 1, by omega⟩
      have hm1 : s.off - 1 = m := by omega
      have hlt : m < content.length := by omega
      rw [hm1]
      have hls := lineAt_succ content m hlt
      have hcs := colAt_succ content m hlt
      rw [hm] at hl hcol
      by_cases h1 : content.getD m NUL = '\n'
      · rw [if_pos h1]
        rw [h1, if_pos rfl] at hls hcs
        refine ⟨rfl, by show m ≤ _; omega, ?_, ?_⟩
        · show size_dec s.line = lineAt content m
          rw [hl, hls, size_dec_succ]
        · show s.last_col = colAt content m
          exact hlast m (by omega) h1 (fun i hi1 hi2 => by omega)
      · rw [if_neg h1]
        rw [if_neg h1] at hls hcs
        by_cases h2 : content.getD m NUL = '\r'
        · rw [if_pos h2]
          rw [if_pos h2] at hcs
          apply ih
          refine ⟨⟨rfl, by show m ≤ _; omega, ?_, ?_⟩, ?_⟩
          · show s.line = lineAt content m
            rw [hl, hls]
          · show s.col = colAt content m
            rw [hcol, hcs]
          · intro j hj hjn hcr
            have hj' : j < m := hj
            refine hlast j (by omega) hjn (fun i hi1 hi2 => ?_)
            by_cases him : i = m
            · rw [him]; exact h2
            · exact hcr i hi1 (by show i < m; omega)
        · rw [if_neg h2]
          rw [if_neg h2] at hcs
          refine ⟨rfl, by show m ≤ _; omega, ?_, ?_⟩
          · show s.line = lineAt content m
            rw [hl, hls]
          · show size_dec s.col = colAt content m
            rw [hcol, hcs, size_dec_succ]

theorem colAt_le (content : List Char) (off : Nat) : colAt content off ≤ off := by
  unfold colAt
  refine Nat.le_trans (List.length_filter_le _ _) ?_
  refine Nat.le_trans (List.takeWhile_sublist _).length_le ?_
  rw [List.length_reverse, List.length_take]
  exact Nat.min_le_left _ _

/-- C34: after any number of calls of `next()` on a fresh stream, one more
`next()` followed by one `move_back()` leaves a state that reports its
position: `line` is one plus the number of line feeds in `content[0..off)`,
`col` is the number of characters other than carriage returns after the last
line feed of `content[0..off)`; so `col` is at most `off`, and no decrement
wrapped around. -/
theorem single_undo_keeps_position (content : List Char) (n : Nat) :
    (move_back (next (nexts n (fresh content)).2).2).line =
        lineAt content (move_back (next (nexts n (fresh content)).2).2).off ∧
      (move_back (next (nexts n (fresh content)).2).2).col =
        colAt content (move_back (next (nexts n (fresh content)).2).2).off ∧
      (move_back (next (nexts n (fresh content)).2).2).col ≤
        (move_back (next (nexts n (fresh content)).2).2).off ∧
      (move_back (next (nexts n (fresh content)).2).2).off ≤ content.length := by
  have hS := posUndo_stable content
  have h1 : PosUndo content (next (nexts n (fresh content)).2).2 :=
    next_stable hS _ (nexts_stable hS n _ (posUndo_fresh content))
  have h2 : Pos content (move_back (next (nexts n (fresh content)).2).2) :=
    move_backAux_pos content _ _ h1
  refine ⟨h2.2.2.1, h2.2.2.2, ?_, h2.2.1⟩
  show (move_back _).col ≤ (move_back _).off
  have h3 : (move_back (next (nexts n (fresh content)).2).2).col =
      colAt content (move_back (next (nexts n (fresh content)).2).2).off := h2.2.2.2
  rw [h3]
  exact colAt_le _ _

end Preprocessor

namespace Preprocessor

/-! ### When `get_word()` returns the maximal run of word characters -/

theorem isWordChar_ne_star {c : Char} (h : isWordChar c = true) : c ≠ '*' := by
  intro hc
  rw [hc] at h
  exact absurd h (by decide)

/-- The loop of `get_word()` over a run `w` of word characters, in a stream
that does not skip a block comment: the state and `off_end` with which the loop
goes on behind the run. -/
theorem get_wordLoop_over_run (w rest : List Char) (s : PFI) (fuel off_end : Nat)
    (hd : s.content.drop s.off = w ++ rest)
    (hw : ∀ c ∈ w, isWordChar c = true)
    (hA : w ≠ [] → ¬ (s.is_in_string = false ∧ s.is_in_block_comment = true))
    (hf : s.content.length - s.off ≤ fuel) :
    get_wordLoop fuel s off_end =
      get_wordLoop (s.content.length - (s.off + w.length))
        { s with off := s.off + w.length, col := s.col + w.length }
        (if w = [] then off_end else s.off + w.length) := by
  induction w generalizing s fuel off_end with
  | nil =>
    rw [if_pos rfl]
    exact get_wordLoop_fuel _ _ s off_end hf (Nat.le_refl _)
  | cons c w ih =>
    rw [if_neg (List.cons_ne_nil _ _)]
    have hA1 := hA (List.cons_ne_nil _ _)
    have hc := hw c (List.mem_cons_self _ _)
    obtain ⟨n1, n2, n3, n4, n5, n6⟩ := isWordChar_ne hc
    obtain ⟨hlt, _, hdrop⟩ := drop_cons_getD hd
    obtain ⟨f, rfl⟩ : ∃ f, fuel = f + 1 := ⟨fuel - 1, by omega⟩
    simp only [get_wordLoop]
    rw [next_char s c _ hd n1 n2 n3 (fun h => h.2.elim n4 (fun hb => hA1 ⟨h.1, hb⟩)), if_neg n5]
    dsimp only
    rw [if_pos ⟨n6, hc⟩]
    rw [ih { s with off := s.off + 1, col := s.col + 1 } f (s.off + 1) hdrop
      (fun d hd => hw d (List.mem_cons_of_mem _ hd)) (fun _ => hA1)
      (by show s.content.length - (s.off + 1) ≤ f; omega)]
    have e1 : s.off + 1 + w.length = s.off + (c :: w).length := by
      simp only [List.length_cons]; omega
    have e2 : s.col + 1 + w.length = s.col + (c :: w).length := by
      simp only [List.length_cons]; omega
    have e3 : (if w = [] then s.off + 1 else s.off + 1 + w.length) =
        s.off + (c :: w).length := by
      split_ifs with hw0
      · simp [hw0]
      · exact e1
    show get_wordLoop (s.content.length - (s.off + 1 + w.length))
        { s with off := s.off + 1 + w.length, col := s.col + 1 + w.length } _ = _
    rw [e3, e1, e2]

/-- The `off_end` of the loop of `get_word()` is the one it started with, or
an offset behind the cursor it started at. -/
theorem get_wordLoop_off_end (fuel : Nat) (s : PFI) (off_end : Nat) :
    (get_wordLoop fuel s off_end).2 = off_end ∨ s.off < (get_wordLoop fuel s off_end).2 := by
  induction fuel generalizing s off_end with
  | zero => exact Or.inl rfl
  | succ k ih =>
    simp only [get_wordLoop]
    split_ifs with h
    · have hlt := next_off_lt_of_ne s h.1
      rcases ih (next s).2 (next s).2.off with h1 | h1
      · right; rw [h1]; exact hlt
      · right; exact Nat.lt_trans hlt h1
    · exact Or.inl rfl

/-- When the loop of `get_word()` goes on after the call of `next()` at `s`,
its `off_end` is behind the cursor that this call leaves. -/
theorem get_wordLoop_goes_on (s : PFI) (off_end : Nat)
    (h : (next s).1 ≠ NUL ∧ isWordChar (next s).1 = true) :
    (next s).2.off ≤ (get_wordLoop (s.content.length - s.off) s off_end).2 := by
  rw [get_wordLoop_eq, if_pos h]
  rcases get_wordLoop_off_end ((next s).2.content.length - (next s).2.off) (next s).2
    (next s).2.off with h1 | h1
  · rw [h1]
  · exact Nat.le_of_lt h1

/-- The block comment loop passes over word characters. -/
theorem blockLoop_over_run (w rest : List Char) (t : PFI)
    (hd : t.content.drop t.off = w ++ rest) (hw : ∀ c ∈ w, isWordChar c = true) :
    blockLoop t = blockLoop { t with off := t.off + w.length, col := t.col + w.length } := by
  induction w generalizing t with
  | nil => rfl
  | cons c w ih =>
    have hc := hw c (List.mem_cons_self _ _)
    obtain ⟨n1, n2, n3, n4, n5, n6⟩ := isWordChar_ne hc
    obtain ⟨hlt, _, hdrop⟩ := drop_cons_getD hd
    rw [blockLoop_eq t, _next_char t c _ hd n1 n2]
    dsimp only
    rw [if_neg n6, if_neg n1, if_neg (fun h => isWordChar_ne_star hc h.1)]
    rw [ih { t with off := t.off + 1, col := t.col + 1 } hdrop
      (fun d hd => hw d (List.mem_cons_of_mem _ hd))]
    have e1 : t.off + 1 + w.length = t.off + (c :: w).length := by
      simp only [List.length_cons]; omega
    have e2 : t.col + 1 + w.length = t.col + (c :: w).length := by
      simp only [List.length_cons]; omega
    show blockLoop { t with off := t.off + 1 + w.length, col := t.col + 1 + w.length } = _
    rw [e1, e2]

/-- The block comment loop that does not stop at `*/` stops at a line feed
or at the end of the content. -/
theorem blockLoop_open_char (s : PFI) (h : (blockLoop s).closed = false) :
    (blockLoop s).c = NUL ∨ (blockLoop s).c = '\n' := by
  suffices H : ∀ n (u : PFI), u.content.length - u.off ≤ n → (blockLoop u).closed = false →
      (blockLoop u).c = NUL ∨ (blockLoop u).c = '\n' from H _ s (Nat.le_refl _) h
  intro n
  induction n with
  | zero =>
    intro u hu _
    rw [blockLoop_of_ge u (by omega)]
    exact Or.inl rfl
  | succ n ih =>
    intro u hu hcl
    rw [blockLoop_eq] at hcl ⊢
    split_ifs at hcl ⊢ with h1 h2 h3
    · exact Or.inl h1
    · exact Or.inr h2
    · have hlt := _next_off_lt_of_ne u h1
      have hc := _next_content u
      exact ih _ (by rw [hc]; omega) hcl

/-- Inside a block comment, a call of `next()` that starts on a run of word
characters and returns a word character has read beyond the run: it has passed
the `*/` that closes the comment. -/
theorem next_in_comment_passes_run (s : PFI) (c : Char) (w rest : List Char)
    (hd : s.content.drop s.off = (c :: w) ++ rest)
    (hw : ∀ x ∈ c :: w, isWordChar x = true)
    (hs : s.is_in_string = false) (hb : s.is_in_block_comment = true)
    (h : (next s).1 ≠ NUL ∧ isWordChar (next s).1 = true) :
    s.off + (c :: w).length < (next s).2.off := by
  have hc := hw c (List.mem_cons_self _ _)
  obtain ⟨n1, n2, n3, n4, n5, n6⟩ := isWordChar_ne hc
  obtain ⟨hlt, _, hdrop⟩ := drop_cons_getD hd
  have hrun := blockLoop_over_run w rest { s with off := s.off + 1, col := s.col + 1 } hdrop
    (fun d hd => hw d (List.mem_cons_of_mem _ hd))
  have hnext : next s =
      if (blockLoop { s with off := s.off + 1, col := s.col + 1 }).closed = true then
        nextTail next
          (next { (_next (blockLoop { s with off := s.off + 1, col := s.col + 1 }).s).2 with
            is_in_block_comment := false }).1
          (next { (_next (blockLoop { s with off := s.off + 1, col := s.col + 1 }).s).2 with
            is_in_block_comment := false }).2
      else nextTail next (blockLoop { s with off := s.off + 1, col := s.col + 1 }).c
        (blockLoop { s with off := s.off + 1, col := s.col + 1 }).s := by
    rw [next_eq]
    unfold nextBody
    rw [_next_char s c _ hd n1 n2]
    obtain ⟨content, off, line, col, last_col, iss, isb⟩ := s
    simp only at hs hb
    subst hs
    subst hb
    dsimp only
    rw [if_pos ⟨rfl, Or.inr rfl⟩, if_neg n1,
      if_neg (fun h => isWordChar_ne_star hc h.2.1), if_pos (Or.inr rfl),
      if_neg (show ¬ (true = false) by decide)]
  rw [hnext] at h ⊢
  by_cases hcl : (blockLoop { s with off := s.off + 1, col := s.col + 1 }).closed = true
  · rw [if_pos hcl]
    have h1 : s.off + 1 + w.length <
        (blockLoop { s with off := s.off + 1, col := s.col + 1 }).s.off := by
      rw [hrun] at hcl ⊢
      exact blockLoop_closed_off _ hcl
    have hP := reach_stable (blockLoop { s with off := s.off + 1, col := s.col + 1 }).s
    have h2 := nextTail_stable hP next (fun t ht => next_stable hP t ht)
      (next { (_next (blockLoop { s with off := s.off + 1, col := s.col + 1 }).s).2 with
            is_in_block_comment := false }).1 _
      (next_stable hP _ (hP.blk _ false (hP.raw _ ⟨rfl, Nat.le_refl _⟩)))
    refine Nat.lt_of_lt_of_le ?_ h2.2
    simp only [List.length_cons]
    omega
  · rw [if_neg hcl] at h
    have hcl2 : (blockLoop { s with off := s.off + 1, col := s.col + 1 }).closed = false := by
      simpa using hcl
    rcases blockLoop_open_char _ hcl2 with h1 | h1
    · rw [h1, nextTail_NUL] at h
      exact absurd rfl h.1
    · rw [h1, nextTail_plain _ _ _ (by decide), if_neg (by decide)] at h
      exact absurd h.2 (show ¬ (isWordChar '\n' = true) by decide)

theorem behind_word_eq (s : PFI) :
    behind_word s =
      { s with off := s.off + ((s.content.drop s.off).takeWhile isWordChar).length,
               col := s.col + ((s.content.drop s.off).takeWhile isWordChar).length } := rfl

/-- C6 (as amended). For a cursor within the content, `get_word()` returns
the maximal run of `[A-Za-z0-9_]` that starts at the cursor (the empty string
when the character at the cursor is not one of them) exactly when
(a) the run is empty or the stream does not skip a block comment at the cursor
(`is_in_block_comment` set and `is_in_string` not set), and
(b) the call of `next()` behind the run returns NUL or a character outside
`[A-Za-z0-9_]`.  (b) fails only when `next()` skips text behind the run, a
carriage return, a line continuation or a block comment, and a word character
follows the skipped text. -/
theorem get_word_maximal_run (s : PFI) (hoff : s.off ≤ s.content.length) :
    (get_word s).1 = (s.content.drop s.off).takeWhile isWordChar ↔
      (((s.content.drop s.off).takeWhile isWordChar ≠ [] →
          ¬ (s.is_in_string = false ∧ s.is_in_block_comment = true)) ∧
        ¬ ((next (behind_word s)).1 ≠ NUL ∧ isWordChar (next (behind_word s)).1 = true)) := by
  have hsplit := List.takeWhile_append_dropWhile isWordChar (s.content.drop s.off)
  have hwc : ∀ c ∈ (s.content.drop s.off).takeWhile isWordChar, isWordChar c = true :=
    fun c hc => List.mem_takeWhile_imp hc
  have hword : (get_word s).1 =
      (s.content.drop s.off).take
        ((get_wordLoop (s.content.length - s.off) s s.off).2 - s.off) := rfl
  have hlenw : ((s.content.drop s.off).takeWhile isWordChar).length ≤
      s.content.length - s.off := by
    have := (List.takeWhile_sublist isWordChar (l := s.content.drop s.off)).length_le
    simpa using this
  rw [behind_word_eq, hword]
  generalize hw : (s.content.drop s.off).takeWhile isWordChar = w at hsplit hwc hlenw
  generalize hr : (s.content.drop s.off).dropWhile isWordChar = rest at hsplit
  -- the loop behind the run, when the run is read character by character
  have hrun : (w ≠ [] → ¬ (s.is_in_string = false ∧ s.is_in_block_comment = true)) →
      get_wordLoop (s.content.length - s.off) s s.off =
        get_wordLoop (s.content.length - (s.off + w.length))
          { s with off := s.off + w.length, col := s.col + w.length } (s.off + w.length) := by
    intro hA
    have h1 := get_wordLoop_over_run w rest s (s.content.length - s.off) s.off hsplit.symm hwc hA
      (Nat.le_refl _)
    have h2 : (if w = [] then s.off else s.off + w.length) = s.off + w.length := by
      split_ifs with h0
      · simp [h0]
      · rfl
    rw [h1, h2]
  have hbehind := get_wordLoop_eq { s with off := s.off + w.length, col := s.col + w.length }
    (s.off + w.length)
  have hlong : ∀ n, s.off + w.length < n → w.length < s.content.length - s.off →
      (s.content.drop s.off).take (n - s.off) ≠ w := by
    intro n hn hlt heq
    have := congrArg List.length heq
    rw [List.length_take, List.length_drop] at this
    omega
  constructor
  · intro heq
    by_cases hA : w ≠ [] → ¬ (s.is_in_string = false ∧ s.is_in_block_comment = true)
    · refine ⟨hA, fun hcond => ?_⟩
      have hge := get_wordLoop_goes_on _ (s.off + w.length) hcond
      have hlt := next_off_lt_of_ne _ hcond.1
      have hin : s.off + w.length < s.content.length := by
        by_contra hcon
        have := next_of_ge { s with off := s.off + w.length, col := s.col + w.length }
          (show s.content.length ≤ s.off + w.length by omega)
        rw [this] at hcond
        exact hcond.1 rfl
      rw [hrun hA] at heq
      exact hlong _ (Nat.lt_of_lt_of_le hlt hge) (by omega) heq
    · exfalso
      simp only [Classical.not_imp, not_not] at hA
      obtain ⟨hne, hs, hb⟩ := hA
      obtain ⟨c, w1, rfl⟩ : ∃ c w1, w = c :: w1 := by
        cases w with
        | nil => exact absurd rfl hne
        | cons c w1 => exact ⟨c, w1, rfl⟩
      by_cases hcond : (next s).1 ≠ NUL ∧ isWordChar (next s).1 = true
      · have hpass := next_in_comment_passes_run s c w1 rest hsplit.symm hwc hs hb hcond
        have hge := get_wordLoop_goes_on s s.off hcond
        have hwithin := (next_stable (within_stable s.content) s ⟨rfl, hoff⟩).2
        exact hlong _ (Nat.lt_of_lt_of_le hpass hge) (by omega) heq
      · rw [get_wordLoop_eq, if_neg hcond] at heq
        simp at heq
  · rintro ⟨hA, hstop⟩
    rw [hrun hA, hbehind, if_neg hstop]
    show (s.content.drop s.off).take (s.off + w.length - s.off) = w
    rw [← hsplit]
    simp

/-- C6 on `ab`, carriage return, line feed, `c`: the call of `next()` behind
`ab` skips the carriage return and returns the line feed, and `get_word()`
returns `ab`. -/
theorem get_word_maximal_run_witness :
    (get_word (fresh ['a', 'b', '\r', '\n', 'c'])).1 =
      ((fresh ['a', 'b', '\r', '\n', 'c']).content.drop
        (fresh ['a', 'b', '\r', '\n', 'c']).off).takeWhile isWordChar ∧
    (get_word (fresh ['a', 'b', '\r', '\n', 'c'])).1 = ['a', 'b'] :=
  ⟨(get_word_maximal_run (fresh ['a', 'b', '\r', '\n', 'c']) (by decide)).2
      ⟨by decide, by decide⟩, by decide⟩

end Preprocessor

namespace SQFVM

/-! ### `INST_STORE_VAR_LOCAL` followed by `INST_LOAD_VAR` -/

/-- C10, the failing input. The scope binds `_x` to the scalar 1 and has
room for three more bindings.  `INST_STORE_VAR_LOCAL(_x)` with the scalar 2
on top of the work stack appends a second binding of `_x` to the scope, and
`INST_LOAD_VAR(_x)` then pushes the value of the first binding it meets, the
scalar 1, not the value just stored. -/
theorem store_local_shadowed_by_old_binding :
    execute_steps (fun _ vm => .ok vm) 2
      { stack := ⟨[some (.SCOPE ⟨4, [("_x", ⟨"SCALAR", 1⟩)]⟩), some (.LOAD_VAR "_x"),
                   some (.STORE_VAR_LOCAL "_x")], 3⟩,
        work := ⟨[some (.VALUE ⟨"SCALAR", 2⟩)], 1⟩ } =
      .ok { stack := ⟨[some (.SCOPE ⟨4, [("_x", ⟨"SCALAR", 1⟩), ("_x", ⟨"SCALAR", 2⟩)]⟩),
                        some (.LOAD_VAR "_x"), some (.STORE_VAR_LOCAL "_x")], 1⟩,
            work := ⟨[some (.VALUE ⟨"SCALAR", 1⟩)], 1⟩ } := by
  decide

end SQFVM

namespace SQFVM

/-! ### The case that works: a name the scope does not bind yet -/

theorem strcmpi_self (l : List Char) : strcmpi l l = 0 := by
  induction l with
  | nil => rfl
  | cons a l ih => simp [strcmpi, ih]

theorem find_in_scope_append_new (vars : List (String × VALUE)) (name : String) (v : VALUE)
    (h : find_in_scope vars name = none) :
    find_in_scope (vars ++ [(name, v)]) name = some v := by
  induction vars with
  | nil => simp [find_in_scope, strcmpi_self]
  | cons p vars ih =>
    obtain ⟨n, w⟩ := p
    simp only [find_in_scope, List.cons_append] at h ⊢
    split_ifs at h ⊢ with hc
    exact ih h

theorem top_scopeAt_skip (data : List (Option INST)) (i : Nat) (inst : INST)
    (rest : Except String (Option Nat))
    (h : data.get? i = some (some inst)) (hn : notScope inst) :
    top_scopeAt data i rest = rest := by
  unfold top_scopeAt
  rw [h]
  cases inst <;> first | rfl | exact absurd hn (by simp [notScope])

theorem find_varAt_skip (data : List (Option INST)) (name : String) (i : Nat) (inst : INST)
    (rest : Except String (Option VALUE))
    (h : data.get? i = some (some inst)) (hn : notScope inst) :
    find_varAt data name i rest = rest := by
  unfold find_varAt
  rw [h]
  cases inst <;> first | rfl | exact absurd hn (by simp [notScope])

/-- The walk of `top_scope` from index `i + d` stops at the scope at index
`i` when only instructions that are not scopes lie above it. -/
theorem top_scopeLoop_found (data : List (Option INST)) (i d : Nat) (scope : SCOPE)
    (hi : data.get? i = some (some (.SCOPE scope)))
    (hmid : ∀ j, i < j → j ≤ i + d → ∃ inst, data.get? j = some (some inst) ∧ notScope inst) :
    top_scopeLoop data (i + d) = .ok (some i) := by
  induction d with
  | zero =>
    have h0 : top_scopeAt data i (match i with
        | 0 => (.ok none : Except String (Option Nat))
        | j + 1 => top_scopeLoop data j) = .ok (some i) := by
      unfold top_scopeAt; rw [hi]
    cases i with
    | zero => exact h0
    | succ j => exact h0
  | succ d ih =>
    obtain ⟨inst, h1, h2⟩ := hmid (i + d + 1) (by omega) (by omega)
    show top_scopeAt data (i + d + 1) (top_scopeLoop data (i + d)) = _
    rw [top_scopeAt_skip data _ inst _ h1 h2]
    exact ih (fun j hj1 hj2 => hmid j hj1 (by omega))

/-- The walk of `find_var` from index `i + d` returns what the scope at
index `i` binds when only instructions that are not scopes lie above it. -/
theorem find_varLoop_found (data : List (Option INST)) (name : String) (i d : Nat)
    (scope : SCOPE) (v : VALUE)
    (hi : data.get? i = some (some (.SCOPE scope)))
    (hv : find_in_scope scope.varstack name = some v)
    (hmid : ∀ j, i < j → j ≤ i + d → ∃ inst, data.get? j = some (some inst) ∧ notScope inst) :
    find_varLoop data name (i + d) = .ok (some v) := by
  induction d with
  | zero =>
    have h0 : find_varAt data name i (match i with
        | 0 => (.ok none : Except String (Option VALUE))
        | j + 1 => find_varLoop data name j) = .ok (some v) := by
      unfold find_varAt; rw [hi]; dsimp only; rw [hv]
    cases i with
    | zero => exact h0
    | succ j => exact h0
  | succ d ih =>
    obtain ⟨inst, h1, h2⟩ := hmid (i + d + 1) (by omega) (by omega)
    show find_varAt data name (i + d + 1) (find_varLoop data name (i + d)) = _
    rw [find_varAt_skip data name _ inst _ h1 h2]
    exact ih (fun j hj1 hj2 => hmid j hj1 (by omega))


theorem get?_set_ne (data : List (Option INST)) (i j : Nat) (x : Option INST) (h : i ≠ j) :
    (data.set i x).get? j = data.get? j := by
  simp [List.getElem?_set, h]

theorem get?_set_self (data : List (Option INST)) (i : Nat) (x : Option INST)
    (h : i < data.length) : (data.set i x).get? i = some x := by
  simp [List.getElem?_set, h]

theorem getD_of_get? (data : List (Option INST)) (i : Nat) (x : Option INST)
    (h : data.get? i = some x) : data.getD i none = x := by
  simp only [List.get?_eq_getElem?] at h
  simp [List.getD_eq_getElem?_getD, h]

/-- `INST_STORE_VAR_LOCAL(n)` followed by `INST_LOAD_VAR(n)` pushes the
stored value when the innermost scope has room and does not bind `n` yet:
the two instructions are on top of the call stack, the innermost scope is at
index `i` with only instructions that are not scopes above it, and the value
`v` is on top of the work stack. -/
theorem store_local_then_load_new_name (callback : String → VM → Except String VM)
    (vm : VM) (name : String) (v : VALUE) (i d : Nat) (scope : SCOPE)
    (htop : vm.stack.top = i + d + 3)
    (hstore : vm.stack.data.get? (i + d + 2) = some (some (.STORE_VAR_LOCAL name)))
    (hload : vm.stack.data.get? (i + d + 1) = some (some (.LOAD_VAR name)))
    (hscope : vm.stack.data.get? i = some (some (.SCOPE scope)))
    (hmid : ∀ j, i < j → j ≤ i + d →
      ∃ inst, vm.stack.data.get? j = some (some inst) ∧ notScope inst)
    (hroom : scope.varstack_top < scope.varstack_size)
    (hnew : find_in_scope scope.varstack name = none)
    (hwtop : 0 < vm.work.top) (hwsize : vm.work.top ≤ vm.work.size)
    (hval : vm.work.data.get? (vm.work.top - 1) = some (some (.VALUE v))) :
    ∃ vm2, execute_steps callback 2 vm = .ok vm2 ∧
      vm2.work.top = vm.work.top ∧
      vm2.work.data.get? (vm.work.top - 1) = some (some (.VALUE v)) := by
  obtain ⟨⟨data, top⟩, ⟨wdata, wtop⟩⟩ := vm
  simp only at htop hstore hload hscope hmid hwtop hwsize hval
  subst htop
  have hilen : i < data.length := by
    by_contra hge
    have : data.get? i = none := by simp; omega
    rw [this] at hscope
    exact absurd hscope (by simp)
  have hmid1 : ∀ j, i < j → j ≤ i + (d + 2) →
      ∃ inst, data.get? j = some (some inst) ∧ notScope inst := by
    intro j hj1 hj2
    by_cases h1 : j = i + d + 2
    · exact ⟨.STORE_VAR_LOCAL name, h1 ▸ hstore, trivial⟩
    by_cases h2 : j = i + d + 1
    · exact ⟨.LOAD_VAR name, h2 ▸ hload, trivial⟩
    exact hmid j hj1 (by omega)
  -- the scope after the store
  let scope2 : SCOPE := { scope with varstack := scope.varstack ++ [(name, v)] }
  let data2 : List (Option INST) := data.set i (some (.SCOPE scope2))
  have hmid2 : ∀ j, i < j → j ≤ i + (d + 1) →
      ∃ inst, data2.get? j = some (some inst) ∧ notScope inst := by
    intro j hj1 hj2
    obtain ⟨inst, h1, h2⟩ := hmid1 j hj1 (by omega)
    exact ⟨inst, by rw [get?_set_ne data i j _ (by omega)]; exact h1, h2⟩
  have hscope2 : data2.get? i = some (some (.SCOPE scope2)) := get?_set_self data i _ hilen
  have hfind : find_in_scope scope2.varstack name = some v :=
    find_in_scope_append_new scope.varstack name v hnew
  have hwsize' : wtop ≤ wdata.length := hwsize
  -- first turn
  have step1 : execute_step callback ⟨⟨data, i + d + 3⟩, ⟨wdata, wtop⟩⟩ =
      .ok ⟨⟨data2, i + d + 2⟩, ⟨wdata, wtop - 1⟩⟩ := by
    unfold execute_step pop_stack
    simp only [Nat.add_sub_cancel, Nat.succ_ne_zero, if_false,
      show i + d + 3 - 1 = i + d + 2 from rfl, getD_of_get? _ _ _ hstore]
    unfold top_scope
    simp only
    rw [show i + d + 2 = i + (d + 2) from rfl, top_scopeLoop_found data i (d + 2) scope hscope hmid1]
    simp only [pop_stack, if_neg (Nat.pos_iff_ne_zero.mp hwtop), getD_of_get? _ _ _ hval,
      get_value, store_in_scope_at, List.get?_eq_getElem?]
    simp only [List.get?_eq_getElem?] at hscope
    rw [hscope]
    simp only [store_in_scope, ge_iff_le, if_neg (Nat.not_le.mpr hroom)]
  -- second turn
  have hload2 : data2.get? (i + d + 1) = some (some (.LOAD_VAR name)) := by
    rw [get?_set_ne data i _ _ (by omega)]; exact hload
  have step2 : execute_step callback ⟨⟨data2, i + d + 2⟩, ⟨wdata, wtop - 1⟩⟩ =
      .ok ⟨⟨data2, i + d + 1⟩, ⟨wdata.set (wtop - 1) (some (.VALUE v)), wtop - 1 + 1⟩⟩ := by
    unfold execute_step pop_stack
    simp only [Nat.add_sub_cancel, Nat.succ_ne_zero, if_false,
      show i + d + 2 - 1 = i + d + 1 from rfl, getD_of_get? _ _ _ hload2]
    unfold find_var
    simp only
    rw [show i + d + 1 = i + (d + 1) from rfl,
      find_varLoop_found data2 name i (d + 1) scope2 v hscope2 hfind hmid2]
    simp only [push_stack, STACK.size, ge_iff_le]
    rw [if_neg (by omega)]
  refine ⟨⟨⟨data2, i + d + 1⟩, ⟨wdata.set (wtop - 1) (some (.VALUE v)), wtop - 1 + 1⟩⟩,
    ?_, ?_, ?_⟩
  · simp only [execute_steps, step1, step2]
  · show wtop - 1 + 1 = wtop
    omega
  · show (wdata.set (wtop - 1) (some (.VALUE v))).get? (wtop - 1) = _
    exact get?_set_self wdata _ _ (by omega)

theorem store_local_then_load_new_name_witness :
    ∃ vm2, execute_steps (fun _ vm => .ok vm) 2
        { stack := ⟨[some (.SCOPE ⟨4, [("_y", ⟨"SCALAR", 1⟩)]⟩), some .NOP, some (.LOAD_VAR "_x"),
                     some (.STORE_VAR_LOCAL "_x")], 4⟩,
          work := ⟨[some (.VALUE ⟨"SCALAR", 2⟩)], 1⟩ } = .ok vm2 ∧
      vm2.work.top = 1 ∧
      vm2.work.data.get? (1 - 1) = some (some (.VALUE ⟨"SCALAR", 2⟩)) :=
  store_local_then_load_new_name (fun _ vm => .ok vm)
    { stack := ⟨[some (.SCOPE ⟨4, [("_y", ⟨"SCALAR", 1⟩)]⟩), some .NOP, some (.LOAD_VAR "_x"),
                 some (.STORE_VAR_LOCAL "_x")], 4⟩,
      work := ⟨[some (.VALUE ⟨"SCALAR", 2⟩)], 1⟩ }
    "_x" ⟨"SCALAR", 2⟩ 0 1 ⟨4, [("_y", ⟨"SCALAR", 1⟩)]⟩
    rfl rfl rfl rfl
    (fun j h1 h2 => ⟨.NOP, by
      have hj : j = 1 := by omega
      subst hj; rfl, trivial⟩)
    (by decide) (by decide) (by decide) (by decide) rfl

end SQFVM

namespace SQFVM

/-! ### Names are compared without regard to case -/

theorem char_toNat_inj (x y : Char) (h : x.toNat = y.toNat) : x = y := by
  cases x with | mk xv xh => cases y with | mk yv yh =>
  simp only [Char.toNat] at h
  cases xv with | mk xb => cases yv with | mk yb =>
  simp only [UInt32.toNat] at h
  have e : xb = yb := BitVec.eq_of_toNat_eq h
  subst e
  rfl

theorem strcmpi_eq_zero_iff (a b : List Char) :
    strcmpi a b = 0 ↔ a.map Char.toLower = b.map Char.toLower := by
  induction a generalizing b with
  | nil => cases b <;> simp [strcmpi]
  | cons x a ih =>
    cases b with
    | nil => simp [strcmpi]
    | cons y b =>
      simp only [strcmpi, List.map_cons, List.cons.injEq]
      by_cases hxy : x.toLower = y.toLower
      · rw [if_pos hxy, ih]
        exact ⟨fun h => ⟨hxy, h⟩, fun h => h.2⟩
      · rw [if_neg hxy]
        constructor
        · intro h0
          exact absurd (char_toNat_inj _ _ (by omega)) hxy
        · intro h0
          exact absurd h0.1 hxy

theorem strcmpi_eq_zero_iff_eqIgnoreCase (a b : String) :
    strcmpi a.toList b.toList = 0 ↔ eqIgnoreCase a b :=
  strcmpi_eq_zero_iff a.toList b.toList

/-! ### Lookup of a command -/

theorem find_command_of_type_eq (cmds : List CMD) (name : String) (kind : Char) :
    find_command_of_type cmds name kind =
      cmds.find? (fun cmd => decide (cmd.type = kind ∧ eqIgnoreCase cmd.name name)) := by
  induction cmds with
  | nil => rfl
  | cons cmd rest ih =>
    simp only [find_command_of_type, List.find?_cons, strcmpi_eq_zero_iff_eqIgnoreCase]
    by_cases hc : cmd.type = kind ∧ eqIgnoreCase cmd.name name
    · rw [if_pos hc, decide_eq_true hc]
    · rw [if_neg hc, decide_eq_false hc]
      exact ih

/-- C16: for a kind other than `'*'`, `find_command` returns the first
registered command whose type equals the kind and whose name equals the name
ignoring the case of letters; it returns the null pointer exactly when no
registered command satisfies both conditions. -/
theorem find_command_first_match (cmds : List CMD) (name : String) (kind : Char)
    (h : kind ≠ '*') :
    find_command cmds name kind =
        cmds.find? (fun cmd => decide (cmd.type = kind ∧ eqIgnoreCase cmd.name name)) ∧
      (find_command cmds name kind = none ↔
        ∀ cmd ∈ cmds, ¬ (cmd.type = kind ∧ eqIgnoreCase cmd.name name)) := by
  have h1 : find_command cmds name kind =
      cmds.find? (fun cmd => decide (cmd.type = kind ∧ eqIgnoreCase cmd.name name)) := by
    unfold find_command
    rw [if_pos h]
    exact find_command_of_type_eq cmds name kind
  refine ⟨h1, ?_⟩
  rw [h1, List.find?_eq_none]
  constructor
  · intro h2 cmd hmem
    simpa using h2 cmd hmem
  · intro h2 cmd hmem
    simpa using h2 cmd hmem

/-- C16 at a registry with a type, a binary and a unary command: the unary
`+` is found under the spelling of the request, the binary one is passed
over. -/
theorem find_command_first_match_witness :
    'u' ≠ '*' ∧
      find_command [⟨"SCALAR", 't', 0, 0⟩, ⟨"Select", 'b', 4, 1⟩, ⟨"select", 'u', 9, 2⟩]
        "SELECT" 'u' = some ⟨"select", 'u', 9, 2⟩ :=
  ⟨by decide,
    (find_command_first_match [⟨"SCALAR", 't', 0, 0⟩, ⟨"Select", 'b', 4, 1⟩,
      ⟨"select", 'u', 9, 2⟩] "SELECT" 'u' (by decide)).1.trans (by decide)⟩

/-! ### The loops over the call stack start one slot above the top -/

theorem find_varLoop_null (data : List (Option INST)) (name : String) (i : Nat)
    (h : data.get? i = some none) :
    find_varLoop data name i = .error "null instruction" := by
  cases i with
  | zero => unfold find_varLoop find_varAt; rw [h]
  | succ j => unfold find_varLoop find_varAt; rw [h]

theorem set_varLoop_null (name : String) (val : VALUE) (data : List (Option INST)) (i : Nat)
    (first : Option Nat) (h : data.get? i = some none) :
    set_varLoop name val i data first = .error "null instruction" := by
  unfold set_varLoop; rw [h]

/-- C11: `set_var` starts its walk at `data[top]`, the slot above the
content of the call stack.  In a machine whose call stack was only pushed that
slot is the null pointer, and `set_var` reads through it: the call fails for
every name and value, also when the innermost scope has room. -/
theorem set_var_reads_slot_above_top (vm : VM) (name : String) (val : VALUE)
    (h : vm.stack.data.get? vm.stack.top = some none) :
    set_var vm name val = .error "null instruction" := by
  unfold set_var
  rw [set_varLoop_null name val _ _ none h]

/-- C11 at a call stack of size two that holds one empty scope. -/
theorem set_var_reads_slot_above_top_witness :
    set_var (VM.mk ⟨[some (.SCOPE ⟨4, []⟩), none], 1⟩ ⟨[], 0⟩) "x" ⟨"SCALAR", 1⟩ =
      .error "null instruction" :=
  set_var_reads_slot_above_top (VM.mk ⟨[some (.SCOPE ⟨4, []⟩), none], 1⟩ ⟨[], 0⟩) "x"
    ⟨"SCALAR", 1⟩ rfl

/-- C12: `set_var` has no `break` in its loops.  On the call stack of two
scopes that both bind `x`, in the state in which the turn of `INST_STORE_VAR`
calls it, the value of `x` changes in the outer scope as well (and the inner
scope gets a second binding). -/
theorem set_var_updates_outer_scopes :
    set_var (VM.mk ⟨[some (.SCOPE ⟨4, [("x", ⟨"SCALAR", 1⟩)]⟩),
        some (.SCOPE ⟨4, [("x", ⟨"SCALAR", 2⟩)]⟩), some (.STORE_VAR "x")], 2⟩ ⟨[], 0⟩)
        "x" ⟨"SCALAR", 9⟩ =
      .ok (VM.mk ⟨[some (.SCOPE ⟨4, [("x", ⟨"SCALAR", 9⟩)]⟩),
        some (.SCOPE ⟨4, [("x", ⟨"SCALAR", 9⟩), ("x", ⟨"SCALAR", 9⟩)]⟩),
        some (.STORE_VAR "x")], 2⟩ ⟨[], 0⟩) := by
  decide

/-- C13: `find_var` starts its walk at `data[top]`, the slot above the
content of the call stack.  When that slot is the null pointer, as in a machine
whose call stack was only pushed, the call reads through it and fails, whether
or not a scope binds the name. -/
theorem find_var_reads_slot_above_top (vm : VM) (name : String)
    (h : vm.stack.data.get? vm.stack.top = some none) :
    find_var vm name = .error "null instruction" :=
  find_varLoop_null _ name _ h

/-- C13 at a call stack of size two that holds one scope binding `x`. -/
theorem find_var_reads_slot_above_top_witness :
    find_var (VM.mk ⟨[some (.SCOPE ⟨4, [("x", ⟨"SCALAR", 1⟩)]⟩), none], 1⟩ ⟨[], 0⟩) "x" =
      .error "null instruction" :=
  find_var_reads_slot_above_top
    (VM.mk ⟨[some (.SCOPE ⟨4, [("x", ⟨"SCALAR", 1⟩)]⟩), none], 1⟩ ⟨[], 0⟩) "x" rfl

end SQFVM

namespace SQFVM

/-! ### What `find_var` returns on a stack without null slots -/

theorem find_varAt_ok (data : List (Option INST)) (name : String) (i : Nat) (inst : INST)
    (l : List INST) (h : data.get? i = some (some inst)) :
    find_varAt data name i (.ok (innermostBinding l name)) =
      .ok (innermostBinding (inst :: l) name) := by
  unfold find_varAt
  rw [h]
  cases inst with
  | SCOPE scope =>
    simp only [innermostBinding]
    cases find_in_scope scope.varstack name <;> rfl
  | _ => rfl

theorem slot_of_get? (data : List (Option INST)) (i : Nat) (inst : INST)
    (h : data.get? i = some (some inst)) : slot data i = [inst] := by
  unfold slot; rw [h]

/-- On a stack whose slots `0 .. k` hold instructions, the walk of
`find_var` from index `k` returns the binding of the first scope, from `k`
downwards, that binds the name, and the null pointer when there is none. -/
theorem find_varLoop_eq (data : List (Option INST)) (name : String) (k : Nat)
    (h : ∀ i, i ≤ k → ∃ inst, data.get? i = some (some inst)) :
    find_varLoop data name k = .ok (innermostBinding (slotsDown data k) name) := by
  induction k with
  | zero =>
    obtain ⟨inst, hi⟩ := h 0 (Nat.le_refl 0)
    have h0 := find_varAt_ok data name 0 inst [] hi
    simp only [find_varLoop, slotsDown, slot_of_get? data 0 inst hi]
    exact h0
  | succ k ih =>
    obtain ⟨inst, hi⟩ := h (k + 1) (Nat.le_refl _)
    have hk := ih (fun i hik => h i (Nat.le_succ_of_le hik))
    simp only [find_varLoop, slotsDown, slot_of_get? data (k + 1) inst hi, hk,
      List.singleton_append]
    exact find_varAt_ok data name (k + 1) inst _ hi

theorem get?_of_getD (data : List (Option INST)) (i : Nat) (inst : INST)
    (h : data.getD i none = some inst) : data.get? i = some (some inst) := by
  rw [List.getD_eq_getElem?_getD] at h
  rw [List.get?_eq_getElem?]
  cases hx : data[i]? with
  | none => rw [hx] at h; cases h
  | some x => rw [hx] at h; simp only [Option.getD_some] at h; rw [h]

end SQFVM

namespace SQFVM

/-! ### The loop of `execute` on a call stack without commands -/

/-- No slot below `top` holds an `INST_COMMAND` instruction. -/
theorem noCommands_get? (stack : STACK) (h : noCommands stack = true) (i : Nat)
    (hi : i < stack.top) (name : String) :
    stack.data.get? i ≠ some (some (.COMMAND name)) := by
  intro hget
  unfold noCommands at h
  rw [List.all_eq_true] at h
  have hmem : some (INST.COMMAND name) ∈ stack.data.take stack.top := by
    rw [List.mem_iff_getElem?]
    refine ⟨i, ?_⟩
    rw [List.getElem?_take_of_lt hi, ← List.get?_eq_getElem?]
    exact hget
  have := h _ hmem
  simp at this

theorem set_get?_command (data : List (Option INST)) (i j : Nat) (scope : SCOPE)
    (name : String) (h : (data.set i (some (.SCOPE scope))).get? j = some (some (.COMMAND name))) :
    data.get? j = some (some (.COMMAND name)) := by
  by_cases hij : i = j
  · subst hij
    by_cases hlen : i < data.length
    · rw [get?_set_self data i _ hlen] at h
      cases h
    · have : (data.set i (some (INST.SCOPE scope))).get? i = none := by
        simp; omega
      rw [this] at h; cases h
  · rw [get?_set_ne data i j _ hij] at h
    exact h

theorem store_in_scope_at_stack (vm vm2 : VM) (scope : Option Nat) (name : String) (val : VALUE)
    (h : store_in_scope_at vm scope name val = .ok vm2) :
    vm2.stack.top = vm.stack.top ∧
      ∀ j cmd, vm2.stack.data.get? j = some (some (.COMMAND cmd)) →
        vm.stack.data.get? j = some (some (.COMMAND cmd)) := by
  unfold store_in_scope_at at h
  split at h
  · cases h
  · rename_i i
    split at h
    · rename_i sc hsc
      split at h
      · rename_i sc2 hst
        cases h
        exact ⟨rfl, fun j cmd hj => set_get?_command _ _ _ _ _ hj⟩
      · cases h
    · cases h

theorem set_varLoop_commands (name : String) (val : VALUE) (i : Nat) :
    ∀ (data : List (Option INST)) (first : Option Nat) (data2 : List (Option INST))
      (first2 : Option Nat), set_varLoop name val i data first = .ok (data2, first2) →
      ∀ j cmd, data2.get? j = some (some (.COMMAND cmd)) →
        data.get? j = some (some (.COMMAND cmd)) := by
  induction i with
  | zero =>
    intro data first data2 first2 h j cmd hj
    unfold set_varLoop at h
    split at h
    · cases h
    · cases h
    · rename_i inst hinst
      simp only [Except.ok.injEq, Prod.mk.injEq] at h
      obtain ⟨h1, _⟩ := h
      subst h1
      cases inst with
      | SCOPE scope => exact set_get?_command _ _ _ _ _ hj
      | _ => exact hj
  | succ i ih =>
    intro data first data2 first2 h j cmd hj
    unfold set_varLoop at h
    split at h
    · cases h
    · cases h
    · rename_i inst hinst
      have h2 := ih _ _ _ _ h j cmd hj
      cases inst with
      | SCOPE scope => exact set_get?_command _ _ _ _ _ h2
      | _ => exact h2

theorem set_var_stack (vm vm2 : VM) (name : String) (val : VALUE)
    (h : set_var vm name val = .ok vm2) :
    vm2.stack.top = vm.stack.top ∧
      ∀ j cmd, vm2.stack.data.get? j = some (some (.COMMAND cmd)) →
        vm.stack.data.get? j = some (some (.COMMAND cmd)) := by
  unfold set_var at h
  split at h
  · cases h
  · rename_i data first hloop
    obtain ⟨h1, h2⟩ := store_in_scope_at_stack _ _ _ _ _ h
    exact ⟨h1, fun j cmd hj => set_varLoop_commands name val _ _ _ _ _ hloop j cmd (h2 j cmd hj)⟩

/-- A turn of `execute` that pops an instruction other than a command takes
one instruction from the call stack and puts no command into a slot. -/
theorem execute_step_stack (callback : String → VM → Except String VM) (vm vm2 : VM)
    (hcmd : ∀ cmd, vm.stack.data.get? (vm.stack.top - 1) ≠ some (some (.COMMAND cmd)))
    (h : execute_step callback vm = .ok vm2) :
    vm2.stack.top = vm.stack.top - 1 ∧
      ∀ j cmd, vm2.stack.data.get? j = some (some (.COMMAND cmd)) →
        vm.stack.data.get? j = some (some (.COMMAND cmd)) := by
  unfold execute_step at h
  split at h
  · cases h
  · rename_i inst stack hpop
    have hstack : stack = { vm.stack with top := vm.stack.top - 1 } ∧
        vm.stack.data.get? (vm.stack.top - 1) = some (some inst) := by
      unfold pop_stack at hpop
      split at hpop
      · cases hpop
      · split at hpop
        · cases hpop
        · rename_i inst2 hget
          simp only [Except.ok.injEq, Prod.mk.injEq] at hpop
          obtain ⟨h1, h2⟩ := hpop
          subst h1
          exact ⟨h2.symm, get?_of_getD _ _ _ hget⟩
    obtain ⟨hst, hget⟩ := hstack
    subst hst
    cases inst with
    | NOP => cases h; exact ⟨rfl, fun j cmd hj => hj⟩
    | COMMAND name => exact absurd hget (hcmd name)
    | SCOPE scope => cases h; exact ⟨rfl, fun j cmd hj => hj⟩
    | LOAD_VAR name =>
      simp only at h
      split at h
      · cases h
      · split at h
        · cases h
        · cases h; exact ⟨rfl, fun j cmd hj => hj⟩
      · split at h
        · cases h
        · cases h; exact ⟨rfl, fun j cmd hj => hj⟩
    | STORE_VAR name =>
      simp only at h
      split at h
      · cases h
      · split at h
        · cases h
        · split at h
          · split at h
            · cases h
            · split at h
              · cases h
              · exact store_in_scope_at_stack _ _ _ _ _ h
          · split at h
            · cases h
            · exact set_var_stack _ _ _ _ h
    | STORE_VAR_LOCAL name =>
      simp only at h
      split at h
      · cases h
      · split at h
        · cases h
        · split at h
          · cases h
          · exact store_in_scope_at_stack _ _ _ _ _ h
    | VALUE v =>
      simp only at h
      split at h
      · cases h
      · cases h; exact ⟨rfl, fun j cmd hj => hj⟩

/-- On a call stack without commands the loop of `execute` ends within
`top` turns: a turn fails, or the loop returns after exactly `top` turns with
an empty call stack. -/
theorem execute_of_no_command (callback : String → VM → Except String VM) (fuel : Nat) :
    ∀ vm : VM, vm.stack.top ≤ fuel →
      (∀ i, i < vm.stack.top → ∀ cmd, vm.stack.data.get? i ≠ some (some (.COMMAND cmd))) →
      (∃ e, execute callback fuel vm = some (.failed e)) ∨
        ∃ vm2, execute callback fuel vm = some (.returned vm2 vm.stack.top) ∧
          vm2.stack.top = 0 := by
  induction fuel with
  | zero =>
    intro vm hle _
    have h0 : vm.stack.top = 0 := Nat.le_zero.mp hle
    right
    refine ⟨vm, ?_, h0⟩
    simp only [execute, h0, gt_iff_lt, Nat.lt_irrefl, if_false]
  | succ fuel ih =>
    intro vm hle hno
    by_cases hpos : vm.stack.top > 0
    · simp only [execute, if_pos hpos]
      cases hstep : execute_step callback vm with
      | error e => left; exact ⟨e, rfl⟩
      | ok vm1 =>
        obtain ⟨htop, hkeep⟩ := execute_step_stack callback vm vm1
          (hno (vm.stack.top - 1) (by omega)) hstep
        have hno1 : ∀ i, i < vm1.stack.top → ∀ cmd,
            vm1.stack.data.get? i ≠ some (some (.COMMAND cmd)) := by
          intro i hi cmd hget
          exact hno i (by omega) cmd (hkeep i cmd hget)
        rcases ih vm1 (by omega) hno1 with ⟨e, he⟩ | ⟨vm2, hv, hz⟩
        · left; exact ⟨e, by simp only [he]⟩
        · right
          refine ⟨vm2, ?_, hz⟩
          simp only [hv, htop]
          congr 2
          omega
    · right
      have h0 : vm.stack.top = 0 := by omega
      refine ⟨vm, ?_, h0⟩
      simp only [execute, if_neg hpos, h0]
      rfl


/-- C15, the claim as it stands fails.  In each of the four runs the call
stack has no command and the work stack holds a value for the one store, or
there is no store.
(1) A call stack that holds only `INST_STORE_VAR_LOCAL`: there is no scope to
store into, `top_scope` returns the null pointer and `store_in_scope` reads
through it.
(2) A store above a scope without room: `store_in_scope` calls `error`.
(3) `INST_VALUE` with a full work stack: `push_stack` has no slot.
(4) A store above `INST_LOAD_VAR` for a name that no scope binds: the load
pushes a NOP instruction on top of the value, and the store pops the NOP.
In none of them `execute` returns. -/
theorem execute_store_without_scope :
    (noCommands ⟨[some (.STORE_VAR_LOCAL "_x")], 1⟩ = true ∧
      execute (fun _ vm => .ok vm) 1
        (VM.mk ⟨[some (.STORE_VAR_LOCAL "_x")], 1⟩ ⟨[some (.VALUE ⟨"SCALAR", 2⟩)], 1⟩) =
        some (.failed "null scope")) ∧
    (noCommands ⟨[some (.SCOPE ⟨0, []⟩), some (.STORE_VAR_LOCAL "_x")], 2⟩ = true ∧
      execute (fun _ vm => .ok vm) 2
        (VM.mk ⟨[some (.SCOPE ⟨0, []⟩), some (.STORE_VAR_LOCAL "_x")], 2⟩
          ⟨[some (.VALUE ⟨"SCALAR", 2⟩)], 1⟩) =
        some (.failed "VARSTACK OVERFLOW")) ∧
    (noCommands ⟨[some (.VALUE ⟨"SCALAR", 2⟩)], 1⟩ = true ∧
      execute (fun _ vm => .ok vm) 1
        (VM.mk ⟨[some (.VALUE ⟨"SCALAR", 2⟩)], 1⟩ ⟨[some (.VALUE ⟨"SCALAR", 1⟩)], 1⟩) =
        some (.failed "STACK OVERFLOW")) ∧
    (noCommands ⟨[some (.SCOPE ⟨4, []⟩), some (.STORE_VAR_LOCAL "_x"), some (.LOAD_VAR "_y")],
        3⟩ = true ∧
      execute (fun _ vm => .ok vm) 3
        (VM.mk ⟨[some (.SCOPE ⟨4, []⟩), some (.STORE_VAR_LOCAL "_x"), some (.LOAD_VAR "_y")], 3⟩
          ⟨[some (.VALUE ⟨"SCALAR", 2⟩), none], 1⟩) =
        some (.failed "not a value instruction")) := by
  decide

end SQFVM

namespace SQFVM

/-! ### `find_type` tests the name before the type -/

theorem find_type_skip (types : List CMD) (rest : List CMD) (name : String)
    (ht : ∀ cmd ∈ types, cmd.type = 't' ∧ ¬ eqIgnoreCase cmd.name name) :
    find_type (types ++ rest) name = find_type rest name := by
  induction types with
  | nil => rfl
  | cons cmd types ih =>
    obtain ⟨h1, h2⟩ := ht cmd (List.mem_cons_self _ _)
    have h3 : ¬ strcmpi cmd.name.toList name.toList = 0 := by
      rw [strcmpi_eq_zero_iff_eqIgnoreCase]; exact h2
    simp only [List.cons_append, find_type]
    rw [if_neg h3, if_neg (by simpa using h1)]
    exact ih (fun c hc => ht c (List.mem_cons_of_mem _ hc))

/-- The name part of the claim about `find_type` holds: a result has the
name of the request, ignoring case. -/
theorem find_type_name (cmds : List CMD) (name : String) (cmd : CMD)
    (h : find_type cmds name = some cmd) : eqIgnoreCase cmd.name name := by
  induction cmds with
  | nil => cases h
  | cons c rest ih =>
    simp only [find_type] at h
    split_ifs at h with h1 h2
    · cases h
      exact (strcmpi_eq_zero_iff_eqIgnoreCase _ _).1 h1
    · exact ih h

/-- C28: `find_type` compares the name before it looks at the type.  When
the first command of the registry that is not a type has the name of the
request, and no type before it has, `find_type` returns that command, whose
type is not `'t'`. -/
theorem find_type_returns_other_command (types rest : List CMD) (cmd : CMD) (name : String)
    (ht : ∀ c ∈ types, c.type = 't' ∧ ¬ eqIgnoreCase c.name name)
    (hc : cmd.type ≠ 't') (hn : eqIgnoreCase cmd.name name) :
    find_type (types ++ cmd :: rest) name = some cmd ∧ cmd.type ≠ 't' := by
  refine ⟨?_, hc⟩
  rw [find_type_skip types _ name ht]
  simp only [find_type]
  rw [if_pos ((strcmpi_eq_zero_iff_eqIgnoreCase _ _).2 hn)]

/-- C28 at a registry of two types and a binary command: the request for
the type `select` is answered with the binary command. -/
theorem find_type_returns_other_command_witness :
    find_type ([⟨"SCALAR", 't', 0, 0⟩, ⟨"BOOL", 't', 0, 0⟩] ++
        (⟨"select", 'b', 4, 1⟩ : CMD) :: [⟨"count", 'u', 9, 2⟩]) "SELECT" =
        some ⟨"select", 'b', 4, 1⟩ ∧
      (⟨"select", 'b', 4, 1⟩ : CMD).type ≠ 't' :=
  find_type_returns_other_command [⟨"SCALAR", 't', 0, 0⟩, ⟨"BOOL", 't', 0, 0⟩]
    [⟨"count", 'u', 9, 2⟩] ⟨"select", 'b', 4, 1⟩ "SELECT" (by decide) (by decide) (by decide)

/-! ### `set_var` always appends a binding -/

theorem set_in_scope_length (vars : List (String × VALUE)) (name : String) (val : VALUE) :
    (set_in_scope vars name val).length = vars.length := by
  induction vars with
  | nil => rfl
  | cons p vars ih =>
    obtain ⟨n, v⟩ := p
    simp only [set_in_scope, List.length_cons, ih]

theorem get?_lt_of_some (data : List (Option INST)) (i : Nat) (x : Option INST)
    (h : data.get? i = some x) : i < data.length := by
  by_contra hge
  have : data.get? i = none := by simp; omega
  rw [this] at h
  cases h

/-- One turn of the loop of `set_var` keeps the number of bindings of the
scope in every slot. -/
theorem set_var_turn_scopes (data : List (Option INST)) (i : Nat) (scope : SCOPE)
    (name : String) (val : VALUE) (h : data.get? i = some (some (.SCOPE scope)))
    (j : Nat) (sc2 : SCOPE)
    (hj : (data.set i (some (.SCOPE { scope with varstack := set_in_scope scope.varstack name val }))).get? j
      = some (some (.SCOPE sc2))) :
    ∃ sc, data.get? j = some (some (.SCOPE sc)) ∧ sc2.varstack.length = sc.varstack.length := by
  by_cases hij : i = j
  · subst hij
    rw [get?_set_self data i _ (get?_lt_of_some _ _ _ h)] at hj
    simp only [Option.some.injEq, INST.SCOPE.injEq] at hj
    subst hj
    exact ⟨scope, h, set_in_scope_length _ _ _⟩
  · rw [get?_set_ne data i j _ hij] at hj
    exact ⟨sc2, hj, rfl⟩

theorem set_varLoop_scopes (name : String) (val : VALUE) (i : Nat) :
    ∀ (data : List (Option INST)) (first : Option Nat) (data2 : List (Option INST))
      (first2 : Option Nat), set_varLoop name val i data first = .ok (data2, first2) →
      ∀ j sc2, data2.get? j = some (some (.SCOPE sc2)) →
        ∃ sc, data.get? j = some (some (.SCOPE sc)) ∧
          sc2.varstack.length = sc.varstack.length := by
  induction i with
  | zero =>
    intro data first data2 first2 h j sc2 hj
    unfold set_varLoop at h
    split at h
    · cases h
    · cases h
    · rename_i inst hinst
      simp only [Except.ok.injEq, Prod.mk.injEq] at h
      obtain ⟨h1, _⟩ := h
      subst h1
      cases inst with
      | SCOPE scope => exact set_var_turn_scopes data 0 scope name val hinst j sc2 hj
      | _ => exact ⟨sc2, hj, rfl⟩
  | succ i ih =>
    intro data first data2 first2 h j sc2 hj
    unfold set_varLoop at h
    split at h
    · cases h
    · cases h
    · rename_i inst hinst
      obtain ⟨sc1, h1, h2⟩ := ih _ _ _ _ h j sc2 hj
      cases inst with
      | SCOPE scope =>
        obtain ⟨sc, h3, h4⟩ := set_var_turn_scopes data (i + 1) scope name val hinst j sc1 h1
        exact ⟨sc, h3, h2.trans h4⟩
      | _ => exact ⟨sc1, h1, h2⟩

theorem store_in_scope_at_appends (vm vm2 : VM) (scope : Option Nat) (name : String) (val : VALUE)
    (h : store_in_scope_at vm scope name val = .ok vm2) :
    ∃ i sc sc2, vm.stack.data.get? i = some (some (.SCOPE sc)) ∧
      vm2.stack.data.get? i = some (some (.SCOPE sc2)) ∧
      sc2.varstack = sc.varstack ++ [(name, val)] := by
  unfold store_in_scope_at at h
  split at h
  · cases h
  · rename_i i
    split at h
    · rename_i sc hsc
      split at h
      · rename_i sc2 hst
        cases h
        refine ⟨i, sc, sc2, hsc, get?_set_self _ _ _ (get?_lt_of_some _ _ _ hsc), ?_⟩
        unfold store_in_scope at hst
        split_ifs at hst
        cases hst
        rfl
      · cases h
    · cases h

/-- C24: `set_var` ends with a call of `store_in_scope` on the first scope
it met, whether or not the name was found.  Whenever the call returns, one
scope of the call stack has one binding more than before. -/
theorem set_var_appends_binding (vm vm2 : VM) (name : String) (val : VALUE)
    (h : set_var vm name val = .ok vm2) :
    ∃ i sc sc2, vm.stack.data.get? i = some (some (.SCOPE sc)) ∧
      vm2.stack.data.get? i = some (some (.SCOPE sc2)) ∧
      sc2.varstack_top = sc.varstack_top + 1 := by
  unfold set_var at h
  split at h
  · cases h
  · rename_i data first hloop
    obtain ⟨i, sc1, sc2, h1, h2, h3⟩ := store_in_scope_at_appends _ _ _ _ _ h
    obtain ⟨sc, h4, h5⟩ := set_varLoop_scopes name val _ _ _ _ _ hloop i sc1 h1
    refine ⟨i, sc, sc2, h4, h2, ?_⟩
    simp only [SCOPE.varstack_top, h3, List.length_append, List.length_singleton, h5]

/-- C24 on a call stack with one scope that binds `x`, in the state in
which the turn of `INST_STORE_VAR` calls `set_var`: the scope has two bindings
of `x` afterwards. -/
theorem set_var_appends_binding_witness :
    set_var (VM.mk ⟨[some (.SCOPE ⟨4, [("x", ⟨"SCALAR", 1⟩)]⟩), some (.STORE_VAR "x")], 1⟩
        ⟨[], 0⟩) "x" ⟨"SCALAR", 9⟩ =
      .ok (VM.mk ⟨[some (.SCOPE ⟨4, [("x", ⟨"SCALAR", 9⟩), ("x", ⟨"SCALAR", 9⟩)]⟩),
        some (.STORE_VAR "x")], 1⟩ ⟨[], 0⟩) ∧
    ∃ i sc sc2,
      (VM.mk ⟨[some (.SCOPE ⟨4, [("x", ⟨"SCALAR", 1⟩)]⟩), some (.STORE_VAR "x")], 1⟩
        ⟨[], 0⟩).stack.data.get? i = some (some (.SCOPE sc)) ∧
      (VM.mk ⟨[some (.SCOPE ⟨4, [("x", ⟨"SCALAR", 9⟩), ("x", ⟨"SCALAR", 9⟩)]⟩),
        some (.STORE_VAR "x")], 1⟩ ⟨[], 0⟩).stack.data.get? i = some (some (.SCOPE sc2)) ∧
      sc2.varstack_top = sc.varstack_top + 1 :=
  ⟨by decide, set_var_appends_binding _ _ "x" ⟨"SCALAR", 9⟩ (by decide)⟩

/-! ### The three walks read the slot at index `top` -/

theorem top_scopeLoop_null (data : List (Option INST)) (i : Nat)
    (h : data.get? i = some none) :
    top_scopeLoop data i = .error "null instruction" := by
  cases i with
  | zero => unfold top_scopeLoop top_scopeAt; rw [h]
  | succ j => unfold top_scopeLoop top_scopeAt; rw [h]

theorem top_scopeLoop_scope (data : List (Option INST)) (i : Nat) (scope : SCOPE)
    (h : data.get? i = some (some (.SCOPE scope))) :
    top_scopeLoop data i = .ok (some i) := by
  cases i with
  | zero => unfold top_scopeLoop top_scopeAt; rw [h]
  | succ j => unfold top_scopeLoop top_scopeAt; rw [h]

theorem find_varLoop_scope (data : List (Option INST)) (name : String) (i : Nat) (scope : SCOPE)
    (v : VALUE) (h : data.get? i = some (some (.SCOPE scope)))
    (hv : find_in_scope scope.varstack name = some v) :
    find_varLoop data name i = .ok (some v) := by
  cases i with
  | zero => unfold find_varLoop find_varAt; rw [h]; simp only [hv]
  | succ j => unfold find_varLoop find_varAt; rw [h]; simp only [hv]

/-- C25: the first slot that `find_var`, `set_var` and `top_scope` read is
`data[top]`, which is not below `top`.  When that slot is the null pointer all
three read through it and fail; when it holds a scope, `top_scope` returns that
scope and `find_var` returns what it binds, although the scope is not part of
the content of the stack. -/
theorem walks_read_slot_at_top (vm : VM) (name : String) (val : VALUE) :
    (vm.stack.data.get? vm.stack.top = some none →
      find_var vm name = .error "null instruction" ∧
      set_var vm name val = .error "null instruction" ∧
      top_scope vm = .error "null instruction") ∧
    (∀ scope, vm.stack.data.get? vm.stack.top = some (some (.SCOPE scope)) →
      top_scope vm = .ok (some vm.stack.top) ∧
      (find_in_scope scope.varstack name = some val → find_var vm name = .ok (some val))) := by
  constructor
  · intro h
    refine ⟨find_varLoop_null _ name _ h, ?_, top_scopeLoop_null _ _ h⟩
    unfold set_var
    rw [set_varLoop_null name val _ _ none h]
  · intro scope h
    exact ⟨top_scopeLoop_scope _ _ scope h, fun hv => find_varLoop_scope _ name _ scope val h hv⟩

/-- C25 at a stack of size two after one push (slot 1 is null), and at an
empty stack whose slot 0 still holds a scope that was popped. -/
theorem walks_read_slot_at_top_witness :
    (find_var (VM.mk ⟨[some (.SCOPE ⟨4, []⟩), none], 1⟩ ⟨[], 0⟩) "x" =
        .error "null instruction" ∧
      set_var (VM.mk ⟨[some (.SCOPE ⟨4, []⟩), none], 1⟩ ⟨[], 0⟩) "x" ⟨"SCALAR", 1⟩ =
        .error "null instruction" ∧
      top_scope (VM.mk ⟨[some (.SCOPE ⟨4, []⟩), none], 1⟩ ⟨[], 0⟩) =
        .error "null instruction") ∧
    (top_scope (VM.mk ⟨[some (.SCOPE ⟨4, [("x", ⟨"SCALAR", 1⟩)]⟩), none], 0⟩ ⟨[], 0⟩) =
        .ok (some 0) ∧
      find_var (VM.mk ⟨[some (.SCOPE ⟨4, [("x", ⟨"SCALAR", 1⟩)]⟩), none], 0⟩ ⟨[], 0⟩) "x" =
        .ok (some ⟨"SCALAR", 1⟩)) :=
  ⟨(walks_read_slot_at_top (VM.mk ⟨[some (.SCOPE ⟨4, []⟩), none], 1⟩ ⟨[], 0⟩) "x"
      ⟨"SCALAR", 1⟩).1 rfl,
    ((walks_read_slot_at_top
      (VM.mk ⟨[some (.SCOPE ⟨4, [("x", ⟨"SCALAR", 1⟩)]⟩), none], 0⟩ ⟨[], 0⟩) "x"
      ⟨"SCALAR", 1⟩).2 ⟨4, [("x", ⟨"SCALAR", 1⟩)]⟩ rfl).1,
    ((walks_read_slot_at_top
      (VM.mk ⟨[some (.SCOPE ⟨4, [("x", ⟨"SCALAR", 1⟩)]⟩), none], 0⟩ ⟨[], 0⟩) "x"
      ⟨"SCALAR", 1⟩).2 ⟨4, [("x", ⟨"SCALAR", 1⟩)]⟩ rfl).2 (by decide)⟩

end SQFVM

namespace SQFVM

/-! ### `resize_stack` -/

theorem resize_stack_ok (stack : STACK) (newsize : Nat) (junk : Nat → Option INST) :
    ∃ stack2, resize_stack stack newsize true junk = .ok stack2 ∧
      stack2.size = newsize ∧ stack2.top = stack.top := by
  unfold resize_stack
  by_cases h : stack.size = newsize
  · rw [if_pos h]
    exact ⟨stack, rfl, h, rfl⟩
  · rw [if_neg h, if_neg (by decide)]
    refine ⟨_, rfl, ?_, rfl⟩
    simp only [STACK.size, List.length_append, List.length_take, List.length_map,
      List.length_range]
    omega

/-- C37: `resize_stack` does not assign to `top`.  When the new size is
below `top`, as it can be for a stack with `top <= size`, the call destroys the
instructions in the slots from `newsize` on and returns with `size = newsize`
and the old `top`, which is above the size: the stack is no longer
well-formed. -/
theorem resize_stack_keeps_top (stack : STACK) (newsize : Nat) (junk : Nat → Option INST)
    (hsmall : newsize < stack.top) :
    ∃ stack2, resize_stack stack newsize true junk = .ok stack2 ∧
      stack2.size = newsize ∧ stack2.top = stack.top ∧ ¬ stack2.top ≤ stack2.size := by
  obtain ⟨stack2, h1, h2, h3⟩ := resize_stack_ok stack newsize junk
  exact ⟨stack2, h1, h2, h3, by omega⟩

/-- C37 on a stack of size four that holds three instructions, resized to
one slot: the size is 1 and `top` is still 3. -/
theorem resize_stack_keeps_top_witness :
    resize_stack ⟨[some .NOP, some .NOP, some .NOP, none], 3⟩ 1 true (fun _ => none) =
        .ok ⟨[some .NOP], 3⟩ ∧
      ∃ stack2, resize_stack ⟨[some .NOP, some .NOP, some .NOP, none], 3⟩ 1 true (fun _ => none) =
          .ok stack2 ∧
        stack2.size = 1 ∧ stack2.top = (⟨[some .NOP, some .NOP, some .NOP, none], 3⟩ : STACK).top ∧
        ¬ stack2.top ≤ stack2.size :=
  ⟨by decide,
    resize_stack_keeps_top ⟨[some .NOP, some .NOP, some .NOP, none], 3⟩ 1 (fun _ => none)
      (by decide)⟩

/-- When the new size is not below `top`, the stack stays well-formed. -/
theorem resize_stack_wellformed (stack : STACK) (newsize : Nat) (junk : Nat → Option INST)
    (hbig : stack.top ≤ newsize) :
    ∃ stack2, resize_stack stack newsize true junk = .ok stack2 ∧
      stack2.size = newsize ∧ stack2.top ≤ stack2.size := by
  obtain ⟨stack2, h1, h2, h3⟩ := resize_stack_ok stack newsize junk
  exact ⟨stack2, h1, h2, by omega⟩

/-! ### `store_in_scope` -/

/-- The result of `store_in_scope` used in the turns of `execute` is the
call in state-passing form: an error is the message, a return is the scope. -/
theorem store_in_scope_eq_call (scope : SCOPE) (name : String) (val : VALUE) :
    store_in_scope scope name val =
      match store_in_scope_call scope name val with
      | (some e, _) => .error e
      | (none, scope2) => .ok scope2 := by
  unfold store_in_scope store_in_scope_call
  split_ifs <;> rfl

/-- C38: `store_in_scope` calls `error` exactly when the scope is full.
Then the message is VARSTACK OVERFLOW and the scope is unchanged.  Otherwise
the binding `(name, val)` is stored at index `varstack_top`, `varstack_top`
grows by one, and the bindings below it and the capacity are unchanged. -/
theorem store_in_scope_full_or_appends (scope : SCOPE) (name : String) (val : VALUE) :
    ((store_in_scope_call scope name val).1 ≠ none ↔
        scope.varstack_top ≥ scope.varstack_size) ∧
      (scope.varstack_top ≥ scope.varstack_size →
        store_in_scope_call scope name val = (some "VARSTACK OVERFLOW", scope)) ∧
      (scope.varstack_top < scope.varstack_size →
        (store_in_scope_call scope name val).1 = none ∧
        (store_in_scope_call scope name val).2.varstack_top = scope.varstack_top + 1 ∧
        (store_in_scope_call scope name val).2.varstack.get? scope.varstack_top =
          some (name, val) ∧
        (∀ j, j < scope.varstack_top →
          (store_in_scope_call scope name val).2.varstack.get? j = scope.varstack.get? j) ∧
        (store_in_scope_call scope name val).2.varstack_size = scope.varstack_size) := by
  unfold store_in_scope_call
  by_cases h : scope.varstack_top ≥ scope.varstack_size
  · rw [if_pos h]
    refine ⟨⟨fun _ => h, fun _ => by simp⟩, fun _ => rfl, fun h2 => by omega⟩
  · rw [if_neg h]
    refine ⟨⟨fun h2 => absurd rfl h2, fun h2 => absurd h2 h⟩, fun h2 => absurd h2 h, fun _ => ?_⟩
    refine ⟨rfl, ?_, ?_, ?_, rfl⟩
    · simp [SCOPE.varstack_top]
    · simp [SCOPE.varstack_top]
    · intro j hj
      have hj' : j < scope.varstack.length := hj
      simp [List.getElem?_append_left hj']

/-- C38 on a scope of capacity 2: with one binding the second is appended,
with two bindings the call reports the overflow and leaves the scope. -/
theorem store_in_scope_full_or_appends_witness :
    store_in_scope_call ⟨2, [("a", ⟨"SCALAR", 1⟩), ("b", ⟨"SCALAR", 2⟩)]⟩ "c" ⟨"SCALAR", 3⟩ =
        (some "VARSTACK OVERFLOW", ⟨2, [("a", ⟨"SCALAR", 1⟩), ("b", ⟨"SCALAR", 2⟩)]⟩) ∧
      (store_in_scope_call ⟨2, [("a", ⟨"SCALAR", 1⟩)]⟩ "b" ⟨"SCALAR", 2⟩).2.varstack.get?
          (SCOPE.varstack_top ⟨2, [("a", ⟨"SCALAR", 1⟩)]⟩) = some ("b", ⟨"SCALAR", 2⟩) :=
  ⟨(store_in_scope_full_or_appends ⟨2, [("a", ⟨"SCALAR", 1⟩), ("b", ⟨"SCALAR", 2⟩)]⟩ "c"
      ⟨"SCALAR", 3⟩).2.1 (by decide),
    ((store_in_scope_full_or_appends ⟨2, [("a", ⟨"SCALAR", 1⟩)]⟩ "b" ⟨"SCALAR", 2⟩).2.2
      (by decide)).2.2.1⟩

end SQFVM

namespace SQFVM

/-! ### The static check `admits` and the run of `execute` -/

theorem admits_succ_inv (data : List (Option INST)) (k p : Nat) (st : List String)
    (ks : List Bool) (f : Nat) (h : admits data (k + 1) p st ks f = true) :
    ∃ inst, data.get? k = some (some inst) ∧
      ∃ p2 st2 ks2 f2, admits data k p2 st2 ks2 f2 = true := by
  unfold admits at h
  split at h
  · exact ⟨_, ‹_›, _, _, _, _, h⟩
  · simp only [Bool.and_eq_true] at h
    exact ⟨_, ‹_›, _, _, _, _, h.2⟩
  · simp only [Bool.and_eq_true] at h
    exact ⟨_, ‹_›, _, _, _, _, h.2⟩
  · simp only [Bool.and_eq_true] at h
    exact ⟨_, ‹_›, _, _, _, _, h.2⟩
  · split at h
    · exact ⟨_, ‹_›, _, _, _, _, h⟩
    · cases h
  · split at h
    · exact ⟨_, ‹_›, _, _, _, _, h⟩
    · cases h
  · cases h

/-- The slots that `admits` accepts hold instructions. -/
theorem admits_live (data : List (Option INST)) (k : Nat) :
    ∀ (p : Nat) (st : List String) (ks : List Bool) (f : Nat),
      admits data k p st ks f = true → ∀ j, j < k → ∃ inst, data.get? j = some (some inst) := by
  induction k with
  | zero => intro p st ks f _ j hj; omega
  | succ k ih =>
    intro p st ks f h j hj
    obtain ⟨inst, hk, p2, st2, ks2, f2, h2⟩ := admits_succ_inv data k p st ks f h
    rcases Nat.lt_succ_iff_lt_or_eq.mp hj with hlt | rfl
    · exact ih p2 st2 ks2 f2 h2 j hlt
    · exact ⟨inst, hk⟩

theorem scope_below_spec (data : List (Option INST)) (k i : Nat)
    (h : scope_below data k = some i) :
    i < k ∧ (∃ scope, data.get? i = some (some (.SCOPE scope))) ∧
      ∀ j, i < j → j < k → ∀ scope, data.get? j ≠ some (some (.SCOPE scope)) := by
  induction k with
  | zero => cases h
  | succ k ih =>
    unfold scope_below at h
    split at h
    · rename_i scope hk
      cases h
      exact ⟨Nat.lt_succ_self _, ⟨scope, hk⟩, fun j h1 h2 => by omega⟩
    · rename_i hk
      obtain ⟨h1, h2, h3⟩ := ih h
      refine ⟨by omega, h2, fun j hj1 hj2 scope hj => ?_⟩
      rcases Nat.lt_succ_iff_lt_or_eq.mp hj2 with hlt | rfl
      · exact h3 j hj1 hlt scope hj
      · exact hk scope hj

/-- On a stack whose slots `0 .. k` hold instructions, the walk of
`top_scope` from index `k` finds the first scope from `k` downwards. -/
theorem top_scopeLoop_eq (data : List (Option INST)) (k : Nat)
    (h : ∀ i, i ≤ k → ∃ inst, data.get? i = some (some inst)) :
    top_scopeLoop data k = .ok (scope_below data (k + 1)) := by
  induction k with
  | zero =>
    obtain ⟨inst, hi⟩ := h 0 (Nat.le_refl 0)
    unfold top_scopeLoop top_scopeAt scope_below
    rw [hi]
    cases inst <;> rfl
  | succ k ih =>
    obtain ⟨inst, hi⟩ := h (k + 1) (Nat.le_refl _)
    have hk := ih (fun i hik => h i (Nat.le_succ_of_le hik))
    unfold top_scopeLoop top_scopeAt
    rw [hi, hk]
    rw [show scope_below data (k + 1 + 1) = (match data.get? (k + 1) with
      | some (some (.SCOPE _)) => some (k + 1)
      | _ => scope_below data (k + 1)) from rfl, hi]
    cases inst <;> rfl

theorem innermostBinding_isSome (data : List (Option INST)) (name : String) (k : Nat) :
    (innermostBinding (slotsDown data k) name).isSome = bound_below data (k + 1) name := by
  induction k with
  | zero =>
    unfold slotsDown slot bound_below
    cases h : data.get? 0 with
    | none => rfl
    | some x =>
      cases x with
      | none => rfl
      | some inst =>
        cases inst with
        | SCOPE scope =>
          simp only [innermostBinding, bound_below]
          cases find_in_scope scope.varstack name <;> rfl
        | _ => rfl
  | succ k ih =>
    rw [show bound_below data (k + 1 + 1) name = (match data.get? (k + 1) with
      | some (some (.SCOPE scope)) =>
        (find_in_scope scope.varstack name).isSome || bound_below data (k + 1) name
      | _ => bound_below data (k + 1) name) from rfl]
    unfold slotsDown slot
    cases h : data.get? (k + 1) with
    | none => simpa using ih
    | some x =>
      cases x with
      | none => simpa using ih
      | some inst =>
        cases inst with
        | SCOPE scope =>
          simp only [List.singleton_append, innermostBinding]
          cases find_in_scope scope.varstack name with
          | none => simpa using ih
          | some v => rfl
        | _ => simpa [innermostBinding] using ih

/-- On a stack whose slots `0 .. k` hold instructions, `find_var` from index
`k` returns a value exactly when a scope below slot `k + 1` binds the name. -/
theorem find_varLoop_bound (data : List (Option INST)) (name : String) (k : Nat)
    (h : ∀ i, i ≤ k → ∃ inst, data.get? i = some (some inst)) :
    ∃ r, find_varLoop data name k = .ok r ∧ r.isSome = bound_below data (k + 1) name :=
  ⟨_, find_varLoop_eq data name k h, innermostBinding_isSome data name k⟩

end SQFVM

namespace SQFVM

theorem bound_below_rel (data data2 : List (Option INST)) (m : String) (k : Nat)
    (h : ∀ j, j < k → same_shape (data.get? j) (data2.get? j)) :
    bound_below data2 k m = bound_below data k m := by
  induction k with
  | zero => rfl
  | succ k ih =>
    have ih2 := ih (fun j hj => h j (Nat.lt_succ_of_lt hj))
    rcases h k (Nat.lt_succ_self _) with heq | ⟨sc, sc2, hx, hy, _, _, h3⟩
    · simp only [bound_below, ← heq, ih2]
    · simp only [bound_below, hx, hy, ih2, h3]

theorem scope_below_rel (data data2 : List (Option INST)) (k : Nat)
    (h : ∀ j, j < k → same_shape (data.get? j) (data2.get? j)) :
    scope_below data2 k = scope_below data k := by
  induction k with
  | zero => rfl
  | succ k ih =>
    have ih2 := ih (fun j hj => h j (Nat.lt_succ_of_lt hj))
    rcases h k (Nat.lt_succ_self _) with heq | ⟨sc, sc2, hx, hy, _, _, _⟩
    · simp only [scope_below, ← heq, ih2]
    · simp only [scope_below, hx, hy]

/-- The check `admits` reads of a scope only its capacity, the number of its
bindings and the names it binds. -/
theorem admits_rel (data data2 : List (Option INST)) (k : Nat)
    (h : ∀ j, j < k → same_shape (data.get? j) (data2.get? j)) :
    ∀ (p : Nat) (st : List String) (ks : List Bool) (f : Nat),
      admits data2 k p st ks f = admits data k p st ks f := by
  induction k with
  | zero => intro p st ks f; rfl
  | succ k ih =>
    intro p st ks f
    have hlow : ∀ j, j < k → same_shape (data.get? j) (data2.get? j) :=
      fun j hj => h j (Nat.lt_succ_of_lt hj)
    have ih2 := ih hlow
    have hb := fun m => bound_below_rel data data2 m k hlow
    rcases h k (Nat.lt_succ_self _) with heq | ⟨sc, sc2, hx, hy, h1, h2, _⟩
    · simp only [admits, ← heq, ih2, hb]
    · simp only [admits, hx, hy, ih2, SCOPE.varstack_top, h1, h2]

theorem same_shape_set (data : List (Option INST)) (i : Nat) (x : Option INST) (k : Nat)
    (hik : k ≤ i) : ∀ j, j < k → same_shape (data.get? j) ((data.set i x).get? j) :=
  fun j hj => Or.inl (get?_set_ne data i j x (by omega)).symm

theorem find_in_scope_append_isSome (vars : List (String × VALUE)) (n m : String) (v : VALUE) :
    (find_in_scope (vars ++ [(n, v)]) m).isSome =
      ((find_in_scope vars m).isSome || decide (strcmpi n.toList m.toList = 0)) := by
  induction vars with
  | nil =>
    simp only [List.nil_append, find_in_scope]
    by_cases h : strcmpi n.toList m.toList = 0
    · rw [if_pos h, decide_eq_true h]; rfl
    · rw [if_neg h, decide_eq_false h]; rfl
  | cons pr vars ih =>
    obtain ⟨a, b⟩ := pr
    simp only [List.cons_append, find_in_scope]
    by_cases h : strcmpi a.toList m.toList = 0
    · rw [if_pos h, if_pos h]; rfl
    · rw [if_neg h, if_neg h]; exact ih

theorem get?_lt_length (data : List (Option INST)) (i : Nat) (x : Option INST)
    (h : data.get? i = some x) : i < data.length := by
  rw [List.get?_eq_getElem?] at h
  exact (List.getElem?_eq_some_iff.mp h).1

theorem scope_below_succ_of_ne (data : List (Option INST)) (k i : Nat)
    (h : scope_below data (k + 1) = some i) (hik : i ≠ k) :
    scope_below data k = some i ∧ ∀ scope, data.get? k ≠ some (some (.SCOPE scope)) := by
  unfold scope_below at h
  split at h
  · cases h; exact absurd rfl hik
  · rename_i hk
    exact ⟨h, fun scope hs => hk scope hs⟩

/-- A binding appended to the first scope below slot `k` is found from the
slots above that scope. -/
theorem bound_below_set (data : List (Option INST)) (i : Nat) (sc sc2 : SCOPE) (n : String)
    (v : VALUE) (m : String) (hi : data.get? i = some (some (.SCOPE sc)))
    (hvs : sc2.varstack = sc.varstack ++ [(n, v)]) (k : Nat)
    (hk : scope_below data k = some i) :
    bound_below (data.set i (some (.SCOPE sc2))) k m =
      (bound_below data k m || decide (strcmpi n.toList m.toList = 0)) := by
  induction k with
  | zero => cases hk
  | succ k ih =>
    by_cases hik : i = k
    · subst hik
      have hlen := get?_lt_length data i _ hi
      have hlow := bound_below_rel data (data.set i (some (.SCOPE sc2))) m i
        (same_shape_set data i _ i (Nat.le_refl _))
      simp only [bound_below, get?_set_self data i _ hlen, hi, hlow, hvs,
        find_in_scope_append_isSome]
      cases (find_in_scope sc.varstack m).isSome <;> cases bound_below data i m <;>
        cases decide (strcmpi n.toList m.toList = 0) <;> rfl
    · obtain ⟨hk2, hns⟩ := scope_below_succ_of_ne data k i hk hik
      have hget : (data.set i (some (.SCOPE sc2))).get? k = data.get? k :=
        get?_set_ne data i k _ hik
      have ih2 := ih hk2
      cases hx : data.get? k with
      | none => simp only [bound_below, hget, hx, ih2]
      | some o =>
        cases o with
        | none => simp only [bound_below, hget, hx, ih2]
        | some inst =>
          cases inst with
          | SCOPE s0 => exact absurd hx (hns s0)
          | _ => simp only [bound_below, hget, hx, ih2]

theorem named_append (st : List String) (n m : String) :
    named (st ++ [n]) m = (named st m || decide (strcmpi n.toList m.toList = 0)) := by
  unfold named
  simp [List.any_append]

/-- A binding appended to the first scope below slot `k` stands for one
store instruction executed above slot `k`. -/
theorem admits_absorb (data : List (Option INST)) (i : Nat) (sc sc2 : SCOPE) (n : String)
    (v : VALUE) (hi : data.get? i = some (some (.SCOPE sc)))
    (hvs : sc2.varstack = sc.varstack ++ [(n, v)])
    (hsz : sc2.varstack_size = sc.varstack_size)
    (hroom : sc.varstack.length < sc.varstack_size) (k : Nat) :
    ∀ (p : Nat) (st : List String) (ks : List Bool) (f : Nat),
      scope_below data k = some i →
      admits (data.set i (some (.SCOPE sc2))) k p st ks f =
        admits data k (p + 1) (st ++ [n]) ks f := by
  induction k with
  | zero => intro p st ks f hk; cases hk
  | succ k ih =>
    intro p st ks f hk
    by_cases hik : i = k
    · subst hik
      have hlen := get?_lt_length data i _ hi
      have hlow := admits_rel data (data.set i (some (.SCOPE sc2))) i
        (same_shape_set data i _ i (Nat.le_refl _))
      have hd : decide (p = 0 ∨ sc2.varstack.length + p ≤ sc2.varstack_size) =
          decide (p + 1 = 0 ∨ sc.varstack.length + (p + 1) ≤ sc.varstack_size) := by
        rw [hvs, hsz, List.length_append]
        apply decide_eq_decide.mpr
        simp only [List.length_singleton]
        omega
      simp only [admits, get?_set_self data i _ hlen, hi, hlow, SCOPE.varstack_top, hd]
    · obtain ⟨hk2, hns⟩ := scope_below_succ_of_ne data k i hk hik
      have hget : (data.set i (some (.SCOPE sc2))).get? k = data.get? k :=
        get?_set_ne data i k _ hik
      cases hx : data.get? k with
      | none => simp only [admits, hget, hx]
      | some o =>
        cases o with
        | none => simp only [admits, hget, hx]
        | some inst =>
          cases inst with
          | NOP => simp only [admits, hget, hx]; exact ih p st ks f hk2
          | COMMAND c => simp only [admits, hget, hx]
          | SCOPE s0 => exact absurd hx (hns s0)
          | LOAD_VAR m =>
            have hb : (named st m || bound_below (data.set i (some (.SCOPE sc2))) k m) =
                (named (st ++ [n]) m || bound_below data k m) := by
              rw [bound_below_set data i sc sc2 n v m hi hvs k hk2, named_append]
              cases named st m <;> cases bound_below data k m <;>
                cases decide (strcmpi n.toList m.toList = 0) <;> rfl
            simp only [admits, hget, hx, hb, ih _ _ _ _ hk2]
          | VALUE val => simp only [admits, hget, hx, ih _ _ _ _ hk2]
          | STORE_VAR m =>
            simp only [admits, hget, hx]
            cases ks with
            | nil => rfl
            | cons b ks =>
              cases b with
              | false => rfl
              | true => exact ih (p + 1) (m :: st) ks (f + 1) hk2
          | STORE_VAR_LOCAL m =>
            simp only [admits, hget, hx]
            cases ks with
            | nil => rfl
            | cons b ks =>
              cases b with
              | false => rfl
              | true => exact ih (p + 1) (m :: st) ks (f + 1) hk2

/-- A store that `admits` accepts above slot `k` has a scope with room below
slot `k`. -/
theorem admits_store_scope (data : List (Option INST)) (k : Nat) :
    ∀ (p : Nat) (st : List String) (ks : List Bool) (f : Nat),
      admits data k (p + 1) st ks f = true →
      ∃ i sc, scope_below data k = some i ∧ data.get? i = some (some (.SCOPE sc)) ∧
        sc.varstack.length + (p + 1) ≤ sc.varstack_size := by
  induction k with
  | zero => intro p st ks f h; simp [admits] at h
  | succ k ih =>
    intro p st ks f h
    cases hx : data.get? k with
    | none => simp only [admits, hx, Bool.false_eq_true] at h
    | some o =>
      cases o with
      | none => simp only [admits, hx, Bool.false_eq_true] at h
      | some inst =>
        cases inst with
        | NOP =>
          simp only [admits, hx] at h
          obtain ⟨i, sc, h1, h2, h3⟩ := ih _ _ _ _ h
          exact ⟨i, sc, by simp only [scope_below, hx, h1], h2, h3⟩
        | COMMAND c => simp only [admits, hx, Bool.false_eq_true] at h
        | SCOPE s0 =>
          simp only [admits, hx, Bool.and_eq_true, decide_eq_true_eq, SCOPE.varstack_top] at h
          exact ⟨k, s0, by simp only [scope_below, hx], hx, h.1.resolve_left (by omega)⟩
        | LOAD_VAR m =>
          simp only [admits, hx, Bool.and_eq_true] at h
          obtain ⟨i, sc, h1, h2, h3⟩ := ih _ _ _ _ h.2
          exact ⟨i, sc, by simp only [scope_below, hx, h1], h2, h3⟩
        | VALUE val =>
          simp only [admits, hx, Bool.and_eq_true] at h
          obtain ⟨i, sc, h1, h2, h3⟩ := ih _ _ _ _ h.2
          exact ⟨i, sc, by simp only [scope_below, hx, h1], h2, h3⟩
        | STORE_VAR m =>
          simp only [admits, hx] at h
          cases ks with
          | nil => cases h
          | cons b ks =>
            cases b with
            | false => cases h
            | true =>
              obtain ⟨i, sc, h1, h2, h3⟩ := ih _ _ _ _ h
              exact ⟨i, sc, by simp only [scope_below, hx, h1], h2, by omega⟩
        | STORE_VAR_LOCAL m =>
          simp only [admits, hx] at h
          cases ks with
          | nil => cases h
          | cons b ks =>
            cases b with
            | false => cases h
            | true =>
              obtain ⟨i, sc, h1, h2, h3⟩ := ih _ _ _ _ h
              exact ⟨i, sc, by simp only [scope_below, hx, h1], h2, by omega⟩

end SQFVM

namespace SQFVM

theorem find_in_scope_set_isSome (vars : List (String × VALUE)) (name m : String) (val : VALUE) :
    (find_in_scope (set_in_scope vars name val) m).isSome = (find_in_scope vars m).isSome := by
  induction vars with
  | nil => rfl
  | cons pr vars ih =>
    obtain ⟨a, b⟩ := pr
    simp only [set_in_scope]
    by_cases h1 : strcmpi a.toList name.toList = 0
    · rw [if_pos h1]
      simp only [find_in_scope]
      by_cases h2 : strcmpi a.toList m.toList = 0
      · rw [if_pos h2, if_pos h2]; rfl
      · rw [if_neg h2, if_neg h2]; exact ih
    · rw [if_neg h1]
      simp only [find_in_scope]
      by_cases h2 : strcmpi a.toList m.toList = 0
      · rw [if_pos h2, if_pos h2]
      · rw [if_neg h2, if_neg h2]; exact ih

theorem same_shape_refl (x : Option (Option INST)) : same_shape x x := Or.inl rfl

theorem same_shape_trans {x y z : Option (Option INST)} (h1 : same_shape x y)
    (h2 : same_shape y z) : same_shape x z := by
  rcases h1 with rfl | ⟨sc, sc2, hx, hy, a1, a2, a3⟩
  · exact h2
  · rcases h2 with rfl | ⟨sc3, sc4, hy2, hz, b1, b2, b3⟩
    · exact Or.inr ⟨sc, sc2, hx, hy, a1, a2, a3⟩
    · rw [hy] at hy2
      cases hy2
      exact Or.inr ⟨sc, sc4, hx, hz, b1.trans a1, b2.trans a2, fun m => (b3 m).trans (a3 m)⟩

theorem same_shape_live {x y : Option (Option INST)} (h : same_shape x y)
    (hx : ∃ inst, x = some (some inst)) : ∃ inst, y = some (some inst) := by
  rcases h with rfl | ⟨sc, sc2, _, hy, _, _, _⟩
  · exact hx
  · exact ⟨_, hy⟩

/-- What a turn of the loop of `set_var` makes of the call stack. -/
theorem set_var_turn_shape (data : List (Option INST)) (name : String) (val : VALUE) (i : Nat)
    (inst : INST) (hi : data.get? i = some (some inst)) (j : Nat) :
    same_shape (data.get? j)
      ((match inst with
        | .SCOPE scope =>
          data.set i (some (.SCOPE { scope with varstack := set_in_scope scope.varstack name val }))
        | _ => data).get? j) := by
  cases inst with
  | SCOPE scope =>
    by_cases hij : i = j
    · subst hij
      refine Or.inr ⟨scope, _, hi, get?_set_self data i _ (get?_lt_length data i _ hi), rfl,
        set_in_scope_length _ _ _, fun m => find_in_scope_set_isSome _ _ _ _⟩
    · exact Or.inl (get?_set_ne data i j _ hij).symm
  | _ => exact Or.inl rfl

/-- On a stack whose slots `0 .. k` hold instructions the loop of `set_var`
ends without an error; it leaves every slot with the same shape, and `first`
is the first scope from `k` downwards. -/
theorem set_varLoop_ok (name : String) (val : VALUE) (k : Nat) :
    ∀ (data : List (Option INST)) (first : Option Nat),
      (∀ i, i ≤ k → ∃ inst, data.get? i = some (some inst)) →
      ∃ data2 first2, set_varLoop name val k data first = .ok (data2, first2) ∧
        (∀ j, same_shape (data.get? j) (data2.get? j)) ∧
        first2 = (match first with
          | some f => some f
          | none => scope_below data (k + 1)) := by
  induction k with
  | zero =>
    intro data first h
    obtain ⟨inst, hi⟩ := h 0 (Nat.le_refl 0)
    unfold set_varLoop
    simp only [hi]
    refine ⟨_, _, rfl, fun j => set_var_turn_shape data name val 0 inst hi j, ?_⟩
    cases first with
    | some f => cases inst <;> simp
    | none => cases inst <;> simp only [scope_below, hi, ↓reduceIte]
  | succ k ih =>
    intro data first h
    obtain ⟨inst, hi⟩ := h (k + 1) (Nat.le_refl _)
    have hshape := fun j => set_var_turn_shape data name val (k + 1) inst hi j
    unfold set_varLoop
    simp only [hi]
    cases inst with
    | SCOPE scope =>
      obtain ⟨data3, first3, h1, h2, h3⟩ := ih
        (data.set (k + 1)
          (some (.SCOPE { scope with varstack := set_in_scope scope.varstack name val })))
        (if first = none then some (k + 1) else first)
        (fun i hik => same_shape_live (hshape i) (h i (Nat.le_succ_of_le hik)))
      refine ⟨data3, first3, h1, fun j => same_shape_trans (hshape j) (h2 j), ?_⟩
      rw [h3]
      cases first with
      | some f => simp only [reduceCtorEq, ↓reduceIte]
      | none => simp only [scope_below, hi, ↓reduceIte]
    | _ =>
      obtain ⟨data3, first3, h1, h2, h3⟩ := ih data first
        (fun i hik => h i (Nat.le_succ_of_le hik))
      refine ⟨data3, first3, h1, h2, ?_⟩
      rw [h3]
      cases first with
      | some f => rfl
      | none => simp only [scope_below, hi]

/-! ### The work stack -/

theorem work_kinds_succ (data : List (Option INST)) (t : Nat) (h : t < data.length) :
    work_kinds ⟨data, t + 1⟩ = is_value (data.getD t none) :: work_kinds ⟨data, t⟩ := by
  unfold work_kinds
  simp only [List.take_succ, List.getElem?_eq_getElem h, Option.toList_some,
    List.reverse_append, List.reverse_singleton, List.singleton_append, List.map_cons,
    List.getD_eq_getElem?_getD, Option.getD_some]

theorem work_kinds_set (data : List (Option INST)) (t : Nat) (x : Option INST) :
    work_kinds ⟨data.set t x, t⟩ = work_kinds ⟨data, t⟩ := by
  have h : (data.set t x).take t = data.take t :=
    List.ext_getElem? fun i => by
      rw [List.getElem?_take, List.getElem?_take]
      split
      · rw [List.getElem?_set_ne (by omega)]
      · rfl
  unfold work_kinds
  rw [h]

theorem work_kinds_push (data : List (Option INST)) (t : Nat) (inst : INST)
    (h : t < data.length) :
    work_kinds ⟨data.set t (some inst), t + 1⟩ = is_value (some inst) :: work_kinds ⟨data, t⟩ := by
  rw [work_kinds_succ _ _ (by simpa using h), work_kinds_set]
  simp [List.getD_eq_getElem?_getD, h]

/-- A work stack whose top entry is a value: `pop_stack` returns it. -/
theorem work_kinds_pop (data : List (Option INST)) (t : Nat) (rest : List Bool)
    (hle : t ≤ data.length) (h : work_kinds ⟨data, t⟩ = true :: rest) :
    ∃ v, pop_stack ⟨data, t⟩ = .ok (.VALUE v, ⟨data, t - 1⟩) ∧
      work_kinds ⟨data, t - 1⟩ = rest ∧ 0 < t := by
  cases t with
  | zero => simp [work_kinds] at h
  | succ t =>
    rw [work_kinds_succ data t (by omega)] at h
    simp only [List.cons.injEq] at h
    obtain ⟨h1, h2⟩ := h
    cases hx : data.getD t none with
    | none => rw [hx] at h1; simp [is_value] at h1
    | some inst =>
      cases inst with
      | VALUE v =>
        refine ⟨v, ?_, h2, Nat.succ_pos _⟩
        unfold pop_stack
        simp only [Nat.add_sub_cancel, hx]
        rfl
      | _ => rw [hx] at h1; simp [is_value] at h1

end SQFVM

namespace SQFVM

/-! ### One turn of `execute` on stacks that `admits` accepts -/

/-- A store above slot `k` that `admits` accepts: `store_in_scope` appends
the binding to the first scope below slot `k`, and `admits` accepts the call
stack that results. -/
theorem store_admitted (data : List (Option INST)) (k : Nat) (w : STACK) (n : String)
    (val : VALUE) (rest : List Bool) (f : Nat) (hA : admits data k 1 [n] rest f = true) :
    ∃ data2, store_in_scope_at ⟨⟨data, k⟩, w⟩ (scope_below data k) n val = .ok ⟨⟨data2, k⟩, w⟩ ∧
      admits data2 k 0 [] rest f = true := by
  obtain ⟨i, sc, hsb, hget, hroom⟩ := admits_store_scope data k 0 [n] rest f hA
  have hr : ¬ sc.varstack_top ≥ sc.varstack_size := by
    unfold SCOPE.varstack_top; omega
  refine ⟨data.set i (some (.SCOPE { sc with varstack := sc.varstack ++ [(n, val)] })), ?_, ?_⟩
  · unfold store_in_scope_at
    rw [hsb]
    simp only [hget, store_in_scope, if_neg hr]
  · rw [admits_absorb data i sc { sc with varstack := sc.varstack ++ [(n, val)] } n val hget rfl
      rfl (by omega) k 0 [] rest f hsb]
    exact hA

theorem scope_below_skip (data : List (Option INST)) (k : Nat) (inst : INST)
    (hx : data.get? k = some (some inst)) (hn : notScope inst) :
    scope_below data (k + 1) = scope_below data k := by
  simp only [scope_below, hx]
  cases inst <;> first | rfl | exact absurd hn (by simp [notScope])

theorem bound_below_skip (data : List (Option INST)) (k : Nat) (inst : INST) (m : String)
    (hx : data.get? k = some (some inst)) (hn : notScope inst) :
    bound_below data (k + 1) m = bound_below data k m := by
  simp only [bound_below, hx]
  cases inst <;> first | rfl | exact absurd hn (by simp [notScope])

/-- The call of `set_var` of a store above slot `k` that `admits` accepts. -/
theorem set_var_admitted (data : List (Option INST)) (k : Nat) (w : STACK) (n : String)
    (val : VALUE) (rest : List Bool) (f : Nat) (inst : INST)
    (hx : data.get? k = some (some inst)) (hn : notScope inst)
    (hlive : ∀ j, j ≤ k → ∃ inst, data.get? j = some (some inst))
    (hA : admits data k 1 [n] rest f = true) :
    ∃ data2, set_var ⟨⟨data, k⟩, w⟩ n val = .ok ⟨⟨data2, k⟩, w⟩ ∧
      admits data2 k 0 [] rest f = true := by
  obtain ⟨data1, first, h1, h2, h3⟩ := set_varLoop_ok n val k data none hlive
  simp only at h3
  rw [scope_below_skip data k inst hx hn,
    ← scope_below_rel data data1 k (fun j _ => h2 j)] at h3
  have hA1 : admits data1 k 1 [n] rest f = true := by
    rw [admits_rel data data1 k (fun j _ => h2 j)]
    exact hA
  obtain ⟨data2, h4, h5⟩ := store_admitted data1 k w n val rest f hA1
  refine ⟨data2, ?_, h5⟩
  unfold set_var
  simp only [h1, h3]
  exact h4

theorem runnable_iff (vm : VM) :
    runnable vm = true ↔ vm.work.top ≤ vm.work.data.length ∧
      admits vm.stack.data vm.stack.top 0 [] (work_kinds vm.work)
        (vm.work.data.length - vm.work.top) = true := by
  unfold runnable STACK.size
  simp only [Bool.and_eq_true, decide_eq_true_eq]

/-- A push on a work stack with a free slot. -/
theorem push_admitted (wdata : List (Option INST)) (wtop : Nat) (inst : INST)
    (hle : wtop ≤ wdata.length) (hfree : 0 < wdata.length - wtop) :
    ∃ work, push_stack ⟨wdata, wtop⟩ inst = .ok work ∧ work.top ≤ work.data.length ∧
      work_kinds work = is_value (some inst) :: work_kinds ⟨wdata, wtop⟩ ∧
      work.data.length - work.top = wdata.length - wtop - 1 := by
  have hlt : wtop < wdata.length := by omega
  refine ⟨⟨wdata.set wtop (some inst), wtop + 1⟩, ?_, ?_, work_kinds_push wdata wtop inst hlt, ?_⟩
  · unfold push_stack STACK.size
    rw [if_neg (by simp only [ge_iff_le, not_le]; exact hlt)]
  · simp only [List.length_set]; omega
  · simp only [List.length_set]; omega

/-- One turn of `execute` on stacks that pass the check `runnable`: the turn
does not fail, it pops one instruction, and the stacks it leaves pass the check
again. -/
theorem execute_step_runnable (callback : String → VM → Except String VM) (vm : VM)
    (hpos : 0 < vm.stack.top) (h : runnable vm = true) :
    ∃ vm1, execute_step callback vm = .ok vm1 ∧ vm1.stack.top = vm.stack.top - 1 ∧
      runnable vm1 = true := by
  obtain ⟨⟨data, top⟩, ⟨wdata, wtop⟩⟩ := vm
  simp only at hpos
  obtain ⟨k, rfl⟩ : ∃ k, top = k + 1 := ⟨top - 1, by omega⟩
  rw [runnable_iff] at h
  simp only at h
  obtain ⟨hle, hA⟩ := h
  have hlive := admits_live data (k + 1) _ _ _ _ hA
  obtain ⟨inst, hx⟩ := hlive k (Nat.lt_succ_self _)
  have hlive2 : ∀ j, j ≤ k → ∃ inst, data.get? j = some (some inst) :=
    fun j hj => hlive j (Nat.lt_succ_of_le hj)
  have hpop : pop_stack ⟨data, k + 1⟩ = .ok (inst, ⟨data, k⟩) := by
    unfold pop_stack
    simp only [Nat.add_sub_cancel, getD_of_get? _ _ _ hx]
    rfl
  unfold execute_step
  simp only [hpop, Nat.add_sub_cancel]
  cases inst with
  | NOP =>
    simp only [admits, hx] at hA
    exact ⟨_, rfl, rfl, (runnable_iff _).2 ⟨hle, hA⟩⟩
  | COMMAND c => simp only [admits, hx, Bool.false_eq_true] at hA
  | SCOPE scope =>
    simp only [admits, hx, Bool.and_eq_true] at hA
    exact ⟨_, rfl, rfl, (runnable_iff _).2 ⟨hle, hA.2⟩⟩
  | VALUE v =>
    simp only [admits, hx, Bool.and_eq_true, decide_eq_true_eq] at hA
    obtain ⟨work, h1, h2, h3, h4⟩ := push_admitted wdata wtop (.VALUE v) hle hA.1
    simp only [h1]
    refine ⟨_, rfl, rfl, (runnable_iff _).2 ⟨h2, ?_⟩⟩
    simp only
    rw [h3, h4]
    exact hA.2
  | LOAD_VAR n =>
    simp only [admits, hx, Bool.and_eq_true, decide_eq_true_eq] at hA
    obtain ⟨r, hr1, hr2⟩ := find_varLoop_bound data n k hlive2
    rw [bound_below_skip data k _ n hx trivial] at hr2
    have hfind : find_var ⟨⟨data, k⟩, ⟨wdata, wtop⟩⟩ n = .ok r := hr1
    have hkind : (named [] n || bound_below data k n) = r.isSome := by
      rw [← hr2]; rfl
    rw [hkind] at hA
    simp only [hfind]
    cases r with
    | none =>
      obtain ⟨work, h1, h2, h3, h4⟩ := push_admitted wdata wtop .NOP hle hA.1
      simp only [h1]
      refine ⟨_, rfl, rfl, (runnable_iff _).2 ⟨h2, ?_⟩⟩
      simp only
      rw [h3, h4]
      exact hA.2
    | some v =>
      obtain ⟨work, h1, h2, h3, h4⟩ := push_admitted wdata wtop (.VALUE ⟨v.type, v.val⟩) hle hA.1
      simp only [h1]
      refine ⟨_, rfl, rfl, (runnable_iff _).2 ⟨h2, ?_⟩⟩
      simp only
      rw [h3, h4]
      exact hA.2
  | STORE_VAR n =>
    simp only [admits, hx] at hA
    cases hks : work_kinds ⟨wdata, wtop⟩ with
    | nil => rw [hks] at hA; cases hA
    | cons b rest =>
      cases b with
      | false => rw [hks] at hA; cases hA
      | true =>
        rw [hks] at hA
        simp only at hA
        obtain ⟨v, hp1, hp2, hp3⟩ := work_kinds_pop wdata wtop rest hle hks
        have hfree : wdata.length - wtop + 1 = wdata.length - (wtop - 1) := by omega
        rw [hfree] at hA
        obtain ⟨r, hr1, _⟩ := find_varLoop_bound data n k hlive2
        have hfind : find_var ⟨⟨data, k⟩, ⟨wdata, wtop⟩⟩ n = .ok r := hr1
        simp only [hfind, hp1, get_value]
        cases r with
        | none =>
          have hts : top_scope ⟨⟨data, k⟩, ⟨wdata, wtop - 1⟩⟩ = .ok (scope_below data k) := by
            unfold top_scope
            simp only
            rw [top_scopeLoop_eq data k hlive2, scope_below_skip data k _ hx trivial]
          obtain ⟨data2, h1, h2⟩ := store_admitted data k ⟨wdata, wtop - 1⟩ n ⟨v.type, v.val⟩
            rest _ hA
          simp only [hts, h1]
          refine ⟨_, rfl, rfl, (runnable_iff _).2 ⟨by simp only; omega, ?_⟩⟩
          simp only
          rw [hp2]
          exact h2
        | some found =>
          obtain ⟨data2, h1, h2⟩ := set_var_admitted data k ⟨wdata, wtop - 1⟩ n ⟨v.type, v.val⟩
            rest _ _ hx trivial hlive2 hA
          simp only [h1]
          refine ⟨_, rfl, rfl, (runnable_iff _).2 ⟨by simp only; omega, ?_⟩⟩
          simp only
          rw [hp2]
          exact h2
  | STORE_VAR_LOCAL n =>
    simp only [admits, hx] at hA
    cases hks : work_kinds ⟨wdata, wtop⟩ with
    | nil => rw [hks] at hA; cases hA
    | cons b rest =>
      cases b with
      | false => rw [hks] at hA; cases hA
      | true =>
        rw [hks] at hA
        simp only at hA
        obtain ⟨v, hp1, hp2, hp3⟩ := work_kinds_pop wdata wtop rest hle hks
        have hfree : wdata.length - wtop + 1 = wdata.length - (wtop - 1) := by omega
        rw [hfree] at hA
        have hts : top_scope ⟨⟨data, k⟩, ⟨wdata, wtop⟩⟩ = .ok (scope_below data k) := by
          unfold top_scope
          simp only
          rw [top_scopeLoop_eq data k hlive2, scope_below_skip data k _ hx trivial]
        obtain ⟨data2, h1, h2⟩ := store_admitted data k ⟨wdata, wtop - 1⟩ n ⟨v.type, v.val⟩
          rest _ hA
        simp only [hts, hp1, get_value, h1]
        refine ⟨_, rfl, rfl, (runnable_iff _).2 ⟨by simp only; omega, ?_⟩⟩
        simp only
        rw [hp2]
        exact h2

/-- The loop of `execute` on stacks that pass the check `runnable`: it
returns after exactly `top` turns, with an empty call stack. -/
theorem execute_of_runnable (callback : String → VM → Except String VM) (fuel : Nat) :
    ∀ vm : VM, vm.stack.top ≤ fuel → runnable vm = true →
      ∃ vm2, execute callback fuel vm = some (.returned vm2 vm.stack.top) ∧
        vm2.stack.top = 0 := by
  induction fuel with
  | zero =>
    intro vm hle _
    have h0 : vm.stack.top = 0 := Nat.le_zero.mp hle
    refine ⟨vm, ?_, h0⟩
    simp only [execute, h0, gt_iff_lt, Nat.lt_irrefl, if_false]
  | succ fuel ih =>
    intro vm hle hrun
    by_cases hpos : vm.stack.top > 0
    · obtain ⟨vm1, hstep, htop, hrun1⟩ := execute_step_runnable callback vm hpos hrun
      obtain ⟨vm2, hv, hz⟩ := ih vm1 (by omega) hrun1
      refine ⟨vm2, ?_, hz⟩
      simp only [execute, if_pos hpos, hstep, hv, htop]
      congr 2
      omega
    · have h0 : vm.stack.top = 0 := by omega
      refine ⟨vm, ?_, h0⟩
      simp only [execute, if_neg hpos, h0]
      rfl

end SQFVM

namespace SQFVM

/-! ### The check `runnable` is exact -/

theorem pop_stack_inv (stack st : STACK) (inst : INST) (h : pop_stack stack = .ok (inst, st)) :
    0 < stack.top ∧ stack.data.get? (stack.top - 1) = some (some inst) ∧
      st = ⟨stack.data, stack.top - 1⟩ := by
  unfold pop_stack at h
  split at h
  · cases h
  · rename_i h0
    split at h
    · cases h
    · rename_i inst2 hget
      simp only [Except.ok.injEq, Prod.mk.injEq] at h
      obtain ⟨h1, h2⟩ := h
      subst h1
      exact ⟨Nat.pos_of_ne_zero h0, get?_of_getD _ _ _ hget, h2.symm⟩

theorem push_stack_inv (w w2 : STACK) (inst : INST) (h : push_stack w inst = .ok w2) :
    w.top < w.data.length ∧ w2 = ⟨w.data.set w.top (some inst), w.top + 1⟩ := by
  unfold push_stack STACK.size at h
  split at h
  · cases h
  · rename_i h0
    cases h
    exact ⟨by omega, rfl⟩

theorem get_value_inv (inst : INST) (v : VALUE) (h : get_value inst = .ok v) :
    inst = .VALUE v := by
  cases inst with
  | VALUE v2 => simp only [get_value, Except.ok.injEq] at h; rw [h]
  | _ => cases h

theorem top_scopeLoop_inv (data : List (Option INST)) (k : Nat) (r : Option Nat)
    (h : top_scopeLoop data k = .ok r) : r = scope_below data (k + 1) := by
  induction k with
  | zero =>
    unfold top_scopeLoop top_scopeAt at h
    cases hx : data.get? 0 with
    | none => rw [hx] at h; cases h
    | some o =>
      cases o with
      | none => rw [hx] at h; cases h
      | some inst =>
        rw [hx] at h
        cases inst <;> simp only [Except.ok.injEq] at h <;> rw [← h] <;>
          simp only [scope_below, hx]
  | succ k ih =>
    unfold top_scopeLoop top_scopeAt at h
    cases hx : data.get? (k + 1) with
    | none => rw [hx] at h; cases h
    | some o =>
      cases o with
      | none => rw [hx] at h; cases h
      | some inst =>
        rw [hx] at h
        cases inst with
        | SCOPE s =>
          simp only [Except.ok.injEq] at h
          rw [← h]
          simp only [scope_below, hx]
        | _ =>
          simp only at h
          rw [ih h]
          simp only [scope_below, hx]

theorem find_varLoop_inv (data : List (Option INST)) (name : String) (k : Nat)
    (r : Option VALUE) (h : find_varLoop data name k = .ok r) :
    r.isSome = bound_below data (k + 1) name := by
  induction k generalizing r with
  | zero =>
    unfold find_varLoop find_varAt at h
    cases hx : data.get? 0 with
    | none => rw [hx] at h; cases h
    | some o =>
      cases o with
      | none => rw [hx] at h; cases h
      | some inst =>
        rw [hx] at h
        cases inst with
        | SCOPE s =>
          simp only at h
          cases hf : find_in_scope s.varstack name with
          | none =>
            rw [hf] at h
            simp only [Except.ok.injEq] at h
            rw [← h]
            simp only [bound_below, hx, hf]
            rfl
          | some v =>
            rw [hf] at h
            simp only [Except.ok.injEq] at h
            rw [← h]
            simp only [bound_below, hx, hf]
            rfl
        | _ =>
          simp only [Except.ok.injEq] at h
          rw [← h]
          simp only [bound_below, hx]
          rfl
  | succ k ih =>
    unfold find_varLoop find_varAt at h
    cases hx : data.get? (k + 1) with
    | none => rw [hx] at h; cases h
    | some o =>
      cases o with
      | none => rw [hx] at h; cases h
      | some inst =>
        rw [hx] at h
        cases inst with
        | SCOPE s =>
          simp only at h
          cases hf : find_in_scope s.varstack name with
          | none =>
            rw [hf] at h
            simp only at h
            rw [ih r h]
            simp only [bound_below, hx, hf]
            rfl
          | some v =>
            rw [hf] at h
            simp only [Except.ok.injEq] at h
            rw [← h]
            simp only [bound_below, hx, hf]
            rfl
        | _ =>
          simp only at h
          rw [ih r h]
          simp only [bound_below, hx]

theorem store_in_scope_at_inv (data : List (Option INST)) (k : Nat) (w : STACK)
    (scope : Option Nat) (n : String) (val : VALUE) (vm2 : VM)
    (h : store_in_scope_at ⟨⟨data, k⟩, w⟩ scope n val = .ok vm2) :
    ∃ i s, scope = some i ∧ data.get? i = some (some (.SCOPE s)) ∧
      s.varstack.length < s.varstack_size ∧
      vm2 = ⟨⟨data.set i (some (.SCOPE { s with varstack := s.varstack ++ [(n, val)] })), k⟩, w⟩ := by
  unfold store_in_scope_at at h
  split at h
  · cases h
  · rename_i i
    split at h
    · rename_i s hs
      unfold store_in_scope SCOPE.varstack_top at h
      split at h
      · rename_i sc2 hst
        split at hst
        · cases hst
        · rename_i hroom
          cases hst
          cases h
          exact ⟨i, s, rfl, hs, by omega, rfl⟩
      · cases h
    · cases h

/-- What the loop of `set_var` leaves when it ends without an error. -/
theorem set_varLoop_inv (name : String) (val : VALUE) (k : Nat) :
    ∀ (data : List (Option INST)) (first : Option Nat) (data2 : List (Option INST))
      (first2 : Option Nat), set_varLoop name val k data first = .ok (data2, first2) →
      (∀ j, same_shape (data.get? j) (data2.get? j)) ∧
        first2 = (match first with
          | some f => some f
          | none => scope_below data (k + 1)) := by
  induction k with
  | zero =>
    intro data first data2 first2 h
    unfold set_varLoop at h
    split at h
    · cases h
    · cases h
    · rename_i inst hi
      simp only [Except.ok.injEq, Prod.mk.injEq] at h
      obtain ⟨h1, h2⟩ := h
      subst h1
      subst h2
      refine ⟨fun j => set_var_turn_shape data name val 0 inst hi j, ?_⟩
      cases first with
      | some f => cases inst <;> simp
      | none => cases inst <;> simp only [scope_below, hi, ↓reduceIte]
  | succ k ih =>
    intro data first data2 first2 h
    unfold set_varLoop at h
    split at h
    · cases h
    · cases h
    · rename_i inst hi
      have hshape := fun j => set_var_turn_shape data name val (k + 1) inst hi j
      cases inst with
      | SCOPE scope =>
        obtain ⟨h2, h3⟩ := ih _ _ _ _ h
        refine ⟨fun j => same_shape_trans (hshape j) (h2 j), ?_⟩
        rw [h3]
        cases first with
        | some f => simp only [reduceCtorEq, ↓reduceIte]
        | none => simp only [scope_below, hi, ↓reduceIte]
      | _ =>
        obtain ⟨h2, h3⟩ := ih _ _ _ _ h
        refine ⟨h2, ?_⟩
        rw [h3]
        cases first with
        | some f => rfl
        | none => simp only [scope_below, hi]

/-- A store that ended without an error, seen from the stacks it leaves:
when `admits` accepts the call stack with the new binding, it accepts the call
stack before the store with the store pending. -/
theorem store_absorbed (data : List (Option INST)) (k : Nat) (w : STACK) (n : String)
    (val : VALUE) (vm2 : VM)
    (h : store_in_scope_at ⟨⟨data, k⟩, w⟩ (scope_below data k) n val = .ok vm2)
    (hA : admits vm2.stack.data vm2.stack.top 0 [] (work_kinds vm2.work)
      (vm2.work.data.length - vm2.work.top) = true) :
    admits data k 1 [n] (work_kinds w) (w.data.length - w.top) = true := by
  obtain ⟨i, s, hsb, hget, hroom, rfl⟩ := store_in_scope_at_inv data k w _ n val vm2 h
  simp only at hA
  rw [admits_absorb data i s { s with varstack := s.varstack ++ [(n, val)] } n val hget rfl
    rfl hroom k 0 [] _ _ hsb] at hA
  exact hA

theorem set_var_absorbed (data : List (Option INST)) (k : Nat) (w : STACK) (n : String)
    (val : VALUE) (vm2 : VM) (inst : INST)
    (hx : data.get? k = some (some inst)) (hn : notScope inst)
    (h : set_var ⟨⟨data, k⟩, w⟩ n val = .ok vm2)
    (hA : admits vm2.stack.data vm2.stack.top 0 [] (work_kinds vm2.work)
      (vm2.work.data.length - vm2.work.top) = true) :
    admits data k 1 [n] (work_kinds w) (w.data.length - w.top) = true := by
  unfold set_var at h
  split at h
  · cases h
  · rename_i data1 first hloop
    obtain ⟨h2, h3⟩ := set_varLoop_inv n val k data none data1 first hloop
    simp only at h3
    rw [scope_below_skip data k inst hx hn,
      ← scope_below_rel data data1 k (fun j _ => h2 j)] at h3
    rw [h3] at h
    have h4 := store_absorbed data1 k w n val vm2 h hA
    rw [admits_rel data data1 k (fun j _ => h2 j)] at h4
    exact h4

/-- A work stack from which a value was popped. -/
theorem work_kinds_popped (wdata : List (Option INST)) (wtop : Nat) (w2 : STACK) (inst2 : INST)
    (v : VALUE)
    (hp : pop_stack ⟨wdata, wtop⟩ = .ok (inst2, w2)) (hv : get_value inst2 = .ok v) :
    0 < wtop ∧ wtop ≤ wdata.length ∧ w2 = ⟨wdata, wtop - 1⟩ ∧
      work_kinds ⟨wdata, wtop⟩ = true :: work_kinds ⟨wdata, wtop - 1⟩ := by
  obtain ⟨h1, h2, h3⟩ := pop_stack_inv _ _ _ hp
  simp only at h1 h2 h3
  have hi := get_value_inv inst2 v hv
  subst hi
  have hlt := get?_lt_length _ _ _ h2
  refine ⟨h1, by omega, h3, ?_⟩
  obtain ⟨t, rfl⟩ : ∃ t, wtop = t + 1 := ⟨wtop - 1, by omega⟩
  simp only [Nat.add_sub_cancel] at h2 ⊢
  rw [work_kinds_succ wdata t (by simpa using hlt), getD_of_get? _ _ _ h2]
  rfl

/-- One turn of `execute` that pops an instruction other than a command and
does not fail: when `admits` accepts the stacks it leaves, it accepts the
stacks before the turn. -/
theorem admits_of_step (callback : String → VM → Except String VM) (vm vm1 : VM)
    (hcmd : ∀ c, vm.stack.data.get? (vm.stack.top - 1) ≠ some (some (.COMMAND c)))
    (hstep : execute_step callback vm = .ok vm1)
    (hrun : admits vm1.stack.data vm1.stack.top 0 [] (work_kinds vm1.work)
      (vm1.work.data.length - vm1.work.top) = true) :
    admits vm.stack.data vm.stack.top 0 [] (work_kinds vm.work)
      (vm.work.data.length - vm.work.top) = true := by
  obtain ⟨⟨data, top⟩, ⟨wdata, wtop⟩⟩ := vm
  simp only at hcmd
  simp only
  unfold execute_step at hstep
  cases hp : pop_stack ⟨data, top⟩ with
  | error e => rw [hp] at hstep; cases hstep
  | ok res =>
    obtain ⟨inst, st⟩ := res
    obtain ⟨hpos, hx, rfl⟩ := pop_stack_inv _ _ _ hp
    simp only at hpos hx
    obtain ⟨k, rfl⟩ : ∃ k, top = k + 1 := ⟨top - 1, by omega⟩
    simp only [Nat.add_sub_cancel] at hx hcmd
    simp only [hp, Nat.add_sub_cancel] at hstep
    cases inst with
    | NOP =>
      cases hstep
      simp only [admits, hx]
      exact hrun
    | COMMAND c => exact absurd hx (hcmd c)
    | SCOPE scope =>
      cases hstep
      simp only [admits, hx, true_or, decide_True, Bool.true_and]
      exact hrun
    | VALUE v =>
      cases hpush : push_stack ⟨wdata, wtop⟩ (.VALUE v) with
      | error e => simp only [hpush] at hstep; cases hstep
      | ok work =>
        simp only [hpush] at hstep
        cases hstep
        obtain ⟨h1, rfl⟩ := push_stack_inv _ _ _ hpush
        simp only at h1 hrun
        have hA := hrun
        rw [work_kinds_push wdata wtop _ h1, List.length_set] at hA
        simp only [admits, hx, Bool.and_eq_true, decide_eq_true_eq]
        refine ⟨by omega, ?_⟩
        rw [show wdata.length - wtop - 1 = wdata.length - (wtop + 1) by omega]
        exact hA
    | LOAD_VAR n =>
      cases hf : find_var ⟨⟨data, k⟩, ⟨wdata, wtop⟩⟩ n with
      | error e => simp only [hf] at hstep; cases hstep
      | ok r =>
        simp only [hf] at hstep
        have hr := find_varLoop_inv data n k r hf
        rw [bound_below_skip data k _ n hx trivial] at hr
        have hkind : (named [] n || bound_below data k n) = r.isSome := by
          rw [hr]; rfl
        simp only [admits, hx, Bool.and_eq_true, decide_eq_true_eq, hkind]
        cases r with
        | none =>
          simp only at hstep
          cases hpush : push_stack ⟨wdata, wtop⟩ .NOP with
          | error e => simp only [hpush] at hstep; cases hstep
          | ok work =>
            simp only [hpush] at hstep
            cases hstep
            obtain ⟨h1, rfl⟩ := push_stack_inv _ _ _ hpush
            simp only at h1 hrun
            have hA := hrun
            rw [work_kinds_push wdata wtop _ h1, List.length_set] at hA
            refine ⟨by omega, ?_⟩
            rw [show wdata.length - wtop - 1 = wdata.length - (wtop + 1) by omega]
            exact hA
        | some v =>
          simp only at hstep
          cases hpush : push_stack ⟨wdata, wtop⟩ (.VALUE ⟨v.type, v.val⟩) with
          | error e => simp only [hpush] at hstep; cases hstep
          | ok work =>
            simp only [hpush] at hstep
            cases hstep
            obtain ⟨h1, rfl⟩ := push_stack_inv _ _ _ hpush
            simp only at h1 hrun
            have hA := hrun
            rw [work_kinds_push wdata wtop _ h1, List.length_set] at hA
            refine ⟨by omega, ?_⟩
            rw [show wdata.length - wtop - 1 = wdata.length - (wtop + 1) by omega]
            exact hA
    | STORE_VAR n =>
      cases hf : find_var ⟨⟨data, k⟩, ⟨wdata, wtop⟩⟩ n with
      | error e => simp only [hf] at hstep; cases hstep
      | ok found =>
        simp only [hf] at hstep
        cases hpw : pop_stack ⟨wdata, wtop⟩ with
        | error e => simp only [hpw] at hstep; cases hstep
        | ok res2 =>
          obtain ⟨inst2, w2⟩ := res2
          simp only [hpw] at hstep
          cases found with
          | none =>
            simp only at hstep
            cases hts : top_scope ⟨⟨data, k⟩, w2⟩ with
            | error e => simp only [hts] at hstep; cases hstep
            | ok scope =>
              simp only [hts] at hstep
              cases hv : get_value inst2 with
              | error e => simp only [hv] at hstep; cases hstep
              | ok v =>
                simp only [hv] at hstep
                obtain ⟨h1, hw, rfl, h3⟩ := work_kinds_popped wdata wtop w2 inst2 v hpw hv
                have hsc : scope = scope_below data k := by
                  rw [top_scopeLoop_inv data k scope hts, scope_below_skip data k _ hx trivial]
                rw [hsc] at hstep
                have hA := store_absorbed data k ⟨wdata, wtop - 1⟩ n ⟨v.type, v.val⟩ vm1 hstep
                  hrun
                simp only at hA
                simp only [admits, hx, h3]
                rw [show wdata.length - wtop + 1 = wdata.length - (wtop - 1) by omega]
                exact hA
          | some fv =>
            simp only at hstep
            cases hv : get_value inst2 with
            | error e => simp only [hv] at hstep; cases hstep
            | ok v =>
              simp only [hv] at hstep
              obtain ⟨h1, hw, rfl, h3⟩ := work_kinds_popped wdata wtop w2 inst2 v hpw hv
              have hA := set_var_absorbed data k ⟨wdata, wtop - 1⟩ n ⟨v.type, v.val⟩ vm1 _ hx
                trivial hstep hrun
              simp only at hA
              simp only [admits, hx, h3]
              rw [show wdata.length - wtop + 1 = wdata.length - (wtop - 1) by omega]
              exact hA
    | STORE_VAR_LOCAL n =>
      cases hts : top_scope ⟨⟨data, k⟩, ⟨wdata, wtop⟩⟩ with
      | error e => simp only [hts] at hstep; cases hstep
      | ok scope =>
        simp only [hts] at hstep
        cases hpw : pop_stack ⟨wdata, wtop⟩ with
        | error e => simp only [hpw] at hstep; cases hstep
        | ok res2 =>
          obtain ⟨inst2, w2⟩ := res2
          simp only [hpw] at hstep
          cases hv : get_value inst2 with
          | error e => simp only [hv] at hstep; cases hstep
          | ok v =>
            simp only [hv] at hstep
            obtain ⟨h1, hw, rfl, h3⟩ := work_kinds_popped wdata wtop w2 inst2 v hpw hv
            have hsc : scope = scope_below data k := by
              rw [top_scopeLoop_inv data k scope hts, scope_below_skip data k _ hx trivial]
            rw [hsc] at hstep
            have hA := store_absorbed data k ⟨wdata, wtop - 1⟩ n ⟨v.type, v.val⟩ vm1 hstep
              hrun
            simp only at hA
            simp only [admits, hx, h3]
            rw [show wdata.length - wtop + 1 = wdata.length - (wtop - 1) by omega]
            exact hA

/-- A run of `execute` on a call stack without commands that returns:
`admits` accepts the stacks it started from. -/
theorem admits_of_returned (callback : String → VM → Except String VM) (fuel : Nat) :
    ∀ (vm vm2 : VM) (n : Nat),
      (∀ i, i < vm.stack.top → ∀ cmd, vm.stack.data.get? i ≠ some (some (.COMMAND cmd))) →
      execute callback fuel vm = some (.returned vm2 n) →
      admits vm.stack.data vm.stack.top 0 [] (work_kinds vm.work)
        (vm.work.data.length - vm.work.top) = true := by
  induction fuel with
  | zero =>
    intro vm vm2 n _ h
    by_cases hpos : vm.stack.top > 0
    · simp only [execute, if_pos hpos] at h
      cases h
    · have h0 : vm.stack.top = 0 := by omega
      rw [h0]
      rfl
  | succ fuel ih =>
    intro vm vm2 n hno h
    by_cases hpos : vm.stack.top > 0
    · simp only [execute, if_pos hpos] at h
      cases hstep : execute_step callback vm with
      | error e => rw [hstep] at h; cases h
      | ok vm1 =>
        rw [hstep] at h
        simp only at h
        obtain ⟨htop, hkeep⟩ := execute_step_stack callback vm vm1
          (hno (vm.stack.top - 1) (by omega)) hstep
        have hno1 : ∀ i, i < vm1.stack.top → ∀ cmd,
            vm1.stack.data.get? i ≠ some (some (.COMMAND cmd)) := by
          intro i hi cmd hget
          exact hno i (by omega) cmd (hkeep i cmd hget)
        cases hrest : execute callback fuel vm1 with
        | none => rw [hrest] at h; cases h
        | some out =>
          cases out with
          | failed e => rw [hrest] at h; cases h
          | returned vm3 t =>
            exact admits_of_step callback vm vm1 (hno (vm.stack.top - 1) (by omega)) hstep
              (ih vm1 vm3 t hno1 hrest)
    · have h0 : vm.stack.top = 0 := by omega
      rw [h0]
      rfl

/-- C15 (as amended). On a call stack that holds no `INST_COMMAND`, with a
work stack whose `top` is within its array, `execute` returns after popping
exactly as many instructions as the call stack held, and the call stack is
empty then, exactly when the stacks pass the check `runnable`: the content of
the call stack has no null slot, every store instruction has a scope below it,
every scope has room for the bindings of the store instructions between it and
the next scope above, the work stack has a free slot for every push, and every
store instruction finds a value on top of the work stack when it is executed
(a value of the work stack as given, one pushed by `INST_VALUE`, or one pushed
by `INST_LOAD_VAR` for a name that a scope below binds by then). -/
theorem execute_without_commands (callback : String → VM → Except String VM) (vm : VM)
    (fuel : Nat) (hfuel : vm.stack.top ≤ fuel) (hno : noCommands vm.stack = true)
    (hw : vm.work.top ≤ vm.work.size) :
    (∃ vm2, execute callback fuel vm = some (.returned vm2 vm.stack.top) ∧
        vm2.stack.top = 0) ↔ runnable vm = true := by
  constructor
  · rintro ⟨vm2, h, _⟩
    exact (runnable_iff vm).2 ⟨hw,
      admits_of_returned callback fuel vm vm2 _ (noCommands_get? vm.stack hno) h⟩
  · intro h
    exact execute_of_runnable callback fuel vm hfuel h

/-- C15 on a call stack with a scope, a store whose value is loaded from the
variable that the store above it binds, and that store: the stacks pass the
check, and `execute` returns after four turns with an empty call stack. -/
theorem execute_without_commands_witness :
    ∃ vm2, execute (fun _ vm => .ok vm) 4
        (VM.mk ⟨[some (.SCOPE ⟨2, []⟩), some (.STORE_VAR "_y"), some (.LOAD_VAR "_X"),
            some (.STORE_VAR_LOCAL "_x")], 4⟩
          ⟨[some (.VALUE ⟨"SCALAR", 2⟩)], 1⟩) = some (.returned vm2 4) ∧
      vm2.stack.top = 0 :=
  (execute_without_commands (fun _ vm => .ok vm)
    (VM.mk ⟨[some (.SCOPE ⟨2, []⟩), some (.STORE_VAR "_y"), some (.LOAD_VAR "_X"),
        some (.STORE_VAR_LOCAL "_x")], 4⟩
      ⟨[some (.VALUE ⟨"SCALAR", 2⟩)], 1⟩) 4 (by decide) (by decide) (by decide)).2 (by decide)

end SQFVM

namespace debugger

theorem callstack_loop_eq (frames : List Frame) (lvl : Int) (data : List CallstackEntry) :
    callstack_loop frames lvl data =
      (lvl, data ++ frames.map (fun cs => (callstack_frame lvl cs).jcs)) := by
  induction frames generalizing data with
  | nil => simp [callstack_loop]
  | cons cs rest ih =>
    have h := ih (data ++ [(callstack_frame lvl cs).jcs])
    simp only [callstack_loop, List.foldl_cons] at h ⊢
    rw [h]; simp

theorem callstack_fold_jcs (varmap : List (String × String)) (locals : FrameLocals) :
    (varmap.foldl
      (fun (locals : FrameLocals) (pair : String × String) =>
        ({ locals with variables_ := locals.variables_ ++ [⟨pair.1, some pair.2⟩] } : FrameLocals))
      locals).jcs = locals.jcs := by
  induction varmap generalizing locals with
  | nil => rfl
  | cons pair rest ih => rw [List.foldl_cons, ih]

theorem callstack_frame_jcs (lvl : Int) (cs : Frame) :
    (callstack_frame lvl cs).jcs = ⟨lvl, cs.scopename, cs.namespace_name, []⟩ := by
  unfold callstack_frame
  exact callstack_fold_jcs _ _

theorem callstackmsg_data_eq (frames : List Frame) :
    callstackmsg_data frames =
      frames.map (fun cs => ⟨0, cs.scopename, cs.namespace_name, []⟩) := by
  unfold callstackmsg_data
  rw [callstack_loop_eq]
  simp [callstack_frame_jcs]

theorem compare_eq_zero (a b : String) : compare a b = 0 ↔ a = b := by
  unfold compare
  by_cases h : a = b
  · simp [h]
  · simp only [if_neg h]
    constructor
    · intro h0; split_ifs at h0; omega
    · intro h0; exact absurd h0 h

theorem seek_nonneg_step (frames : List Frame) (n : Nat) :
    seek frames (-(n : Int)) = frames.drop n := by
  induction n generalizing frames with
  | zero => cases frames <;> simp [seek]
  | succ n ih =>
    cases frames with
    | nil => simp [seek]
    | cons cs rest =>
      have hne : (-((n + 1 : Nat) : Int)) ≠ 0 := by omega
      have hstep : (-((n + 1 : Nat) : Int)) + 1 = -(n : Int) := by omega
      rw [seek, if_pos hne, hstep, ih]; rfl

/-- C19: the call-stack message has one entry for each frame, but the
member `variables` of every entry is the empty array, however many variables the
frame holds: `jcs["variables"] = variables` copies the array while it is empty
and the pairs are appended to the local copy. -/
theorem callstack_entries_have_no_variables (frames : List Frame) :
    (callstackmsg_data frames).length = frames.length ∧
      (callstackmsg_data frames).map CallstackEntry.variables_ = frames.map (fun _ => []) ∧
      callstackmsg_data [⟨"f", "missionNamespace", [("_x", "1")]⟩] =
        [⟨0, "f", "missionNamespace", []⟩] := by
  refine ⟨?_, ?_, by decide⟩
  · rw [callstackmsg_data_eq, List.length_map]
  · rw [callstackmsg_data_eq, List.map_map]; rfl

/-- C17: the tests on the string scope are inverted (`compare` is zero for
equal strings).  The scope "missionNamespace" is answered from the namespace
`uiNamespace`, and every other string, "uiNamespace", "profileNamespace" and
"parsingNamespace" among them, is answered from `missionNamespace`. -/
theorem string_scope_answered_from_other_namespace (m : Machine) (name scope : String) :
    variable_entry m ⟨name, .string "missionNamespace"⟩ =
        .ok [⟨name, some (m.nsvar .uiNamespace name)⟩] ∧
      variable_entry m ⟨name, .string "uiNamespace"⟩ =
        .ok [⟨name, some (m.nsvar .missionNamespace name)⟩] ∧
      variable_entry m ⟨name, .string "profileNamespace"⟩ =
        .ok [⟨name, some (m.nsvar .missionNamespace name)⟩] ∧
      variable_entry m ⟨name, .string "parsingNamespace"⟩ =
        .ok [⟨name, some (m.nsvar .missionNamespace name)⟩] ∧
      variable_entry m ⟨name, .string scope⟩ =
        .ok [⟨name, some (m.nsvar
          (if scope = "missionNamespace" then .uiNamespace else .missionNamespace) name)⟩] := by
  have key : ∀ s : String, variable_entry m ⟨name, .string s⟩ =
      .ok [⟨name, some (m.nsvar
          (if s = "missionNamespace" then .uiNamespace else .missionNamespace) name)⟩] := by
    intro s
    by_cases h : s = "missionNamespace"
    · subst h
      have h1 : compare "missionNamespace" "missionNamespace" = 0 := (compare_eq_zero _ _).2 rfl
      have h2 : compare "missionNamespace" "uiNamespace" ≠ 0 := by
        rw [Ne, compare_eq_zero]; decide
      simp only [variable_entry, h1, ne_eq, not_true_eq_false, if_false, h2, not_false_eq_true,
        if_true]
    · have h1 : compare s "missionNamespace" ≠ 0 := by rw [Ne, compare_eq_zero]; exact h
      simp only [variable_entry, ne_eq, h1, not_false_eq_true, if_true, if_neg h]
  refine ⟨?_, ?_, ?_, ?_, key scope⟩
  · rw [key]; rfl
  · rw [key]; rfl
  · rw [key]; rfl
  · rw [key]; rfl

theorem variable_entry_numeric (m : Machine) (name : String) (k : Int) :
    (0 < k → variable_entry m ⟨name, .number k⟩ = .error "numscope has to be <= 0") ∧
    (k ≤ 0 → ∀ h : k.natAbs < m.frames.length,
      variable_entry m ⟨name, .number k⟩ =
        .ok [⟨name, some (m.getvar (m.frames.get ⟨k.natAbs, h⟩) name)⟩]) ∧
    (k ≤ 0 → m.frames.length ≤ k.natAbs →
      variable_entry m ⟨name, .number k⟩ = .ok [⟨name, none⟩]) := by
  refine ⟨?_, ?_, ?_⟩
  · intro hk
    simp only [variable_entry, gt_iff_lt, if_pos hk]
  · intro hk h
    have hs : seek m.frames k = m.frames.drop k.natAbs := by
      have hkk : k = -((k.natAbs : Nat) : Int) := by omega
      have h3 := seek_nonneg_step m.frames k.natAbs
      rw [← hkk] at h3; exact h3
    have hnot : ¬ k > 0 := by omega
    simp only [variable_entry, if_neg hnot, hs]
    rw [List.drop_eq_getElem_cons h]
    rfl
  · intro hk h
    have hs : seek m.frames k = m.frames.drop k.natAbs := by
      have hkk : k = -((k.natAbs : Nat) : Int) := by omega
      have h3 := seek_nonneg_step m.frames k.natAbs
      rw [← hkk] at h3; exact h3
    have hnot : ¬ k > 0 := by omega
    simp only [variable_entry, if_neg hnot, hs]
    rw [List.drop_eq_nil_of_le h]

theorem variablemsg_loop_single (m : Machine) (req : Request) :
    variablemsg_loop m [req] = variable_entry m req := by
  simp only [variablemsg_loop]
  cases variable_entry m req with
  | error e => rfl
  | ok entry => simp

theorem variablemsg_serialize_error (m : Machine) (reqs : List Request) :
    variablemsg.serialize m reqs =
      .error (match variablemsg_loop m reqs with
        | .error e => e
        | .ok _ => "type must be string, but is object") := by
  unfold variablemsg.serialize
  cases variablemsg_loop m reqs with
  | error e => rfl
  | ok data => rfl

/-- C18: no reply to a get-variable request is produced, whatever the scope.
`variablemsg::serialize` returns its JSON object through the return type
`std::string`, a conversion that throws.  For a request entry with the numeric
scope `k <= 0` the loop builds the entry the claim describes (the variable of
the frame `|k|` places after the top frame when the call stack has more than
`|k|` frames, the value null otherwise), and the `return` then throws the type
error; for `k > 0` the loop throws "numscope has to be <= 0" before. -/
theorem numeric_scope_reply_is_lost (m : Machine) (name : String) (k : Int)
    (reqs : List Request) :
    (∀ text, variablemsg.serialize m reqs ≠ .ok text) ∧
    (k ≤ 0 →
      (∀ h : k.natAbs < m.frames.length, variablemsg_loop m [⟨name, .number k⟩] =
        .ok [⟨name, some (m.getvar (m.frames.get ⟨k.natAbs, h⟩) name)⟩]) ∧
      (m.frames.length ≤ k.natAbs →
        variablemsg_loop m [⟨name, .number k⟩] = .ok [⟨name, none⟩]) ∧
      variablemsg.serialize m [⟨name, .number k⟩] =
        .error "type must be string, but is object") ∧
    (0 < k →
      variablemsg.serialize m [⟨name, .number k⟩] = .error "numscope has to be <= 0") := by
  refine ⟨?_, ?_, ?_⟩
  · intro text h
    rw [variablemsg_serialize_error] at h
    cases h
  · intro hk
    have h1 := (variable_entry_numeric m name k).2.1 hk
    have h2 := (variable_entry_numeric m name k).2.2 hk
    refine ⟨?_, ?_, ?_⟩
    · intro h; rw [variablemsg_loop_single]; exact h1 h
    · intro h; rw [variablemsg_loop_single]; exact h2 h
    · rw [variablemsg_serialize_error, variablemsg_loop_single]
      by_cases h : k.natAbs < m.frames.length
      · rw [h1 h]
      · rw [h2 (by omega)]
  · intro hk
    rw [variablemsg_serialize_error, variablemsg_loop_single,
      (variable_entry_numeric m name k).1 hk]

/-- C18 at a call stack of two frames: for the scope `-1` the loop builds the
entry from the second frame and the serialization ends with the type error; for
the scope `1` it ends with "numscope has to be <= 0". -/
theorem numeric_scope_reply_is_lost_witness :
    variablemsg_loop ⟨[⟨"a", "ns", []⟩, ⟨"b", "ns", []⟩], fun cs n => cs.scopename ++ n,
        fun _ n => n⟩ [⟨"_x", .number (-1)⟩] = .ok [⟨"_x", some "b_x"⟩] ∧
      variablemsg.serialize ⟨[⟨"a", "ns", []⟩, ⟨"b", "ns", []⟩], fun cs n => cs.scopename ++ n,
        fun _ n => n⟩ [⟨"_x", .number (-1)⟩] = .error "type must be string, but is object" ∧
      variablemsg.serialize ⟨[⟨"a", "ns", []⟩, ⟨"b", "ns", []⟩], fun cs n => cs.scopename ++ n,
        fun _ n => n⟩ [⟨"_x", .number 1⟩] = .error "numscope has to be <= 0" :=
  ⟨((numeric_scope_reply_is_lost ⟨[⟨"a", "ns", []⟩, ⟨"b", "ns", []⟩],
      fun cs n => cs.scopename ++ n, fun _ n => n⟩ "_x" (-1) []).2.1 (by decide)).1 (by decide),
    ((numeric_scope_reply_is_lost ⟨[⟨"a", "ns", []⟩, ⟨"b", "ns", []⟩],
      fun cs n => cs.scopename ++ n, fun _ n => n⟩ "_x" (-1) []).2.1 (by decide)).2.2,
    (numeric_scope_reply_is_lost ⟨[⟨"a", "ns", []⟩, ⟨"b", "ns", []⟩],
      fun cs n => cs.scopename ++ n, fun _ n => n⟩ "_x" 1 []).2.2 (by decide)⟩

end debugger

namespace debugger

/-! ### The loop of `check` -/

theorem callstackmsg_serialize_error (frames : List Frame) :
    callstackmsg.serialize frames = .error "type must be string, but is object" := rfl

theorem errormsg_serialize_error (msg : String) :
    errormsg.serialize msg = .error "type must be string, but is object" := rfl

theorem check_message_eq (m : Machine) (msg : Message) :
    check_message m msg =
      match msg.mode with
      | none => .error "type must be string"
      | some mode =>
        if mode = "get-callstack" then .error "type must be string, but is object"
        else if mode = "control" then
          match msg.status with
          | none => .error "type must be string"
          | some _ => .ok []
        else if mode = "get-variable" then
          .error (match variablemsg_loop m msg.data with
            | .error e => e
            | .ok _ => "type must be string, but is object")
        else if mode = "set-breakpoint" then .ok []
        else .error "type must be string, but is object" := by
  unfold check_message
  cases msg.mode with
  | none => rfl
  | some mode =>
    simp only [compare_eq_zero, callstackmsg_serialize_error, errormsg_serialize_error,
      variablemsg_serialize_error]

theorem check_message_texts (m : Machine) (msg : Message) (texts : List String)
    (h : check_message m msg = .ok texts) : texts = [] := by
  rw [check_message_eq] at h
  cases hm : msg.mode with
  | none => rw [hm] at h; cases h
  | some mode =>
    rw [hm] at h
    simp only at h
    split_ifs at h
    all_goals first
      | (cases h; done)
      | (cases h; rfl)
      | (cases hs : msg.status <;> rw [hs] at h <;> cases h; rfl)

theorem check_pushed (m : Machine) (inbox : List Message) : (check m inbox).pushed = [] := by
  induction inbox with
  | nil => rfl
  | cons msg rest ih =>
    unfold check
    cases h : check_message m msg with
    | error e => rfl
    | ok texts =>
      have h1 := check_message_texts m msg texts h
      subst h1
      simpa using ih

/-- C35: `check` never pushes a message.  Each `push_message` of the function
takes a message object converted by `srvmessage::operator std::string()`, that
is by `serialize()`, and every `serialize()` returns its JSON object through
the return type `std::string`, a conversion that throws.  So the first message
of the inbox whose mode is `get-callstack`, `get-variable` or none of the four
modes ends `check` with an exception, with no reply pushed and the messages
behind it left in the inbox; only `control` and `set-breakpoint` messages pass
without an exception. -/
theorem check_pushes_nothing (m : Machine) (inbox rest : List Message) (mode : String)
    (status : Option String) (data : List Request) :
    (check m inbox).pushed = [] ∧
    check m (⟨some "get-callstack", status, data⟩ :: rest) =
      { pushed := [], inbox := rest, thrown := some "type must be string, but is object" } ∧
    (∃ e, check m (⟨some "get-variable", status, data⟩ :: rest) =
      { pushed := [], inbox := rest, thrown := some e }) ∧
    (mode ≠ "get-callstack" → mode ≠ "control" → mode ≠ "get-variable" →
      mode ≠ "set-breakpoint" →
      check m (⟨some mode, status, data⟩ :: rest) =
        { pushed := [], inbox := rest, thrown := some "type must be string, but is object" }) := by
  refine ⟨check_pushed m inbox, ?_, ?_, ?_⟩
  · have h : check_message m ⟨some "get-callstack", status, data⟩ =
        .error "type must be string, but is object" := by
      rw [check_message_eq]; rfl
    simp only [check, h]
  · have h : check_message m ⟨some "get-variable", status, data⟩ =
        .error (match variablemsg_loop m data with
            | .error e => e
            | .ok _ => "type must be string, but is object") := by
      rw [check_message_eq]
      simp only
      rw [if_neg (by decide), if_neg (by decide), if_pos trivial]
    refine ⟨(match variablemsg_loop m data with
      | .error e => e
      | .ok _ => "type must be string, but is object"), ?_⟩
    simp only [check, h]
  · intro h1 h2 h3 h4
    have h : check_message m ⟨some mode, status, data⟩ =
        .error "type must be string, but is object" := by
      rw [check_message_eq]
      simp only
      rw [if_neg h1, if_neg h2, if_neg h3, if_neg h4]
    simp only [check, h]

/-- C35 on an inbox that starts with a message of the unknown mode `step`:
no error message is pushed, `check` ends with the type error and the
`get-callstack` message behind it stays in the inbox. -/
theorem check_pushes_nothing_witness :
    check ⟨[⟨"f", "missionNamespace", []⟩], fun _ n => n, fun _ n => n⟩
        [⟨some "step", none, []⟩, ⟨some "get-callstack", none, []⟩] =
      { pushed := [], inbox := [⟨some "get-callstack", none, []⟩],
        thrown := some "type must be string, but is object" } :=
  (check_pushes_nothing ⟨[⟨"f", "missionNamespace", []⟩], fun _ n => n, fun _ n => n⟩ []
    [⟨some "get-callstack", none, []⟩] "step" none []).2.2.2
    (by decide) (by decide) (by decide) (by decide)

/-! ### The levels of the call-stack message -/

/-- C36: no statement of the loop of `callstackmsg::serialize` changes the
counter `lvl`, so every entry of the message has the level 0; with two frames
the two entries carry the same level. -/
theorem callstack_levels_all_zero (frames : List Frame) :
    (callstackmsg_data frames).map CallstackEntry.lvl = frames.map (fun _ => 0) ∧
      (callstackmsg_data [⟨"outer", "missionNamespace", []⟩,
        ⟨"inner", "missionNamespace", []⟩]).map CallstackEntry.lvl = [0, 0] := by
  refine ⟨?_, by decide⟩
  rw [callstackmsg_data_eq, List.map_map]
  rfl

end debugger

namespace logmessage

/-- C20: every message class of `logging.h` has its code inside the range
of its component (preprocessor 10001-19999, assembly 20001-29999, SQF
30001-39999, config 40001-49999, linting 50001-59999, runtime from 60001 on),
and no two of the 80 classes have the same code. -/
theorem codes_in_range_and_distinct :
    classes.length = 80 ∧ classes.all inRange = true ∧
      (classes.map MessageClass.errorCode).Nodup := by
  refine ⟨rfl, rfl, ?_⟩
  decide

end logmessage

namespace logmessage

/-- C21: the three diagnostics whose severity the specification fixes have
that severity in `logging.h`: `MacroNotFound` and `MacroDefinedTwice` are
warnings, `MaximumInstructionCountReached` is fatal. -/
theorem fixed_severities :
    levelOf .preprocessor "MacroNotFound" = some .warning ∧
      levelOf .preprocessor "MacroDefinedTwice" = some .warning ∧
      levelOf .runtime "MaximumInstructionCountReached" = some .fatal := by
  decide

/-- C29: `IndexOutOfRangeWeak` has the level `error`, the same as
`IndexOutOfRange`.  The other five runtime classes whose name ends in `Weak`
are warnings, and their counterparts are errors. -/
theorem index_out_of_range_weak_is_error :
    levelOf .runtime "IndexOutOfRangeWeak" = some .error ∧
      levelOf .runtime "IndexOutOfRange" = some .error ∧
      [levelOf .runtime "ExpectedArraySizeMissmatchWeak",
        levelOf .runtime "ExpectedMinimumArraySizeMissmatchWeak",
        levelOf .runtime "ExpectedArrayTypeMissmatchWeak",
        levelOf .runtime "NegativeIndexWeak",
        levelOf .runtime "NegativeSizeWeak"] = List.replicate 5 (some .warning) ∧
      [levelOf .runtime "ExpectedArraySizeMissmatch",
        levelOf .runtime "ExpectedMinimumArraySizeMissmatch",
        levelOf .runtime "ExpectedArrayTypeMissmatch",
        levelOf .runtime "NegativeIndex",
        levelOf .runtime "NegativeSize"] = List.replicate 5 (some .error) := by
  decide

end logmessage

namespace logging

/-- C30: the vector `enabledWarningLevels` of a freshly constructed
`StdOutLogger` has no element, so `isEnabled` reads outside the vector for each
of the six levels. -/
theorem stdout_logger_has_no_levels :
    StdOutLogger.enabledWarningLevels.length = 0 ∧
      [StdOutLogger.isEnabled .fatal, StdOutLogger.isEnabled .error,
        StdOutLogger.isEnabled .warning, StdOutLogger.isEnabled .info,
        StdOutLogger.isEnabled .verbose, StdOutLogger.isEnabled .trace] =
        List.replicate 6 none := by
  decide

end logging
